import Mathlib

/-!
Shallow embedding of the tweet-query engine of `latam-challenge-jp`
(`src/queries/dates/q1_memory.py`, `q1_time.py`, `src/queries/emojis/q2_memory.py`,
`q2_time.py`, `src/queries/mentions/q3_memory.py`, `q3_time.py`).

Python `collections.Counter` objects are modelled as insertion-ordered
association lists (CPython dicts preserve insertion order, and
`Counter.most_common` / `heapq.nlargest` / `sorted` are stable, so ties keep
that order).  Keys are an abstract linearly ordered type.  Fallible paths
(opening the ZIP archive) are modelled with `Except`.
-/

set_option linter.unusedSectionVars false

namespace TweetQueries

/-- Python `collections.Counter` as an insertion-ordered association list:
list order is dict insertion order (first occurrence of each key). -/
abbrev CounterL (K : Type) := List (K × Nat)

/-- `counter[k] += m`: increment in place if the key is present, otherwise
append at the end (dict insertion order). -/
def bump {K : Type} [DecidableEq K] (k : K) (m : Nat) : CounterL K → CounterL K
  | [] => [(k, m)]
  | (k', n) :: rest => if k' = k then (k', n + m) :: rest else (k', n) :: bump k m rest

/-- `counter[k]`: missing keys read as 0 (`Counter` semantics). -/
def cnt {K : Type} [DecidableEq K] (c : CounterL K) (k : K) : Nat :=
  match c with
  | [] => 0
  | (k', n) :: rest => if k' = k then n else cnt rest k

/-- The keys of a counter, in insertion order. -/
def keysOf {K : Type} (c : CounterL K) : List K := c.map Prod.fst

/-- `counter.update(iterable)`: one `counter[k] += 1` per element, in order. -/
def updList {K : Type} [DecidableEq K] (c : CounterL K) (ks : List K) : CounterL K :=
  ks.foldl (fun acc k => bump k 1 acc) c

/-- `counter.update(other_counter)`: add the other counter's counts, iterating
its entries in its insertion order (new keys are appended in that order). -/
def mergeCounter {K : Type} [DecidableEq K] (c other : CounterL K) : CounterL K :=
  other.foldl (fun acc p => bump p.1 p.2 acc) c

/-- Build a counter from scratch from a list of elements. -/
def counterOf {K : Type} [DecidableEq K] (ks : List K) : CounterL K := updList [] ks

/-- The comparison used by `Counter.most_common` / `heapq.nlargest(key=count)`:
sort by count descending.  Stable insertion keeps insertion order on ties. -/
def countGE {K : Type} (a b : K × Nat) : Prop := b.2 ≤ a.2

instance {K : Type} : DecidableRel (countGE (K := K)) := fun a b => Nat.decLe b.2 a.2

instance {K : Type} : IsTotal (K × Nat) (countGE (K := K)) :=
  ⟨fun a b => (Nat.le_total b.2 a.2).imp id id⟩

instance {K : Type} : IsTrans (K × Nat) (countGE (K := K)) :=
  ⟨fun _ _ _ h h' => Nat.le_trans h' h⟩

/-- Stable sort of counter entries by count descending (Python's `sorted` with
`reverse=True` keeps ties in original order, as does `heapq.nlargest`). -/
def sortDesc {K : Type} (c : CounterL K) : CounterL K :=
  c.insertionSort countGE

/-- `Counter.most_common(n)` and `heapq.nlargest(n, items, key=count)`:
stable sort by count descending, take `n`. -/
def mostCommon {K : Type} (n : Nat) (c : CounterL K) : CounterL K :=
  (sortDesc c).take n

/-- Key-ascending comparison (pandas `groupby` sorts its keys ascending). -/
def keyLE {K : Type} [LinearOrder K] (a b : K × Nat) : Prop := a.1 ≤ b.1

instance {K : Type} [LinearOrder K] : DecidableRel (keyLE (K := K)) :=
  fun a b => inferInstanceAs (Decidable (a.1 ≤ b.1))

instance {K : Type} [LinearOrder K] : IsTotal (K × Nat) (keyLE (K := K)) :=
  ⟨fun a b => le_total a.1 b.1⟩

instance {K : Type} [LinearOrder K] : IsTrans (K × Nat) (keyLE (K := K)) :=
  ⟨fun _ _ _ h h' => le_trans h h'⟩

/-- Sort counter entries by key ascending. -/
def sortKeyAsc {K : Type} [LinearOrder K] (c : CounterL K) : CounterL K :=
  c.insertionSort keyLE

/-- pandas `concat(series).groupby(level=0).sum()`: sum the counts of equal
keys and return the entries ordered by key ascending. -/
def groupSumByKey {K : Type} [LinearOrder K] (entries : List (K × Nat)) : CounterL K :=
  sortKeyAsc (mergeCounter [] entries)

/-- Python dict write `d[k] = v`: overwrite in place or append at the end. -/
def dictInsert {K V : Type} [DecidableEq K] (k : K) (v : V) :
    List (K × V) → List (K × V)
  | [] => [(k, v)]
  | (k', v') :: rest =>
    if k' = k then (k', v) :: rest else (k', v') :: dictInsert k v rest

/-- Python dict read `d.get(k)`. -/
def dictGet {K V : Type} [DecidableEq K] (d : List (K × V)) (k : K) : Option V :=
  match d with
  | [] => none
  | (k', v) :: rest => if k' = k then some v else dictGet rest k

/-- `k in d` for a Python dict. -/
def dictMem {K V : Type} [DecidableEq K] (d : List (K × V)) (k : K) : Bool :=
  (dictGet d k).isSome

/-! ## Error model

All fatal failures of the queries surface as `TweetRepositoryError`
(`src/utils/exceptions.py`); the queries re-wrap every unexpected exception
into it. -/

inductive QErr : Type
  | tweetRepositoryError
deriving DecidableEq

/-! ## `DateTracker` (q1_memory.py) -/

/-- State of `q1_memory.DateTracker`. -/
structure DateTracker (D U : Type) where
  date_counts : CounterL D
  current_user_counts : CounterL U
  top_users : List (D × U)
  current_date : Option D
  max_dates : Nat
deriving DecidableEq

/-- `DateTracker.__init__(max_dates=20)`. -/
def DateTracker.init (D U : Type) (max_dates : Nat := 20) : DateTracker D U :=
  { date_counts := [], current_user_counts := [], top_users := []
    current_date := none, max_dates := max_dates }

/-- `self._prune_threshold = max_dates * 2`. -/
def DateTracker.pruneThreshold {D U : Type} (t : DateTracker D U) : Nat :=
  t.max_dates * 2

/-- `min` of a non-empty Python list (the `[]` case is unreachable where the
source calls it, since there `len(date_counts) ≥ max_dates = 20 > 0`). -/
def listMin : List Nat → Nat
  | [] => 0
  | x :: xs => xs.foldl Nat.min x

/-- `DateTracker._get_min_count`: 0 while fewer than `max_dates` dates are
tracked, otherwise the minimum count among the top `max_dates` dates. -/
def DateTracker.getMinCount {D U : Type} (t : DateTracker D U) : Nat :=
  if t.date_counts.length < t.max_dates then 0
  else listMin ((mostCommon t.max_dates t.date_counts).map Prod.snd)

/-- `DateTracker._prune_data`: drop every date whose count is strictly below
`_get_min_count()`, then drop `top_users` entries whose date no longer
reaches that count in the (already reassigned) `date_counts`. -/
def DateTracker.pruneData {D U : Type} [DecidableEq D] (t : DateTracker D U) :
    DateTracker D U :=
  let m := t.getMinCount
  let dc := t.date_counts.filter (fun p => m ≤ p.2)
  { t with date_counts := dc
           top_users := t.top_users.filter (fun p => m ≤ cnt dc p.1) }

/-- The group-closing step shared by `add_tweet` (when the date changes) and
`get_top_results` (for the final open date): if a date is open and its user
counter is non-empty, record that date's most active user in `top_users`,
provided the date's count reaches `_get_min_count()`. -/
def DateTracker.closeGroup {D U : Type} [DecidableEq D] (t : DateTracker D U) :
    DateTracker D U :=
  match t.current_date with
  | none => t
  | some d =>
    match mostCommon 1 t.current_user_counts with
    | [] => t
    | (topUser, _) :: _ =>
      if t.getMinCount ≤ cnt t.date_counts d then
        { t with top_users := dictInsert d topUser t.top_users }
      else t

/-- `self.date_counts[date] += 1` (first line of `add_tweet`). -/
def DateTracker.countDate {D U : Type} [DecidableEq D] (t : DateTracker D U)
    (d : D) : DateTracker D U :=
  { t with date_counts := bump d 1 t.date_counts }

/-- The `if date != self.current_date:` block of `add_tweet`: close the
previous group, clear the user counter and open the new date. -/
def DateTracker.switchDate {D U : Type} [DecidableEq D] (t : DateTracker D U)
    (d : D) : DateTracker D U :=
  if t.current_date = some d then t
  else { t.closeGroup with current_user_counts := [], current_date := some d }

/-- `self.current_user_counts[username] += 1`. -/
def DateTracker.countUser {D U : Type} [DecidableEq U] (t : DateTracker D U)
    (u : U) : DateTracker D U :=
  { t with current_user_counts := bump u 1 t.current_user_counts }

/-- The final pruning check of `add_tweet`. -/
def DateTracker.maybePrune {D U : Type} [DecidableEq D] (t : DateTracker D U) :
    DateTracker D U :=
  if t.pruneThreshold < t.date_counts.length then t.pruneData else t

/-- `DateTracker.add_tweet(date, username)`: count the date; on a date change
close the previous group, clear the user counter and open the new date; count
the user; prune when more than `_prune_threshold` dates are tracked. -/
def DateTracker.addTweet {D U : Type} [DecidableEq D] [DecidableEq U]
    (t : DateTracker D U) (d : D) (u : U) : DateTracker D U :=
  (((t.countDate d).switchDate d).countUser u).maybePrune

/-- `DateTracker.get_top_results(n=10)`: close the still-open date (this
mutates `top_users`, hence the updated tracker is returned as well), then
pair each of the top `n` dates with its recorded top user, silently skipping
dates that have no `top_users` entry. -/
def DateTracker.getTopResults {D U : Type} [DecidableEq D]
    (t : DateTracker D U) (n : Nat := 10) : List (D × U) × DateTracker D U :=
  let tc := t.closeGroup
  let top_dates := mostCommon n tc.date_counts
  (top_dates.filterMap (fun p => (dictGet tc.top_users p.1).map (fun u => (p.1, u))), tc)

/-! ## q1 input model

JSON decoding and field extraction are external (spec §6); a line of the
archive's member file either yields a `(date, username)` record or is
malformed (`json.JSONDecodeError` / `KeyError` / `ValueError`), in which case
`process_tweets` logs and skips it. -/

inductive Q1Line (D U : Type)
  | malformed
  | valid (d : D) (u : U)

/-- The record a line yields, if any. -/
def Q1Line.record {D U : Type} : Q1Line D U → Option (D × U)
  | .malformed => none
  | .valid d u => some (d, u)

/-- `q1_memory.process_tweets`: an archive with no member file raises
(`namelist()[0]` → `IndexError`, re-raised as `TweetRepositoryError`);
otherwise the first member's well-formed lines become records in order. -/
def q1ProcessTweets {D U : Type} (members : List (List (Q1Line D U))) :
    Except QErr (List (D × U)) :=
  match members with
  | [] => .error .tweetRepositoryError
  | m :: _ => .ok (m.filterMap Q1Line.record)

/-- The aggregation loop of `q1_memory` over the decoded records. -/
def q1MemoryRun {D U : Type} [DecidableEq D] [DecidableEq U]
    (records : List (D × U)) : List (D × U) :=
  ((records.foldl (fun t r => t.addTweet r.1 r.2) (DateTracker.init D U)).getTopResults 10).1

/-- `q1_memory(file_path)` over an abstract archive. -/
def q1Memory {D U : Type} [DecidableEq D] [DecidableEq U]
    (members : List (List (Q1Line D U))) : Except QErr (List (D × U)) :=
  (q1ProcessTweets members).map q1MemoryRun

/-! ## `MentionTracker` (q3_memory.py) -/

/-- State of `q3_memory.MentionTracker`.  Mention extraction
(`pattern.findall`) is external; `process_tweet` here receives the extracted
mention list of one tweet. -/
structure MentionTracker (K : Type) where
  mention_counts : CounterL K
  max_mentions : Nat
  cleanup_frequency : Nat
  tweets_processed : Nat
  mentions_found : Nat
deriving DecidableEq

/-- `MentionTracker.__init__(max_mentions=100, cleanup_frequency=10000)`. -/
def MentionTracker.init (K : Type) (max_mentions : Nat := 100)
    (cleanup_frequency : Nat := 10000) : MentionTracker K :=
  { mention_counts := [], max_mentions := max_mentions
    cleanup_frequency := cleanup_frequency, tweets_processed := 0, mentions_found := 0 }

/-- `MentionTracker._should_cleanup`. -/
def MentionTracker.shouldCleanup {K : Type} (t : MentionTracker K) : Bool :=
  t.tweets_processed % t.cleanup_frequency == 0 && t.max_mentions < t.mention_counts.length

/-- `MentionTracker._cleanup_memory`: keep only the `max_mentions` most
common mentions (`Counter(dict(most_common(max_mentions)))`). -/
def MentionTracker.cleanupMemory {K : Type} (t : MentionTracker K) : MentionTracker K :=
  { t with mention_counts := mostCommon t.max_mentions t.mention_counts }

/-- The counting phase of `MentionTracker.process_tweet` (everything before
the cleanup check). -/
def MentionTracker.countPhase {K : Type} [DecidableEq K] (t : MentionTracker K)
    (mentions : List K) : MentionTracker K :=
  { t with mention_counts := updList t.mention_counts mentions
           mentions_found := t.mentions_found + mentions.length
           tweets_processed := t.tweets_processed + 1 }

/-- `MentionTracker.process_tweet` on one tweet's extracted mentions. -/
def MentionTracker.processTweet {K : Type} [DecidableEq K] (t : MentionTracker K)
    (mentions : List K) : MentionTracker K :=
  let t1 := t.countPhase mentions
  if t1.shouldCleanup then t1.cleanupMemory else t1

/-- `MentionTracker.get_top_mentions(n=10)`: a read-only query; returned
together with the (unchanged) tracker to mirror the method-call shape. -/
def MentionTracker.getTopMentions {K : Type} (t : MentionTracker K) (n : Nat := 10) :
    List (K × Nat) × MentionTracker K :=
  (mostCommon n t.mention_counts, t)

/-! ## q2/q3 input model

For q2 and q3 a decoded line either fails `json.loads` (skipped), has a falsy
`tweet.get('content')` — absent or empty string — (skipped), or yields a
content value. -/

inductive ContentLine (T : Type)
  | malformed
  | noContent
  | content (t : T)

/-- The content a line yields, if any. -/
def ContentLine.text {T : Type} : ContentLine T → Option T
  | .malformed => none
  | .noContent => none
  | .content t => some t

/-- The shared ZIP/line handling of `q2_memory.batch_process_tweets` and
`q3_memory.process_tweets`: an archive with no member raises
`TweetRepositoryError` (explicit `IndexError` handler); otherwise the first
member's lines with truthy content are yielded in order. -/
def contentProcessTweets {T : Type} (members : List (List (ContentLine T))) :
    Except QErr (List T) :=
  match members with
  | [] => .error .tweetRepositoryError
  | m :: _ => .ok (m.filterMap ContentLine.text)

/-- The aggregation loop of `q3_memory` over the yielded contents, with
`extract` the external mention extractor (`pattern.findall`). -/
def q3MemoryRun {K T : Type} [DecidableEq K] (extract : T → List K)
    (texts : List T) : List (K × Nat) :=
  let t := texts.foldl (fun tr tx => tr.processTweet (extract tx)) (MentionTracker.init K)
  if t.mentions_found = 0 then [] else (t.getTopMentions 10).1

/-- `q3_memory(file_path)` over an abstract archive. -/
def q3Memory {K T : Type} [DecidableEq K] (extract : T → List K)
    (members : List (List (ContentLine T))) : Except QErr (List (K × Nat)) :=
  (contentProcessTweets members).map (q3MemoryRun extract)

/-! ## q2 memory (q2_memory.py)

Tweet contents are character lists; `emoji.EMOJI_DATA` membership is an
external table, modelled by the predicate `isEmoji`. -/

/-- `extract_emojis(text)`. -/
def extractEmojis {C : Type} (isEmoji : C → Bool) (text : List C) : List C :=
  text.filter isEmoji

/-- The accumulation loop of `batch_process_tweets`: append each content to
`current_batch`, yield it once it reaches `batch_size`, and yield the final
partial batch if non-empty. -/
def batchAcc {T : Type} (n : Nat) : List T → List T → List (List T)
  | [], acc => if acc.isEmpty then [] else [acc]
  | x :: xs, acc =>
    let acc' := acc ++ [x]
    if n ≤ acc'.length then acc' :: batchAcc n xs [] else batchAcc n xs acc'

/-- The batches yielded by `batch_process_tweets(batch_size=1000)`. -/
def batchify {T : Type} (n : Nat) (l : List T) : List (List T) :=
  batchAcc n l []

/-- The aggregation loop of `q2_memory` over the yielded batches: per text,
extract and count emojis; after each batch, if the cumulative number of
processed tweets is a multiple of 10000, shrink the counter to its 100 most
common entries. -/
def q2MemoryRun {C : Type} [DecidableEq C] (isEmoji : C → Bool)
    (texts : List (List C)) : List (C × Nat) :=
  let final :=
    (batchify 1000 texts).foldl
      (fun (st : CounterL C × Nat) batch =>
        let counts := batch.foldl (fun cs tx => updList cs (extractEmojis isEmoji tx)) st.1
        let processed := st.2 + batch.length
        (if processed % 10000 = 0 then mostCommon 100 counts else counts, processed))
      ([], 0)
  if final.1 = [] then [] else mostCommon 10 final.1

/-- `q2_memory(file_path)` over an abstract archive. -/
def q2Memory {C : Type} [DecidableEq C] (isEmoji : C → Bool)
    (members : List (List (ContentLine (List C)))) : Except QErr (List (C × Nat)) :=
  (contentProcessTweets members).map (q2MemoryRun isEmoji)

/-! ## q2 time (q2_time.py)

`q2_time` reads all records at once, splits the content column into chunks,
counts emojis per chunk in a process pool and merges the chunk counters in
completion order (`as_completed`), which is why the models below take the
chunk list in an arbitrary order.  A missing content field surfaces as a
non-string (`NaN`) and is skipped by the `isinstance` guard. -/

/-- `q2_time.process_chunk`. -/
def processChunk {C : Type} [DecidableEq C] (isEmoji : C → Bool)
    (texts : List (Option (List C))) : CounterL C :=
  texts.foldl
    (fun cs tx? => match tx? with
      | none => cs
      | some tx => updList cs (extractEmojis isEmoji tx))
    []

/-- The result-collection loop of `q2_time` (lines 80–89): each future either
returns a chunk counter or raises; a raising chunk is logged and *skipped*
(the `except` inside the loop), the others are merged into `total_counter` in
completion order. -/
def q2TimeStep {K : Type} [DecidableEq K] (acc : CounterL K)
    (o : Except Unit (CounterL K)) : CounterL K :=
  match o with
  | .ok c => mergeCounter acc c
  | .error _ => acc

def q2TimeCollect {K : Type} [DecidableEq K]
    (outcomes : List (Except Unit (CounterL K))) : CounterL K :=
  outcomes.foldl q2TimeStep []

/-- The tail of `q2_time` after the pool: empty counter → `[]`, otherwise
`most_common(10)`. -/
def q2TimeFromOutcomes {K : Type} [DecidableEq K]
    (outcomes : List (Except Unit (CounterL K))) : List (K × Nat) :=
  let total := q2TimeCollect outcomes
  if total = [] then [] else mostCommon 10 total

/-- `q2_time` on a given chunk partition (listed in completion order), when
no worker fails. -/
def q2TimeRun {C : Type} [DecidableEq C] (isEmoji : C → Bool)
    (chunks : List (List (Option (List C)))) : List (C × Nat) :=
  q2TimeFromOutcomes (chunks.map (fun ch => .ok (processChunk isEmoji ch)))

/-! ## q3 time (q3_time.py) -/

/-- `pd.Series(mentions).value_counts()`: counts sorted descending. -/
def valueCounts {K : Type} [DecidableEq K] (ks : List K) : CounterL K :=
  sortDesc (counterOf ks)

/-- `q3_time.process_chunk_parallel`: extend a mention list per text
(non-strings contribute nothing), then `value_counts`. -/
def q3ProcessChunkParallel {K T : Type} [DecidableEq K] (extract : T → List K)
    (chunk : List (Option T)) : CounterL K :=
  valueCounts
    (chunk.foldl
      (fun acc t? => acc ++ (match t? with | none => [] | some t => extract t)) [])

/-- Collecting `pool.imap_unordered` results (lines 51–57): iterating the
results re-raises the first worker exception, which the enclosing
`except Exception` turns into a `TweetRepositoryError`; otherwise all chunk
results are collected. -/
def q3TimeCollect {S : Type} : List (Except Unit S) → Except QErr (List S)
  | [] => .ok []
  | .error _ :: _ => .error .tweetRepositoryError
  | .ok s :: rest => (q3TimeCollect rest).map (s :: ·)

/-- The tail of `q3_time` after the pool:
`pd.concat(chunk_results).groupby(level=0).sum()` (keys ascending), then
`nlargest(10)` and `zip(index, values)`. -/
def q3TimeFromChunkCounters {K : Type} [LinearOrder K]
    (chunkResults : List (CounterL K)) : List (K × Nat) :=
  mostCommon 10 (groupSumByKey chunkResults.flatten)

/-- `q3_time` on a given chunk partition when no worker fails. -/
def q3TimeRun {K T : Type} [LinearOrder K] (extract : T → List K)
    (chunks : List (List (Option T))) : List (K × Nat) :=
  q3TimeFromChunkCounters (chunks.map (q3ProcessChunkParallel extract))

/-- `q3_time` with explicit worker outcomes (for the failure-propagation
behaviour). -/
def q3TimeWithOutcomes {K : Type} [LinearOrder K]
    (outcomes : List (Except Unit (CounterL K))) : Except QErr (List (K × Nat)) :=
  (q3TimeCollect outcomes).map q3TimeFromChunkCounters

/-! ## q1 time (q1_time.py)

`q1_time` is vectorized: per-`(date, username)` sizes (pandas sorts group
keys ascending, here lexicographically), per-date sums, `nlargest(10)` dates,
then for each top date — *in date-ascending order*, because of the final
`groupby('date').first()` — the username with the maximal count on that
date.  `sort_values` uses an unstable quicksort, so which user wins among
equal maximal counts is unspecified; this model resolves such ties towards
the user that comes first in the `(date, user)`-ascending base order, and
every theorem whose truth depends on that choice assumes a unique winner. -/

/-- Lexicographic order on `(date, username)` group keys. -/
def q1KeyLE {D U : Type} [LinearOrder D] [LinearOrder U]
    (a b : (D × U) × Nat) : Prop :=
  a.1.1 < b.1.1 ∨ (a.1.1 = b.1.1 ∧ a.1.2 ≤ b.1.2)

instance {D U : Type} [LinearOrder D] [LinearOrder U] :
    DecidableRel (q1KeyLE (D := D) (U := U)) :=
  fun _ _ => inferInstanceAs (Decidable (_ ∨ _))

instance {D U : Type} [LinearOrder D] [LinearOrder U] :
    IsTotal ((D × U) × Nat) (q1KeyLE (D := D) (U := U)) where
  total a b := by
    rcases lt_trichotomy a.1.1 b.1.1 with h | h | h
    · exact Or.inl (Or.inl h)
    · rcases le_total a.1.2 b.1.2 with h' | h'
      · exact Or.inl (Or.inr ⟨h, h'⟩)
      · exact Or.inr (Or.inr ⟨h.symm, h'⟩)
    · exact Or.inr (Or.inl h)

instance {D U : Type} [LinearOrder D] [LinearOrder U] :
    IsTrans ((D × U) × Nat) (q1KeyLE (D := D) (U := U)) where
  trans a b c hab hbc := by
    rcases hab with h | ⟨he, hu⟩
    · rcases hbc with h' | ⟨he', _⟩
      · exact Or.inl (h.trans h')
      · exact Or.inl (he' ▸ h)
    · rcases hbc with h' | ⟨he', hu'⟩
      · exact Or.inl (he ▸ h')
      · exact Or.inr ⟨he.trans he', hu.trans hu'⟩

/-- `df.groupby(['date', 'username']).size()`: per-pair counts, group keys
sorted ascending (lexicographically). -/
def q1TimeGrouped {D U : Type} [LinearOrder D] [LinearOrder U]
    (records : List (D × U)) : List ((D × U) × Nat) :=
  (counterOf records).insertionSort q1KeyLE

/-- `grouped.groupby('date')['count'].sum()`: per-date totals, dates
ascending. -/
def q1TimeDateCounts {D U : Type} [LinearOrder D] [LinearOrder U]
    (records : List (D × U)) : CounterL D :=
  groupSumByKey ((q1TimeGrouped records).map (fun p => (p.1.1, p.2)))

/-- `date_counts.nlargest(10)`. -/
def q1TimeTopDates {D U : Type} [LinearOrder D] [LinearOrder U]
    (records : List (D × U)) : CounterL D :=
  mostCommon 10 (q1TimeDateCounts records)

/-- The per-user counts of one date inside `filtered`, in user-ascending base
order (the lexicographic sort puts a date's rows consecutively, users
ascending). -/
def q1TimeUsersFor {D U : Type} [LinearOrder D] [LinearOrder U]
    (records : List (D × U)) (d : D) : CounterL U :=
  ((q1TimeGrouped records).filter (fun p => p.1.1 = d)).map (fun p => (p.1.2, p.2))

/-- One output row of `q1_time`: the date paired with its maximal-count user
(`groupby('date').first()` after the count-descending sort). -/
def q1TimeRow {D U : Type} [LinearOrder D] [LinearOrder U]
    (records : List (D × U)) (d : D) : Option (D × U) :=
  (mostCommon 1 (q1TimeUsersFor records d)).head?.map (fun p => (d, p.1))

/-- The full `q1_time` result over the decoded records: one row per top-10
date, dates ascending (an empty frame returns `[]`, matching the
`top_dates.empty` early return). -/
def q1TimeRun {D U : Type} [LinearOrder D] [LinearOrder U]
    (records : List (D × U)) : List (D × U) :=
  (((q1TimeDateCounts records).map Prod.fst).filter
      (fun d => d ∈ (q1TimeTopDates records).map Prod.fst)).filterMap
    (q1TimeRow records)

/-! ## Counter lemmas -/

section CounterLemmas

variable {K : Type} [DecidableEq K]

theorem keysOf_nil : keysOf ([] : CounterL K) = [] := rfl

theorem keysOf_cons (p : K × Nat) (c : CounterL K) :
    keysOf (p :: c) = p.1 :: keysOf c := rfl

theorem cnt_nil (k : K) : cnt ([] : CounterL K) k = 0 := rfl

theorem cnt_cons (k' k : K) (n : Nat) (rest : CounterL K) :
    cnt ((k', n) :: rest) k = if k' = k then n else cnt rest k := rfl

theorem cnt_bump (k k' : K) (m : Nat) (c : CounterL K) :
    cnt (bump k m c) k' = cnt c k' + if k = k' then m else 0 := by
  induction c with
  | nil => by_cases h : k = k' <;> simp [bump, cnt_cons, cnt_nil, h]
  | cons p rest ih =>
    obtain ⟨k₀, n₀⟩ := p
    by_cases h0 : k₀ = k
    · subst h0
      by_cases h1 : k₀ = k'
      · subst h1; simp [bump, cnt_cons]
      · simp [bump, cnt_cons, h1]
    · by_cases h1 : k₀ = k'
      · subst h1
        have : ¬ k = k₀ := fun h => h0 h.symm
        simp [bump, cnt_cons, h0, this]
      · simp [bump, cnt_cons, h0, h1, ih]

theorem mem_keysOf {c : CounterL K} {k : K} :
    k ∈ keysOf c ↔ ∃ n, (k, n) ∈ c := by
  simp only [keysOf, List.mem_map]
  constructor
  · rintro ⟨⟨a, b⟩, hm, rfl⟩
    exact ⟨b, hm⟩
  · rintro ⟨n, hm⟩
    exact ⟨(k, n), hm, rfl⟩

theorem keysOf_bump (k : K) (m : Nat) (c : CounterL K) :
    keysOf (bump k m c) = if k ∈ keysOf c then keysOf c else keysOf c ++ [k] := by
  induction c with
  | nil => simp [bump, keysOf]
  | cons p rest ih =>
    obtain ⟨k₀, n₀⟩ := p
    by_cases h0 : k₀ = k
    · subst h0
      simp [bump, keysOf]
    · have h0' : ¬ k = k₀ := fun h => h0 h.symm
      by_cases h1 : k ∈ keysOf rest
      · rw [if_pos h1] at ih
        rw [bump, if_neg h0, keysOf_cons, keysOf_cons, ih,
          if_pos (by simp [h1])]
      · rw [if_neg h1] at ih
        rw [bump, if_neg h0, keysOf_cons, keysOf_cons, ih,
          if_neg (by simp [h0', h1]), List.cons_append]

theorem mem_keysOf_bump {k k' : K} {m : Nat} {c : CounterL K} :
    k' ∈ keysOf (bump k m c) ↔ k' = k ∨ k' ∈ keysOf c := by
  rw [keysOf_bump]
  split
  · next h =>
    constructor
    · exact Or.inr
    · rintro (rfl | h')
      · exact h
      · exact h'
  · simp [or_comm]

theorem nodup_keysOf_bump {k : K} {m : Nat} {c : CounterL K}
    (h : (keysOf c).Nodup) : (keysOf (bump k m c)).Nodup := by
  rw [keysOf_bump]
  split
  · exact h
  · next hk => simpa [List.nodup_append] using ⟨h, fun hmem => hk hmem⟩

theorem cnt_eq_zero_of_not_mem {c : CounterL K} {k : K}
    (h : k ∉ keysOf c) : cnt c k = 0 := by
  induction c with
  | nil => rfl
  | cons p rest ih =>
    obtain ⟨k₀, n₀⟩ := p
    simp only [keysOf, List.map_cons, List.mem_cons, not_or] at h
    have : ¬ k₀ = k := fun hh => h.1 hh.symm
    rw [cnt_cons, if_neg this]
    exact ih (by simpa [keysOf] using h.2)

theorem cnt_of_mem_nodup {c : CounterL K} {k : K} {n : Nat}
    (hnd : (keysOf c).Nodup) (hm : (k, n) ∈ c) : cnt c k = n := by
  induction c with
  | nil => cases hm
  | cons p rest ih =>
    obtain ⟨k₀, n₀⟩ := p
    simp only [keysOf, List.map_cons, List.nodup_cons] at hnd
    rcases List.mem_cons.mp hm with h | h
    · cases h; rw [cnt_cons, if_pos rfl]
    · have hk : k₀ ≠ k := by
        rintro rfl
        exact hnd.1 (mem_keysOf.mpr ⟨n, h⟩)
      rw [cnt_cons, if_neg hk]
      exact ih (by simpa [keysOf] using hnd.2) h

theorem mem_of_cnt {c : CounterL K} {k : K} (h : k ∈ keysOf c) :
    (k, cnt c k) ∈ c := by
  induction c with
  | nil => cases h
  | cons p rest ih =>
    obtain ⟨k₀, n₀⟩ := p
    by_cases hk : k₀ = k
    · subst hk; simp [cnt_cons]
    · simp only [keysOf, List.map_cons, List.mem_cons] at h
      rcases h with h | h
      · exact absurd h.symm hk
      · rw [cnt_cons, if_neg hk]
        exact List.mem_cons_of_mem _ (ih (by simpa [keysOf] using h))

theorem cnt_append (a b : CounterL K) (q : K) :
    cnt (a ++ b) q = if q ∈ keysOf a then cnt a q else cnt b q := by
  induction a with
  | nil => simp [keysOf_nil, cnt_nil]
  | cons p rest ih =>
    obtain ⟨k₀, n₀⟩ := p
    by_cases h : k₀ = q
    · subst h
      simp [cnt_cons, keysOf_cons]
    · have h' : ¬ q = k₀ := fun hh => h hh.symm
      rw [List.cons_append, cnt_cons, if_neg h, ih, cnt_cons, if_neg h,
        keysOf_cons]
      simp [h']

theorem keysOf_append (a b : CounterL K) :
    keysOf (a ++ b) = keysOf a ++ keysOf b := List.map_append _ _ _

/-- Two counters with distinct keys, the same key set and the same counts are
permutations of each other. -/
theorem counter_perm_of_cnt_eq {c₁ : CounterL K} :
    ∀ {c₂ : CounterL K}, (keysOf c₁).Nodup → (keysOf c₂).Nodup →
    (∀ k, k ∈ keysOf c₁ ↔ k ∈ keysOf c₂) →
    (∀ k, cnt c₁ k = cnt c₂ k) → List.Perm c₁ c₂ := by
  induction c₁ with
  | nil =>
    intro c₂ _ _ hmem _
    cases c₂ with
    | nil => exact List.Perm.refl _
    | cons p rest =>
      exact absurd ((hmem p.1).mpr (by rw [keysOf_cons]; exact List.mem_cons_self _ _))
        (by simp [keysOf_nil])
  | cons p rest ih =>
    intro c₂ h₁ h₂ hmem hcnt
    obtain ⟨k, n⟩ := p
    rw [keysOf_cons, List.nodup_cons] at h₁
    have hkmem : k ∈ keysOf c₂ := (hmem k).mp (by rw [keysOf_cons]; exact List.mem_cons_self _ _)
    have hcnt₁ : cnt ((k, n) :: rest) k = n := by rw [cnt_cons, if_pos rfl]
    have hc₂k : cnt c₂ k = n := by rw [← hcnt k, hcnt₁]
    have hpair : (k, n) ∈ c₂ := by
      have := mem_of_cnt hkmem
      rwa [hc₂k] at this
    obtain ⟨l₁, l₂, rfl⟩ := List.append_of_mem hpair
    have hkeys : keysOf (l₁ ++ (k, n) :: l₂) = keysOf l₁ ++ k :: keysOf l₂ := by
      rw [keysOf_append, keysOf_cons]
    rw [hkeys] at h₂
    have h₂' : (k :: (keysOf l₁ ++ keysOf l₂)).Nodup := List.nodup_middle.mp h₂
    rw [List.nodup_cons] at h₂'
    have hknotin : k ∉ keysOf l₁ ++ keysOf l₂ := h₂'.1
    have hperm₂ : List.Perm (l₁ ++ (k, n) :: l₂) ((k, n) :: (l₁ ++ l₂)) :=
      List.perm_middle
    have hkeys' : keysOf (l₁ ++ l₂) = keysOf l₁ ++ keysOf l₂ := keysOf_append _ _
    have hcnt' : ∀ k', k' ≠ k → cnt (l₁ ++ l₂) k' = cnt (l₁ ++ (k, n) :: l₂) k' := by
      intro k' hk'
      rw [cnt_append, cnt_append]
      by_cases h : k' ∈ keysOf l₁
      · rw [if_pos h, if_pos h]
      · rw [if_neg h, if_neg h, cnt_cons, if_neg (fun hh => hk' hh.symm)]
    refine List.Perm.trans (List.Perm.cons _ (ih h₁.2 ?_ ?_ ?_)) hperm₂.symm
    · rw [hkeys']
      exact h₂'.2
    · intro k'
      by_cases hk' : k' = k
      · subst hk'
        rw [hkeys']
        exact ⟨fun h => absurd h h₁.1, fun h => absurd h hknotin⟩
      · have hl : k' ∈ keysOf ((k, n) :: rest) ↔ k' ∈ keysOf rest := by
          rw [keysOf_cons]
          simp [hk']
        have hr : k' ∈ keysOf (l₁ ++ (k, n) :: l₂) ↔ k' ∈ keysOf (l₁ ++ l₂) := by
          rw [hkeys, hkeys']
          simp [hk']
        rw [← hl, hmem k', hr]
    · intro k'
      by_cases hk' : k' = k
      · subst hk'
        rw [cnt_eq_zero_of_not_mem h₁.1, cnt_eq_zero_of_not_mem]
        rw [hkeys']
        exact hknotin
      · rw [hcnt' k' hk', ← hcnt k', cnt_cons, if_neg (fun h => hk' h.symm)]

theorem nodup_keysOf_of_perm {c₁ c₂ : CounterL K} (h : List.Perm c₁ c₂)
    (hnd : (keysOf c₁).Nodup) : (keysOf c₂).Nodup :=
  ((h.map Prod.fst).nodup_iff).mp hnd

theorem cnt_congr_perm {c₁ c₂ : CounterL K} (h : List.Perm c₁ c₂)
    (hnd : (keysOf c₁).Nodup) (k : K) : cnt c₁ k = cnt c₂ k := by
  have hnd₂ : (keysOf c₂).Nodup := nodup_keysOf_of_perm h hnd
  by_cases hk : k ∈ keysOf c₁
  · exact (cnt_of_mem_nodup hnd₂ (h.mem_iff.mp (mem_of_cnt hk))).symm
  · have hk₂ : k ∉ keysOf c₂ := fun hm => hk ((h.map Prod.fst).mem_iff.mpr hm)
    rw [cnt_eq_zero_of_not_mem hk, cnt_eq_zero_of_not_mem hk₂]

theorem updList_append (c : CounterL K) (ks₁ ks₂ : List K) :
    updList c (ks₁ ++ ks₂) = updList (updList c ks₁) ks₂ :=
  List.foldl_append _ _ _ _

theorem cnt_updList (c : CounterL K) (ks : List K) (k : K) :
    cnt (updList c ks) k = cnt c k + ks.count k := by
  induction ks generalizing c with
  | nil => simp [updList]
  | cons k₀ rest ih =>
    have step : updList c (k₀ :: rest) = updList (bump k₀ 1 c) rest := rfl
    rw [step, ih, cnt_bump, List.count_cons]
    by_cases h : k₀ = k
    · subst h
      simp only [if_pos rfl, beq_self_eq_true, if_true]
      omega
    · have h' : ¬ k = k₀ := fun hh => h hh.symm
      simp only [if_neg h, beq_iff_eq, if_neg h']
      omega

theorem mem_keysOf_updList {c : CounterL K} {ks : List K} {k : K} :
    k ∈ keysOf (updList c ks) ↔ k ∈ keysOf c ∨ k ∈ ks := by
  induction ks generalizing c with
  | nil => simp [updList]
  | cons k₀ rest ih =>
    have step : updList c (k₀ :: rest) = updList (bump k₀ 1 c) rest := rfl
    rw [step, ih]
    rw [mem_keysOf_bump]
    constructor
    · rintro ((rfl | h) | h)
      · exact Or.inr (List.mem_cons_self _ _)
      · exact Or.inl h
      · exact Or.inr (List.mem_cons_of_mem _ h)
    · rintro (h | h)
      · exact Or.inl (Or.inr h)
      · rcases List.mem_cons.mp h with rfl | h
        · exact Or.inl (Or.inl rfl)
        · exact Or.inr h

theorem nodup_keysOf_updList {c : CounterL K} {ks : List K}
    (h : (keysOf c).Nodup) : (keysOf (updList c ks)).Nodup := by
  induction ks generalizing c with
  | nil => exact h
  | cons k₀ rest ih => exact ih (nodup_keysOf_bump h)

theorem cnt_counterOf (ks : List K) (k : K) : cnt (counterOf ks) k = ks.count k := by
  rw [counterOf, cnt_updList, cnt_nil, Nat.zero_add]

theorem mem_keysOf_counterOf {ks : List K} {k : K} :
    k ∈ keysOf (counterOf ks) ↔ k ∈ ks := by
  rw [counterOf, mem_keysOf_updList]
  simp [keysOf_nil]

theorem nodup_keysOf_counterOf (ks : List K) : (keysOf (counterOf ks)).Nodup :=
  nodup_keysOf_updList (by simp [keysOf_nil])

/-- Adding another *counter* (unique keys) adds its counts pointwise. -/
theorem cnt_mergeCounter (c other : CounterL K) (k : K)
    (hnd : (keysOf other).Nodup) :
    cnt (mergeCounter c other) k = cnt c k + cnt other k := by
  induction other generalizing c with
  | nil => simp [mergeCounter, cnt_nil]
  | cons p rest ih =>
    obtain ⟨k₀, n₀⟩ := p
    rw [keysOf_cons, List.nodup_cons] at hnd
    have step : mergeCounter c ((k₀, n₀) :: rest) = mergeCounter (bump k₀ n₀ c) rest := rfl
    rw [step, ih _ hnd.2, cnt_bump, cnt_cons]
    by_cases h : k₀ = k
    · subst h
      rw [if_pos rfl, if_pos rfl, cnt_eq_zero_of_not_mem hnd.1]
      omega
    · rw [if_neg h, if_neg h]
      omega

theorem mem_keysOf_mergeCounter {c other : CounterL K} {k : K} :
    k ∈ keysOf (mergeCounter c other) ↔ k ∈ keysOf c ∨ k ∈ keysOf other := by
  induction other generalizing c with
  | nil => simp [mergeCounter, keysOf_nil]
  | cons p rest ih =>
    obtain ⟨k₀, n₀⟩ := p
    have step : mergeCounter c ((k₀, n₀) :: rest) = mergeCounter (bump k₀ n₀ c) rest := rfl
    rw [step, ih, mem_keysOf_bump, keysOf_cons]
    simp only [List.mem_cons]
    tauto

theorem nodup_keysOf_mergeCounter {c other : CounterL K}
    (h : (keysOf c).Nodup) : (keysOf (mergeCounter c other)).Nodup := by
  induction other generalizing c with
  | nil => exact h
  | cons p rest ih => exact ih (nodup_keysOf_bump h)

end CounterLemmas

/-! ## Sorting lemmas -/

/-- The strict version of `countGE`. -/
def countGT {K : Type} (a b : K × Nat) : Prop := b.2 < a.2

instance {K : Type} : IsAntisymm (K × Nat) (countGT (K := K)) :=
  ⟨fun _ _ h h' => absurd (Nat.lt_trans h h') (Nat.lt_irrefl _)⟩

section SortLemmas

variable {K : Type}

theorem sortDesc_perm (c : CounterL K) : List.Perm (sortDesc c) c :=
  List.perm_insertionSort _ _

theorem sortDesc_sorted (c : CounterL K) : List.Sorted countGE (sortDesc c) :=
  List.sorted_insertionSort _ _

theorem mostCommon_sublist (n : Nat) (c : CounterL K) :
    List.Sublist (mostCommon n c) (sortDesc c) :=
  List.take_sublist _ _

theorem mostCommon_subset_self {n : Nat} {c : CounterL K} {p : K × Nat}
    (h : p ∈ mostCommon n c) : p ∈ c :=
  (sortDesc_perm c).subset ((mostCommon_sublist n c).subset h)

theorem mostCommon_sorted (n : Nat) (c : CounterL K) :
    (mostCommon n c).Pairwise countGE :=
  (sortDesc_sorted c).sublist (mostCommon_sublist n c)

theorem mostCommon_length (n : Nat) (c : CounterL K) :
    (mostCommon n c).length = min n c.length := by
  rw [mostCommon, List.length_take, (sortDesc_perm c).length_eq]

/-- With pairwise-distinct counts, the descending sort is strictly sorted. -/
theorem sortDesc_sorted_strict {c : CounterL K}
    (hd : (c.map Prod.snd).Nodup) : List.Sorted countGT (sortDesc c) := by
  have hd' : (sortDesc c).Pairwise (fun a b => a.2 ≠ b.2) := by
    have := (List.pairwise_map (f := Prod.snd)).mp hd
    exact ((sortDesc_perm c).pairwise_iff (fun hxy => Ne.symm hxy)).mpr this
  have := (sortDesc_sorted c).and hd'
  exact this.imp (fun h => Nat.lt_of_le_of_ne h.1 (fun he => h.2 he.symm))

/-- Permutation-invariance of the descending sort under distinct counts. -/
theorem sortDesc_eq_of_perm_of_distinct {c₁ c₂ : CounterL K}
    (h : List.Perm c₁ c₂) (hd : (c₁.map Prod.snd).Nodup) :
    sortDesc c₁ = sortDesc c₂ := by
  have hd₂ : (c₂.map Prod.snd).Nodup := ((h.map Prod.snd).nodup_iff).mp hd
  exact List.eq_of_perm_of_sorted
    (((sortDesc_perm c₁).trans h).trans (sortDesc_perm c₂).symm)
    (sortDesc_sorted_strict hd) (sortDesc_sorted_strict hd₂)

/-- The stability relation: later entries have strictly smaller counts, or
equal counts and stand in the original relation `Q`. -/
def stableDescRel {K : Type} (Q : K × Nat → K × Nat → Prop) (a b : K × Nat) : Prop :=
  b.2 < a.2 ∨ (b.2 = a.2 ∧ Q a b)

theorem pairwise_orderedInsert_stable {Q : K × Nat → K × Nat → Prop}
    (x : K × Nat) :
    ∀ (l : List (K × Nat)), l.Pairwise (stableDescRel Q) →
      (∀ b ∈ l, Q x b) →
      (l.orderedInsert countGE x).Pairwise (stableDescRel Q)
  | [], _, _ => List.pairwise_singleton _ _
  | q :: rest, hl, hx => by
    rw [List.pairwise_cons] at hl
    by_cases h : countGE x q
    · have hqx : q.2 ≤ x.2 := h
      rw [List.orderedInsert, if_pos h]
      rw [List.pairwise_cons]
      constructor
      · intro b hb
        rcases List.mem_cons.mp hb with rfl | hb
        · rcases Nat.lt_or_ge b.2 x.2 with hlt | hge
          · exact Or.inl hlt
          · exact Or.inr ⟨Nat.le_antisymm hqx hge, hx _ (List.mem_cons_self _ _)⟩
        · have hbq : stableDescRel Q q b := hl.1 b hb
          have hb2 : b.2 ≤ q.2 := by
            rcases hbq with h' | ⟨h', -⟩
            · exact Nat.le_of_lt h'
            · exact Nat.le_of_eq h'
          rcases Nat.lt_or_ge b.2 x.2 with hlt | hge
          · exact Or.inl hlt
          · exact Or.inr ⟨Nat.le_antisymm (Nat.le_trans hb2 hqx) hge,
              hx _ (List.mem_cons_of_mem _ hb)⟩
      · rw [List.pairwise_cons]
        exact ⟨hl.1, hl.2⟩
    · have hqx : ¬ q.2 ≤ x.2 := h
      rw [List.orderedInsert, if_neg h]
      rw [List.pairwise_cons]
      constructor
      · intro b hb
        rcases (List.mem_orderedInsert _).mp hb with rfl | hb
        · exact Or.inl (Nat.lt_of_not_le hqx)
        · exact hl.1 b hb
      · exact pairwise_orderedInsert_stable x rest hl.2
          (fun b hb => hx b (List.mem_cons_of_mem _ hb))

/-- Stability of `sortDesc`: a relation `Q` holding pairwise on the input
keeps holding between equal-count entries of the output, in order. -/
theorem sortDesc_pairwise_stable {Q : K × Nat → K × Nat → Prop}
    {c : CounterL K} (h : c.Pairwise Q) :
    (sortDesc c).Pairwise (stableDescRel Q) := by
  induction c with
  | nil => exact List.Pairwise.nil
  | cons x rest ih =>
    rw [List.pairwise_cons] at h
    exact pairwise_orderedInsert_stable x _ (ih h.2)
      (fun b hb => h.1 b ((List.mem_insertionSort _).mp hb))

/-- A strictly maximal entry is the head of the descending sort. -/
theorem sortDesc_head_of_strict_max {c : CounterL K} {k : K} {n : Nat}
    (hmem : (k, n) ∈ c) (hmax : ∀ p ∈ c, p ≠ (k, n) → p.2 < n) :
    (sortDesc c).head? = some (k, n) := by
  cases hsd : sortDesc c with
  | nil =>
    have : (k, n) ∈ sortDesc c := (sortDesc_perm c).mem_iff.mpr hmem
    rw [hsd] at this
    cases this
  | cons p₀ rest =>
    by_cases hp : p₀ = (k, n)
    · rw [hp, List.head?_cons]
    · exfalso
      have hp₀c : p₀ ∈ c := (sortDesc_perm c).subset (by rw [hsd]; exact List.mem_cons_self _ _)
      have hlt : p₀.2 < n := hmax p₀ hp₀c hp
      have hmem' : (k, n) ∈ p₀ :: rest := by
        rw [← hsd]
        exact (sortDesc_perm c).mem_iff.mpr hmem
      rcases List.mem_cons.mp hmem' with h | h
      · exact hp h.symm
      · have hsorted := sortDesc_sorted c
        rw [hsd] at hsorted
        have : countGE p₀ (k, n) := (List.pairwise_cons.mp hsorted).1 _ h
        exact absurd (Nat.lt_of_le_of_lt this hlt) (Nat.lt_irrefl _)

theorem listMin_mem : ∀ {l : List Nat}, l ≠ [] → listMin l ∈ l
  | [], h => absurd rfl h
  | x :: xs, _ => by
    rw [listMin]
    clear * -
    induction xs generalizing x with
    | nil => exact List.mem_singleton.mpr rfl
    | cons y ys ih =>
      rw [List.foldl_cons]
      rcases List.mem_cons.mp (ih (min x y)) with h | h
      · rw [h]
        rcases min_choice x y with he | he <;> rw [he]
        · exact List.mem_cons_self _ _
        · exact List.mem_cons.mpr (Or.inr (List.mem_cons_self _ _))
      · exact List.mem_cons.mpr (Or.inr (List.mem_cons.mpr (Or.inr h)))

theorem head?_eq_some_iff_exists {α : Type} {l : List α} {a : α} :
    l.head? = some a ↔ ∃ rest, l = a :: rest := by
  cases l with
  | nil => simp
  | cons x xs =>
    simp only [List.head?_cons, Option.some.injEq]
    constructor
    · rintro rfl
      exact ⟨xs, rfl⟩
    · rintro ⟨rest, h⟩
      cases h
      rfl

end SortLemmas

/-! ## Tracker lemmas -/

section TrackerLemmas

variable {D U K : Type} [DecidableEq D] [DecidableEq U] [DecidableEq K]

theorem dictInsert_idem {V : Type} (k : K) (v : V) (d : List (K × V)) :
    dictInsert k v (dictInsert k v d) = dictInsert k v d := by
  induction d with
  | nil => simp [dictInsert]
  | cons p rest ih =>
    obtain ⟨k', v'⟩ := p
    by_cases h : k' = k
    · subst h
      simp [dictInsert]
    · simp [dictInsert, h, ih]

theorem closeGroup_of_none {t : DateTracker D U} (h : t.current_date = none) :
    t.closeGroup = t := by
  simp only [DateTracker.closeGroup, h]

theorem closeGroup_of_empty {t : DateTracker D U} {d : D}
    (hd : t.current_date = some d)
    (h : mostCommon 1 t.current_user_counts = []) : t.closeGroup = t := by
  simp only [DateTracker.closeGroup, hd, h]

theorem closeGroup_of_cons {t : DateTracker D U} {d : D} {u : U} {c : Nat}
    {rest : CounterL U} (hd : t.current_date = some d)
    (h : mostCommon 1 t.current_user_counts = (u, c) :: rest) :
    t.closeGroup =
      if t.getMinCount ≤ cnt t.date_counts d then
        { t with top_users := dictInsert d u t.top_users }
      else t := by
  simp only [DateTracker.closeGroup, hd, h]

/-- `closeGroup` only writes `top_users`; every other field is unchanged. -/
theorem closeGroup_fields (t : DateTracker D U) :
    t.closeGroup.date_counts = t.date_counts ∧
      t.closeGroup.current_user_counts = t.current_user_counts ∧
      t.closeGroup.current_date = t.current_date ∧
      t.closeGroup.max_dates = t.max_dates := by
  cases hcd : t.current_date with
  | none => rw [closeGroup_of_none hcd]; exact ⟨rfl, rfl, hcd, rfl⟩
  | some d =>
    cases hmc : mostCommon 1 t.current_user_counts with
    | nil => rw [closeGroup_of_empty hcd hmc]; exact ⟨rfl, rfl, hcd, rfl⟩
    | cons p rest =>
      obtain ⟨u, c⟩ := p
      rw [closeGroup_of_cons hcd hmc]
      by_cases hg : t.getMinCount ≤ cnt t.date_counts d
      · rw [if_pos hg]; exact ⟨rfl, rfl, hcd, rfl⟩
      · rw [if_neg hg]; exact ⟨rfl, rfl, hcd, rfl⟩

/-- Closing an already-closed group writes the same entry again: `closeGroup`
is idempotent on the whole state. -/
theorem closeGroup_idem (t : DateTracker D U) :
    t.closeGroup.closeGroup = t.closeGroup := by
  cases hcd : t.current_date with
  | none => rw [closeGroup_of_none hcd, closeGroup_of_none hcd]
  | some d =>
    cases hmc : mostCommon 1 t.current_user_counts with
    | nil => rw [closeGroup_of_empty hcd hmc, closeGroup_of_empty hcd hmc]
    | cons p rest =>
      obtain ⟨u, c⟩ := p
      rw [closeGroup_of_cons hcd hmc]
      by_cases hg : t.getMinCount ≤ cnt t.date_counts d
      · rw [if_pos hg]
        have hcd' : ({ t with top_users := dictInsert d u t.top_users } :
            DateTracker D U).current_date = some d := hcd
        have hmc' : mostCommon 1 ({ t with top_users := dictInsert d u t.top_users } :
            DateTracker D U).current_user_counts = (u, c) :: rest := hmc
        rw [closeGroup_of_cons hcd' hmc']
        split
        · show ({ t with top_users := dictInsert d u (dictInsert d u t.top_users) } :
            DateTracker D U) = _
          rw [dictInsert_idem]
        · next hng => exact absurd hg hng
      · rw [if_neg hg, closeGroup_of_cons hcd hmc, if_neg hg]

end TrackerLemmas

/-! ## Claim C10 -/

/-- **C10** (confirmed): an archive with zero member files makes all three
memory queries fail with a `TweetRepositoryError`, while an archive whose
single member holds zero records yields `.ok []`. -/
theorem c10_empty_archive_fatal_but_empty_member_ok :
    q1Memory ([] : List (List (Q1Line Nat Nat))) = .error .tweetRepositoryError ∧
      q2Memory (fun c : Nat => c == 9) ([] : List (List (ContentLine (List Nat)))) =
        .error .tweetRepositoryError ∧
      q3Memory (fun l : List Nat => l) ([] : List (List (ContentLine (List Nat)))) =
        .error .tweetRepositoryError ∧
      q1Memory ([[]] : List (List (Q1Line Nat Nat))) = .ok [] ∧
      q2Memory (fun c : Nat => c == 9) ([[]] : List (List (ContentLine (List Nat)))) =
        .ok [] ∧
      q3Memory (fun l : List Nat => l) ([[]] : List (List (ContentLine (List Nat)))) =
        .ok [] := by
  refine ⟨rfl, rfl, rfl, rfl, rfl, rfl⟩

/-! ## Claim C7 -/

/-- **C7** (confirmed): querying the top results twice with no intervening
insert returns identical lists.  `get_top_results` does mutate `top_users`
(re-closing the open date), but the second close rewrites the same entry, so
the second call's list is to the first's.  `get_top_mentions` reads without
writing. -/
theorem c7_topn_idempotent {D U K : Type} [DecidableEq D] [DecidableEq U]
    (t : DateTracker D U) (m : MentionTracker K) (n n' : Nat) :
    (((t.getTopResults n).2).getTopResults n).1 = (t.getTopResults n).1 ∧
      (((m.getTopMentions n').2).getTopMentions n').1 = (m.getTopMentions n').1 := by
  constructor
  · show ((t.closeGroup).getTopResults n).1 = (t.getTopResults n).1
    unfold DateTracker.getTopResults
    rw [closeGroup_idem]
  · rfl

/-! ## Claim C3 -/

/-- **C3 counterexample**: a `q2_time` pass in which the second chunk's
future raises still returns a result list — the per-future `except` block
(q2_time.py lines 88–89) logs the failure and keeps merging the successful
chunks, so the pass does *not* fail. -/
theorem c3_counterexample :
    q2TimeFromOutcomes [Except.ok [((0 : Nat), 1)], Except.error ()] = [(0, 1)] := by
  rfl

theorem q3TimeCollect_error {S : Type} :
    ∀ {outcomes : List (Except Unit S)}, (∃ o ∈ outcomes, o = .error ()) →
      q3TimeCollect outcomes = .error .tweetRepositoryError
  | [], h => absurd h (by simp)
  | .error () :: _, _ => rfl
  | .ok s :: rest, h => by
    obtain ⟨o, hmem, ho⟩ := h
    rcases List.mem_cons.mp hmem with rfl | hmem
    · cases ho
    · have := q3TimeCollect_error ⟨o, hmem, ho⟩
      show ((q3TimeCollect rest).map (s :: ·)) = _
      rw [this]
      rfl

theorem q2TimeFold_skips_failures {K : Type} [DecidableEq K] :
    ∀ (outcomes : List (Except Unit (CounterL K))) (acc : CounterL K),
      outcomes.foldl q2TimeStep acc = (outcomes.filter (·.isOk)).foldl q2TimeStep acc
  | [], _ => rfl
  | .ok c :: rest, acc => by
    have hf : (Except.ok c :: rest).filter (fun x => x.isOk) =
        Except.ok c :: rest.filter (fun x => x.isOk) := by
      simp [List.filter_cons, Except.isOk, Except.toBool]
    rw [hf, List.foldl_cons, List.foldl_cons]
    exact q2TimeFold_skips_failures rest (q2TimeStep acc (.ok c))
  | .error e :: rest, acc => by
    have hf : (Except.error e :: rest).filter (fun x => x.isOk) =
        rest.filter (fun x => x.isOk) := by
      simp [List.filter_cons, Except.isOk, Except.toBool]
    rw [hf, List.foldl_cons]
    show (rest.foldl q2TimeStep acc) = _
    exact q2TimeFold_skips_failures rest acc

theorem q2TimeCollect_skips_failures {K : Type} [DecidableEq K]
    (outcomes : List (Except Unit (CounterL K))) :
    q2TimeCollect outcomes = q2TimeCollect (outcomes.filter (·.isOk)) :=
  q2TimeFold_skips_failures outcomes []

/-- **C3 amended**: in `q3_time` a raising chunk is fatal — iterating the
pool results re-raises and the pass returns a `TweetRepositoryError` — but
in `q2_time` a raising chunk is logged and skipped: the pass computes its
result from the successful chunks only. -/
theorem c3_amended {K : Type} [LinearOrder K] [DecidableEq K] :
    (∀ outcomes : List (Except Unit (CounterL K)),
        (∃ o ∈ outcomes, o = .error ()) →
          q3TimeWithOutcomes outcomes = .error .tweetRepositoryError) ∧
      (∀ outcomes : List (Except Unit (CounterL K)),
        q2TimeFromOutcomes outcomes = q2TimeFromOutcomes (outcomes.filter (·.isOk))) := by
  constructor
  · intro outcomes h
    show (q3TimeCollect outcomes).map _ = _
    rw [q3TimeCollect_error h]
    rfl
  · intro outcomes
    unfold q2TimeFromOutcomes
    rw [← q2TimeCollect_skips_failures]

/-- Witness for `c3_amended` at a concrete input. -/
theorem c3_amended_witness :
    (∃ o ∈ [Except.ok [((0 : Nat), 1)], Except.error ()], o = .error ()) ∧
      q3TimeWithOutcomes [Except.ok [((0 : Nat), 1)], Except.error ()] =
        .error .tweetRepositoryError :=
  ⟨⟨.error (), List.mem_cons.mpr (Or.inr (List.mem_cons.mpr (Or.inl rfl))), rfl⟩,
    (c3_amended (K := Nat)).1 [Except.ok [((0 : Nat), 1)], Except.error ()]
      ⟨.error (), List.mem_cons.mpr (Or.inr (List.mem_cons.mpr (Or.inl rfl))), rfl⟩⟩

/-! ## Claim C4 -/

/-- A small tracker state with pairwise-distinct counts, for the amended-C4
witness. -/
def c4WitnessTracker : DateTracker Nat Nat :=
  { date_counts := [(0, 3), (1, 5), (2, 1)]
    current_user_counts := [], top_users := [], current_date := some 2
    max_dates := 2 }

/-- A tracker state with 41 tracked dates, all tied at count 1 (reachable by
feeding 41 tweets with 41 distinct dates to `add_tweet`). -/
def c4PruneInput : DateTracker Nat Nat :=
  { date_counts := (List.range 41).map (fun i => (i, 1))
    current_user_counts := [], top_users := [], current_date := some 40
    max_dates := 20 }

/-- **C4 counterexample**: `_prune_data` keeps every date whose count reaches
the 20th-largest count, so with 41 dates all tied at count 1 it keeps all 41
— more than `max_dates = 20` — immediately after the prune completes. -/
theorem c4_counterexample :
    c4PruneInput.pruneThreshold < c4PruneInput.date_counts.length ∧
      c4PruneInput.max_dates < c4PruneInput.pruneData.date_counts.length := by
  decide

/-- **C4 amended**: `MentionTracker._cleanup_memory` always retains at most
`max_mentions` keys; `DateTracker._prune_data` retains the keys whose count
reaches the `max_dates`-th largest count, which is at most `max_dates`
provided the tracked counts are pairwise distinct (boundary ties can leave
more, as the counterexample shows). -/
theorem c4_amended {D U K : Type} [DecidableEq D] [DecidableEq U] :
    (∀ t : MentionTracker K, t.cleanupMemory.mention_counts.length ≤ t.max_mentions) ∧
      (∀ t : DateTracker D U, 0 < t.max_dates →
        (t.date_counts.map Prod.snd).Nodup →
        t.pruneData.date_counts.length ≤ t.max_dates) := by
  constructor
  · intro t
    show (mostCommon t.max_mentions t.mention_counts).length ≤ t.max_mentions
    rw [mostCommon_length]
    exact Nat.min_le_left _ _
  · intro t hpos hd
    show (t.date_counts.filter (fun p => t.getMinCount ≤ p.2)).length ≤ t.max_dates
    by_cases hlen : t.date_counts.length < t.max_dates
    · exact Nat.le_of_lt (Nat.lt_of_le_of_lt (List.length_filter_le _ _) hlen)
    · set m := t.getMinCount with hm
      set l := sortDesc t.date_counts with hl
      have hperm : List.Perm t.date_counts l := (sortDesc_perm _).symm
      rw [← List.countP_eq_length_filter, hperm.countP_eq]
      have hstrict : List.Sorted countGT l := sortDesc_sorted_strict hd
      have htake : l = l.take t.max_dates ++ l.drop t.max_dates :=
        (List.take_append_drop _ _).symm
      have htk_ne : (l.take t.max_dates).length = t.max_dates := by
        rw [List.length_take, (sortDesc_perm _).length_eq]
        omega
      have hmc_eq : mostCommon t.max_dates t.date_counts = l.take t.max_dates := rfl
      have hmmem : m ∈ (l.take t.max_dates).map Prod.snd := by
        rw [hm, DateTracker.getMinCount, if_neg hlen, hmc_eq]
        exact listMin_mem (by
          intro hnil
          rw [List.map_eq_nil_iff] at hnil
          rw [hnil] at htk_ne
          simp at htk_ne
          omega)
      obtain ⟨p, hp_tk, hp_snd⟩ := List.mem_map.mp hmmem
      have hdrop0 : List.countP (fun p => decide (m ≤ p.2)) (l.drop t.max_dates) = 0 := by
        rw [List.countP_eq_zero]
        intro b hb
        have hcross : countGT p b := by
          have := List.pairwise_append.mp (htake ▸ hstrict)
          exact this.2.2 p hp_tk b hb
        have : b.2 < m := by
          rw [← hp_snd]
          exact hcross
        simp only [decide_eq_true_eq]
        omega
      calc List.countP (fun p => decide (m ≤ p.2)) l
          = List.countP (fun p => decide (m ≤ p.2)) (l.take t.max_dates) +
              List.countP (fun p => decide (m ≤ p.2)) (l.drop t.max_dates) := by
            rw [← List.countP_append, ← htake]
        _ = List.countP (fun p => decide (m ≤ p.2)) (l.take t.max_dates) := by
            rw [hdrop0]
            omega
        _ ≤ (l.take t.max_dates).length := List.countP_le_length _
        _ = t.max_dates := htk_ne

/-- Witness for `c4_amended` at a concrete input. -/
theorem c4_amended_witness :
    (0 < c4WitnessTracker.max_dates ∧
        (c4WitnessTracker.date_counts.map Prod.snd).Nodup) ∧
      c4WitnessTracker.pruneData.date_counts.length ≤ c4WitnessTracker.max_dates :=
  ⟨⟨by decide, by decide⟩,
    (c4_amended (K := Nat)).2 c4WitnessTracker (by decide) (by decide)⟩

/-! ## Claim C1 -/

/-- **C1 counterexample**: on three records over two dates (date 2 has two
tweets, date 1 has one), `q1_time` returns the rows in date-ascending order
`[(1, _), (2, _)]`, so the first row's date count (1) is *smaller* than the
second's (2) — the list is not ordered by count descending. -/
theorem c1_counterexample :
    q1TimeRun [((1 : Nat), (0 : Nat)), (2, 0), (2, 0)] = [(1, 0), (2, 0)] ∧
      cnt (q1TimeDateCounts [((1 : Nat), (0 : Nat)), (2, 0), (2, 0)]) 1 <
        cnt (q1TimeDateCounts [((1 : Nat), (0 : Nat)), (2, 0), (2, 0)]) 2 := by
  decide

/-- The entries of `groupSumByKey` are strictly ascending in their keys. -/
theorem groupSumByKey_keys_strict {K : Type} [LinearOrder K]
    (entries : List (K × Nat)) :
    (groupSumByKey entries).Pairwise (fun a b => a.1 < b.1) := by
  have hnd : (keysOf (mergeCounter [] entries)).Nodup :=
    nodup_keysOf_mergeCounter (by simp [keysOf_nil])
  have hperm : List.Perm (sortKeyAsc (mergeCounter [] entries)) (mergeCounter [] entries) :=
    List.perm_insertionSort _ _
  have hnd' : (keysOf (sortKeyAsc (mergeCounter [] entries))).Nodup :=
    nodup_keysOf_of_perm hperm.symm hnd
  have hne : (sortKeyAsc (mergeCounter [] entries)).Pairwise
      (fun a b : K × Nat => a.1 ≠ b.1) :=
    (List.pairwise_map (f := Prod.fst)).mp hnd'
  have hle : (sortKeyAsc (mergeCounter [] entries)).Pairwise (keyLE (K := K)) :=
    List.sorted_insertionSort _ _
  exact (hle.and hne).imp (fun h => lt_of_le_of_ne h.1 h.2)

/-- Taking the most common entries of a counter whose entries satisfy `Q`
pairwise produces a count-descending list whose ties keep `Q`, in order. -/
theorem mostCommon_pairwise_stable {K : Type} {Q : K × Nat → K × Nat → Prop}
    {c : CounterL K} (h : c.Pairwise Q) (n : Nat) :
    (mostCommon n c).Pairwise (stableDescRel Q) :=
  (sortDesc_pairwise_stable h).sublist (mostCommon_sublist n c)

/-- The streaming fold of `q1_memory` over the decoded records. -/
def q1MemoryTracker {D U : Type} [DecidableEq D] [DecidableEq U]
    (records : List (D × U)) : DateTracker D U :=
  records.foldl (fun t r => t.addTweet r.1 r.2) (DateTracker.init D U)

/-- The tracker after `get_top_results` has closed the final open date. -/
def q1MemoryFinal {D U : Type} [DecidableEq D] [DecidableEq U]
    (records : List (D × U)) : DateTracker D U :=
  (q1MemoryTracker records).closeGroup

theorem q1MemoryRun_eq (records : List (D × U)) [inst : DecidableEq D]
    [inst2 : DecidableEq U] :
    q1MemoryRun records = ((q1MemoryTracker records).getTopResults 10).1 := rfl

section DateStepLemmas

variable {D U : Type} [DecidableEq D] [DecidableEq U]

theorem switchDate_date_counts (t : DateTracker D U) (d : D) :
    (t.switchDate d).date_counts = t.date_counts := by
  unfold DateTracker.switchDate
  split
  · rfl
  · exact (closeGroup_fields t).1

theorem switchDate_current_date (t : DateTracker D U) (d : D) :
    (t.switchDate d).current_date = some d := by
  unfold DateTracker.switchDate
  split
  · next h => exact h
  · rfl

theorem maybePrune_date_counts (t : DateTracker D U) :
    t.maybePrune.date_counts = t.date_counts ∨
      t.maybePrune.date_counts =
        t.date_counts.filter (fun p => t.getMinCount ≤ p.2) := by
  unfold DateTracker.maybePrune
  split
  · exact Or.inr rfl
  · exact Or.inl rfl

theorem nodup_keysOf_filter {K : Type} [DecidableEq K] {c : CounterL K}
    (f : K × Nat → Bool) (h : (keysOf c).Nodup) :
    (keysOf (c.filter f)).Nodup :=
  h.sublist ((List.filter_sublist c).map Prod.fst)

theorem addTweet_nodup_dates {t : DateTracker D U} {d : D} {u : U}
    (h : (keysOf t.date_counts).Nodup) :
    (keysOf (t.addTweet d u).date_counts).Nodup := by
  show (keysOf (((t.countDate d).switchDate d).countUser u).maybePrune.date_counts).Nodup
  have h1 : (keysOf ((t.countDate d).date_counts)).Nodup := nodup_keysOf_bump h
  have h2 : (keysOf (((t.countDate d).switchDate d).date_counts)).Nodup := by
    rw [switchDate_date_counts]
    exact h1
  have h3 : (keysOf ((((t.countDate d).switchDate d).countUser u).date_counts)).Nodup := h2
  rcases maybePrune_date_counts (((t.countDate d).switchDate d).countUser u) with hp | hp
  · rw [hp]
    exact h3
  · rw [hp]
    exact nodup_keysOf_filter _ h3

theorem q1MemoryTracker_nodup_dates (records : List (D × U)) :
    (keysOf (q1MemoryTracker records).date_counts).Nodup := by
  have : ∀ (rs : List (D × U)) (t : DateTracker D U),
      (keysOf t.date_counts).Nodup →
      (keysOf (rs.foldl (fun t r => t.addTweet r.1 r.2) t).date_counts).Nodup := by
    intro rs
    induction rs with
    | nil => exact fun t h => h
    | cons r rest ih =>
      intro t h
      exact ih _ (addTweet_nodup_dates h)
  exact this records _ (by simp [DateTracker.init, keysOf_nil])

theorem q1MemoryFinal_nodup_dates (records : List (D × U)) :
    (keysOf (q1MemoryFinal records).date_counts).Nodup := by
  show (keysOf (q1MemoryTracker records).closeGroup.date_counts).Nodup
  rw [(closeGroup_fields _).1]
  exact q1MemoryTracker_nodup_dates records

end DateStepLemmas

/-- **C1 amended**: q2 (both strategies) and q3 return lists ordered by count
descending; `q3_time` additionally breaks count ties by key ascending (its
fold sorts keys).  `q1_memory` is ordered by descending final tracked date
count, but `q1_time` returns its rows ordered by *date ascending* (the final
`groupby('date').first()`), not by count.  Ties in the `Counter`-based paths
follow insertion order, which the spec's key-ascending tie-break does not
match in general. -/
theorem c1_amended {D U C K T : Type} [LinearOrder D] [LinearOrder U]
    [LinearOrder K] [DecidableEq C]
    (isEmoji : C → Bool) (extract : T → List K) :
    (∀ texts : List (List C), (q2MemoryRun isEmoji texts).Pairwise countGE) ∧
      (∀ chunks : List (List (Option (List C))),
        (q2TimeRun isEmoji chunks).Pairwise countGE) ∧
      (∀ texts : List T, (q3MemoryRun extract texts).Pairwise countGE) ∧
      (∀ chunks : List (List (Option T)),
        (q3TimeRun extract chunks).Pairwise
          (stableDescRel (fun a b => a.1 < b.1))) ∧
      (∀ records : List (D × U),
        (q1MemoryRun records).Pairwise (fun a b =>
          cnt (q1MemoryFinal records).date_counts b.1 ≤
            cnt (q1MemoryFinal records).date_counts a.1)) ∧
      (∀ records : List (D × U),
        (q1TimeRun records).Pairwise (fun a b => a.1 < b.1)) := by
  have hguardL : ∀ (c : CounterL C) (n : Nat),
      (if c = [] then ([] : CounterL C) else mostCommon n c).Pairwise countGE := by
    intro c n
    split
    · exact List.Pairwise.nil
    · exact mostCommon_sorted _ _
  have hguardN : ∀ (m : Nat) (c : CounterL K) (n : Nat),
      (if m = 0 then ([] : CounterL K) else mostCommon n c).Pairwise countGE := by
    intro m c n
    split
    · exact List.Pairwise.nil
    · exact mostCommon_sorted _ _
  refine ⟨?_, ?_, ?_, ?_, ?_, ?_⟩
  · intro texts
    exact hguardL _ 10
  · intro chunks
    exact hguardL _ 10
  · intro texts
    exact hguardN _ _ 10
  · intro chunks
    show (mostCommon 10 (groupSumByKey _)).Pairwise _
    exact mostCommon_pairwise_stable (groupSumByKey_keys_strict _) 10
  · intro records
    have hnd : (keysOf (q1MemoryFinal records).date_counts).Nodup :=
      q1MemoryFinal_nodup_dates records
    show ((mostCommon 10 (q1MemoryFinal records).date_counts).filterMap
      (fun p => (dictGet (q1MemoryFinal records).top_users p.1).map
        (fun u => (p.1, u)))).Pairwise _
    rw [List.pairwise_filterMap]
    refine (mostCommon_sorted 10 _).imp_of_mem ?_
    intro p q hpm hqm hpq
    intro b hb b' hb'
    rw [Option.mem_def] at hb hb'
    obtain ⟨u, -, rfl⟩ := Option.map_eq_some'.mp hb
    obtain ⟨u', -, rfl⟩ := Option.map_eq_some'.mp hb'
    show cnt (q1MemoryFinal records).date_counts q.1 ≤
      cnt (q1MemoryFinal records).date_counts p.1
    rw [cnt_of_mem_nodup hnd (mostCommon_subset_self hpm),
      cnt_of_mem_nodup hnd (mostCommon_subset_self hqm)]
    exact hpq
  · intro records
    show ((((q1TimeDateCounts records).map Prod.fst).filter
        (fun d => d ∈ (q1TimeTopDates records).map Prod.fst)).filterMap
      (q1TimeRow records)).Pairwise _
    rw [List.pairwise_filterMap]
    have hdates : (((q1TimeDateCounts records).map Prod.fst).filter
        (fun d => d ∈ (q1TimeTopDates records).map Prod.fst)).Pairwise (· < ·) := by
      refine List.Pairwise.filter _ ?_
      exact (List.pairwise_map).mpr
        ((groupSumByKey_keys_strict _).imp (fun h => h))
    refine hdates.imp ?_
    intro d d' hdd'
    intro b hb b' hb'
    rw [Option.mem_def] at hb hb'
    obtain ⟨p, -, rfl⟩ := Option.map_eq_some'.mp hb
    obtain ⟨p', -, rfl⟩ := Option.map_eq_some'.mp hb'
    exact hdd'

/-! ## Claim C9 -/

theorem filterMap_eq_filterMap_filter_isSome {α β : Type} (f : α → Option β)
    (l : List α) :
    l.filterMap f = (l.filter (fun x => (f x).isSome)).filterMap f := by
  induction l with
  | nil => rfl
  | cons x rest ih =>
    cases hfx : f x with
    | none =>
      rw [List.filterMap_cons, hfx, List.filter_cons_of_neg (by simp [hfx]), ih]
    | some b =>
      rw [List.filterMap_cons, hfx, List.filter_cons_of_pos (by simp [hfx]),
        List.filterMap_cons, hfx, ih]

/-- **C9** (confirmed): the memory queries skip malformed lines without a
fatal error — on a single-member archive they return `.ok` of the run over
exactly the well-formed records, and deleting the malformed lines from the
member leaves the result unchanged. -/
theorem c9_malformed_records_skipped {D U C K T : Type} [DecidableEq D]
    [DecidableEq U] [DecidableEq C] [DecidableEq K]
    (isEmoji : C → Bool) (extract : T → List K) :
    (∀ lines : List (Q1Line D U),
        q1Memory [lines] = .ok (q1MemoryRun (lines.filterMap Q1Line.record)) ∧
          q1Memory [lines] = q1Memory [lines.filter (fun l => (l.record).isSome)]) ∧
      (∀ lines : List (ContentLine (List C)),
        q2Memory isEmoji [lines] =
            .ok (q2MemoryRun isEmoji (lines.filterMap ContentLine.text)) ∧
          q2Memory isEmoji [lines] =
            q2Memory isEmoji [lines.filter (fun l => (l.text).isSome)]) ∧
      (∀ lines : List (ContentLine T),
        q3Memory extract [lines] =
            .ok (q3MemoryRun extract (lines.filterMap ContentLine.text)) ∧
          q3Memory extract [lines] =
            q3Memory extract [lines.filter (fun l => (l.text).isSome)]) := by
  refine ⟨fun lines => ⟨rfl, ?_⟩, fun lines => ⟨rfl, ?_⟩, fun lines => ⟨rfl, ?_⟩⟩
  · show Except.ok (q1MemoryRun (lines.filterMap Q1Line.record)) = _
    rw [filterMap_eq_filterMap_filter_isSome Q1Line.record lines]
    rfl
  · show Except.ok (q2MemoryRun isEmoji (lines.filterMap ContentLine.text)) = _
    rw [filterMap_eq_filterMap_filter_isSome ContentLine.text lines]
    rfl
  · show Except.ok (q3MemoryRun extract (lines.filterMap ContentLine.text)) = _
    rw [filterMap_eq_filterMap_filter_isSome ContentLine.text lines]
    rfl

/-! ## Merge algebra (claim C8) -/

section MergeAlgebra

variable {K : Type} [DecidableEq K]

theorem bump_bump_same (k : K) (m m' : Nat) (c : CounterL K) :
    bump k m (bump k m' c) = bump k (m' + m) c := by
  induction c with
  | nil => simp [bump]
  | cons p rest ih =>
    obtain ⟨k₀, n₀⟩ := p
    by_cases h : k₀ = k
    · subst h
      simp [bump, Nat.add_assoc]
    · simp [bump, h, ih]

theorem bump_swap {k k₂ : K} (m n₂ : Nat) {c : CounterL K}
    (hk : k ∈ keysOf c) :
    bump k₂ n₂ (bump k m c) = bump k m (bump k₂ n₂ c) := by
  induction c with
  | nil => cases hk
  | cons p rest ih =>
    obtain ⟨ka, na⟩ := p
    by_cases hka : ka = k
    · subst hka
      by_cases hk₂ : ka = k₂
      · subst hk₂
        simp [bump, Nat.add_assoc, Nat.add_comm m n₂]
      · simp [bump, hk₂]
    · have hmem : k ∈ keysOf rest := by
        rw [keysOf_cons] at hk
        rcases List.mem_cons.mp hk with h | h
        · exact absurd h.symm hka
        · exact h
      by_cases hk₂ : ka = k₂
      · subst hk₂
        simp [bump, hka]
      · simp [bump, hka, hk₂, ih hmem]

theorem mergeCounter_bump_comm {k : K} {m : Nat} {c : CounterL K}
    (hk : k ∈ keysOf c) :
    ∀ d : CounterL K, mergeCounter (bump k m c) d = bump k m (mergeCounter c d)
  | [] => rfl
  | (k₂, n₂) :: d' => by
    show mergeCounter (bump k₂ n₂ (bump k m c)) d' =
      bump k m (mergeCounter (bump k₂ n₂ c) d')
    rw [bump_swap m n₂ hk]
    exact mergeCounter_bump_comm (mem_keysOf_bump.mpr (Or.inr hk)) d'

theorem mergeCounter_bump_one (c : CounterL K) (k : K) :
    ∀ d : CounterL K, mergeCounter c (bump k 1 d) = bump k 1 (mergeCounter c d)
  | [] => rfl
  | (k₀, n₀) :: rest => by
    by_cases h : k₀ = k
    · subst h
      have hb : bump k₀ 1 ((k₀, n₀) :: rest) = (k₀, n₀ + 1) :: rest := by
        simp [bump]
      rw [hb]
      show mergeCounter (bump k₀ (n₀ + 1) c) rest =
        bump k₀ 1 (mergeCounter (bump k₀ n₀ c) rest)
      rw [← bump_bump_same k₀ 1 n₀ c]
      exact mergeCounter_bump_comm (mem_keysOf_bump.mpr (Or.inl rfl)) rest
    · have hb : bump k 1 ((k₀, n₀) :: rest) = (k₀, n₀) :: bump k 1 rest := by
        simp [bump, h]
      rw [hb]
      show mergeCounter (bump k₀ n₀ c) (bump k 1 rest) = _
      exact mergeCounter_bump_one (bump k₀ n₀ c) k rest

theorem mergeCounter_updList (c : CounterL K) :
    ∀ (ks : List K) (d : CounterL K),
      mergeCounter c (updList d ks) = updList (mergeCounter c d) ks
  | [], _ => rfl
  | k :: rest, d => by
    show mergeCounter c (updList (bump k 1 d) rest) = updList (bump k 1 (mergeCounter c d)) rest
    rw [mergeCounter_updList c rest (bump k 1 d), mergeCounter_bump_one]

theorem mergeCounter_counterOf (c : CounterL K) (ks : List K) :
    mergeCounter c (counterOf ks) = updList c ks := by
  rw [counterOf, mergeCounter_updList]
  rfl

/-- The per-entry sum of `entries` at key `k` (what `groupby(...).sum()`
computes for one key). -/
def entrySum (entries : List (K × Nat)) (k : K) : Nat :=
  (entries.map (fun p => if p.1 = k then p.2 else 0)).sum

theorem cnt_mergeCounter_entries (k : K) :
    ∀ (entries : List (K × Nat)) (c : CounterL K),
      cnt (mergeCounter c entries) k = cnt c k + entrySum entries k
  | [], c => by simp [mergeCounter, entrySum]
  | (k₀, n₀) :: rest, c => by
    show cnt (mergeCounter (bump k₀ n₀ c) rest) k = _
    rw [cnt_mergeCounter_entries k rest (bump k₀ n₀ c), cnt_bump]
    unfold entrySum
    rw [List.map_cons, List.sum_cons]
    by_cases h : k₀ = k
    · subst h
      simp only [if_pos rfl]
      omega
    · simp only [if_neg h]
      omega

theorem mem_keysOf_mergeCounter_entries {entries : List (K × Nat)}
    {c : CounterL K} {k : K} :
    k ∈ keysOf (mergeCounter c entries) ↔ k ∈ keysOf c ∨ k ∈ entries.map Prod.fst :=
  mem_keysOf_mergeCounter

theorem entrySum_perm {e₁ e₂ : List (K × Nat)} (h : List.Perm e₁ e₂) (k : K) :
    entrySum e₁ k = entrySum e₂ k :=
  (h.map _).sum_eq

/-- The strict key-ascending order. -/
def keyLT {K : Type} [LinearOrder K] (a b : K × Nat) : Prop := a.1 < b.1

instance {K : Type} [LinearOrder K] : IsAntisymm (K × Nat) (keyLT (K := K)) :=
  ⟨fun _ _ h h' => absurd (lt_trans h h') (lt_irrefl _)⟩

theorem sortKeyAsc_strict {K : Type} [LinearOrder K] {c : CounterL K}
    (hnd : (keysOf c).Nodup) : (sortKeyAsc c).Pairwise (keyLT (K := K)) := by
  have hperm : List.Perm (sortKeyAsc c) c := List.perm_insertionSort _ _
  have hnd' : (keysOf (sortKeyAsc c)).Nodup := nodup_keysOf_of_perm hperm.symm hnd
  have hne : (sortKeyAsc c).Pairwise (fun a b : K × Nat => a.1 ≠ b.1) :=
    (List.pairwise_map (f := Prod.fst)).mp hnd'
  have hle : (sortKeyAsc c).Pairwise (keyLE (K := K)) :=
    List.sorted_insertionSort _ _
  exact (hle.and hne).imp (fun h => lt_of_le_of_ne h.1 h.2)

theorem sortKeyAsc_eq_of_perm {K : Type} [LinearOrder K] {c₁ c₂ : CounterL K}
    (h : List.Perm c₁ c₂) (hnd : (keysOf c₁).Nodup) :
    sortKeyAsc c₁ = sortKeyAsc c₂ := by
  have hnd₂ : (keysOf c₂).Nodup := nodup_keysOf_of_perm h hnd
  exact List.eq_of_perm_of_sorted
    (((List.perm_insertionSort _ _).trans h).trans (List.perm_insertionSort _ _).symm)
    (sortKeyAsc_strict hnd) (sortKeyAsc_strict hnd₂)

/-- `groupby(level=0).sum()` only depends on the multiset of entries: the
key-sorted summed counter is invariant under permutations of the input. -/
theorem groupSumByKey_eq_of_perm {K : Type} [LinearOrder K]
    {e₁ e₂ : List (K × Nat)} (h : List.Perm e₁ e₂) :
    groupSumByKey e₁ = groupSumByKey e₂ := by
  have hnd₁ : (keysOf (mergeCounter ([] : CounterL K) e₁)).Nodup :=
    nodup_keysOf_mergeCounter (by simp [keysOf_nil])
  have hnd₂ : (keysOf (mergeCounter ([] : CounterL K) e₂)).Nodup :=
    nodup_keysOf_mergeCounter (by simp [keysOf_nil])
  refine sortKeyAsc_eq_of_perm ?_ hnd₁
  refine counter_perm_of_cnt_eq hnd₁ hnd₂ ?_ ?_
  · intro k
    rw [mem_keysOf_mergeCounter_entries, mem_keysOf_mergeCounter_entries]
    have := (h.map Prod.fst).mem_iff (a := k)
    simp only [keysOf_nil, List.not_mem_nil, false_or]
    exact this
  · intro k
    rw [cnt_mergeCounter_entries, cnt_mergeCounter_entries, entrySum_perm h]

end MergeAlgebra

/-! ## Claim C8 -/

section ClaimC8

variable {C K : Type} [DecidableEq C] [DecidableEq K]

/-- The emoji stream contributed by one chunk (non-strings contribute
nothing). -/
def chunkEmojis (isEmoji : C → Bool) : List (Option (List C)) → List C
  | [] => []
  | none :: rest => chunkEmojis isEmoji rest
  | some tx :: rest => extractEmojis isEmoji tx ++ chunkEmojis isEmoji rest

theorem chunkEmojis_append (isEmoji : C → Bool) :
    ∀ A B : List (Option (List C)),
      chunkEmojis isEmoji (A ++ B) = chunkEmojis isEmoji A ++ chunkEmojis isEmoji B
  | [], _ => rfl
  | none :: restA, B => by
    show chunkEmojis isEmoji (restA ++ B) = _
    rw [chunkEmojis_append isEmoji restA B]
    rfl
  | some tx :: restA, B => by
    show extractEmojis isEmoji tx ++ chunkEmojis isEmoji (restA ++ B) = _
    rw [chunkEmojis_append isEmoji restA B, chunkEmojis, List.append_assoc]

theorem processChunk_fold (isEmoji : C → Bool) :
    ∀ (texts : List (Option (List C))) (c : CounterL C),
      texts.foldl
        (fun cs tx? => match tx? with
          | none => cs
          | some tx => updList cs (extractEmojis isEmoji tx)) c
      = updList c (chunkEmojis isEmoji texts)
  | [], _ => rfl
  | none :: rest, c => by
    show rest.foldl _ c = updList c (chunkEmojis isEmoji rest)
    exact processChunk_fold isEmoji rest c
  | some tx :: rest, c => by
    show rest.foldl _ (updList c (extractEmojis isEmoji tx)) = _
    rw [processChunk_fold isEmoji rest (updList c (extractEmojis isEmoji tx)),
      chunkEmojis, updList_append]

theorem processChunk_eq_counterOf (isEmoji : C → Bool)
    (texts : List (Option (List C))) :
    processChunk isEmoji texts = counterOf (chunkEmojis isEmoji texts) :=
  processChunk_fold isEmoji texts []

/-- Chunk counters merge exactly into the counter of the concatenated
chunk. -/
theorem processChunk_append (isEmoji : C → Bool) (A B : List (Option (List C))) :
    mergeCounter (processChunk isEmoji A) (processChunk isEmoji B) =
      processChunk isEmoji (A ++ B) := by
  rw [processChunk_eq_counterOf, processChunk_eq_counterOf, processChunk_eq_counterOf,
    mergeCounter_counterOf, chunkEmojis_append]
  simp only [counterOf]
  rw [updList_append]

theorem q2Collect_fold_chunks (isEmoji : C → Bool) :
    ∀ (chunks : List (List (Option (List C)))) (X : List (Option (List C))),
      (chunks.map (fun ch => Except.ok (processChunk isEmoji ch))).foldl
          q2TimeStep (processChunk isEmoji X)
        = processChunk isEmoji (X ++ chunks.flatten)
  | [], X => by
    show processChunk isEmoji X = processChunk isEmoji (X ++ [])
    rw [List.append_nil]
  | ch :: rest, X => by
    show (rest.map _).foldl q2TimeStep
        (mergeCounter (processChunk isEmoji X) (processChunk isEmoji ch)) = _
    rw [processChunk_append, q2Collect_fold_chunks isEmoji rest (X ++ ch),
      List.flatten_cons, List.append_assoc]

/-- The whole `q2_time` fold equals one reduction of the concatenated
chunks: the batch result is invariant to chunk boundaries. -/
theorem q2TimeCollect_chunks (isEmoji : C → Bool)
    (chunks : List (List (Option (List C)))) :
    q2TimeCollect (chunks.map (fun ch => .ok (processChunk isEmoji ch))) =
      processChunk isEmoji chunks.flatten := by
  have h := q2Collect_fold_chunks isEmoji chunks []
  rw [List.nil_append] at h
  exact h

theorem chunkEmojis_perm (isEmoji : C → Bool) {l₁ l₂ : List (Option (List C))}
    (h : List.Perm l₁ l₂) :
    List.Perm (chunkEmojis isEmoji l₁) (chunkEmojis isEmoji l₂) := by
  induction h with
  | nil => exact List.Perm.refl _
  | cons x h ih =>
    cases x with
    | none => exact ih
    | some tx => exact ih.append_left _
  | swap x y l =>
    cases x with
    | none =>
      cases y with
      | none => exact List.Perm.refl _
      | some ty => exact List.Perm.refl _
    | some tx =>
      cases y with
      | none => exact List.Perm.refl _
      | some ty =>
        show List.Perm (extractEmojis isEmoji ty ++ (extractEmojis isEmoji tx ++ _))
          (extractEmojis isEmoji tx ++ (extractEmojis isEmoji ty ++ _))
        rw [← List.append_assoc, ← List.append_assoc]
        exact List.perm_append_comm.append_right _
  | trans h₁ h₂ ih₁ ih₂ => exact ih₁.trans ih₂

theorem pc_flatten_perm (isEmoji : C → Bool)
    {chunks₁ chunks₂ : List (List (Option (List C)))}
    (h : List.Perm chunks₁ chunks₂) :
    List.Perm (processChunk isEmoji chunks₁.flatten)
      (processChunk isEmoji chunks₂.flatten) := by
  rw [processChunk_eq_counterOf, processChunk_eq_counterOf]
  refine counter_perm_of_cnt_eq (nodup_keysOf_counterOf _) (nodup_keysOf_counterOf _)
    ?_ ?_
  · intro k
    rw [mem_keysOf_counterOf, mem_keysOf_counterOf]
    exact (chunkEmojis_perm isEmoji h.flatten).mem_iff
  · intro k
    rw [cnt_counterOf, cnt_counterOf]
    exact (chunkEmojis_perm isEmoji h.flatten).count_eq k

/-- **C8 counterexample**: with the partition `A = [text "5"], B = [text
"7"]` and completion order `B` then `A`, the merged counter's `topN(2)`
(`n = 2` = number of distinct keys) differs from reducing `A ∪ B` in one
piece — ties are ordered by merge order, so the batch result is *not*
invariant to completion order. -/
theorem c8_counterexample :
    mostCommon 2 (q2TimeCollect
        [Except.ok (processChunk (fun _ : Nat => true) [some [7]]),
          Except.ok (processChunk (fun _ : Nat => true) [some [5]])]) ≠
      mostCommon 2 (processChunk (fun _ : Nat => true) [some [5], some [7]]) := by
  decide

/-- **C8 amended**: chunk counters merge *exactly*: combining in chunk order
equals reducing the concatenation, so `topN` agrees for every `n` and the
fold is invariant to chunk boundaries.  Completion-order invariance holds
for `q2_time` only when the combined counts are pairwise distinct (ties
follow merge order), while `q3_time`'s fold (which sorts keys) is invariant
to completion order unconditionally. -/
theorem c8_amended {C K : Type} [DecidableEq C] [LinearOrder K]
    (isEmoji : C → Bool) :
    (∀ A B : List (Option (List C)),
        mergeCounter (processChunk isEmoji A) (processChunk isEmoji B) =
          processChunk isEmoji (A ++ B)) ∧
      (∀ chunks : List (List (Option (List C))),
        q2TimeCollect (chunks.map (fun ch => .ok (processChunk isEmoji ch))) =
          processChunk isEmoji chunks.flatten) ∧
      (∀ chunks₁ chunks₂ : List (List (Option (List C))),
        List.Perm chunks₁ chunks₂ →
        ((processChunk isEmoji chunks₁.flatten).map Prod.snd).Nodup →
        q2TimeRun isEmoji chunks₁ = q2TimeRun isEmoji chunks₂) ∧
      (∀ cs₁ cs₂ : List (CounterL K), List.Perm cs₁ cs₂ →
        q3TimeFromChunkCounters cs₁ = q3TimeFromChunkCounters cs₂) := by
  refine ⟨processChunk_append isEmoji, q2TimeCollect_chunks isEmoji, ?_, ?_⟩
  · intro chunks₁ chunks₂ hperm hdist
    have e1 : q2TimeRun isEmoji chunks₁ =
        if processChunk isEmoji chunks₁.flatten = [] then []
        else mostCommon 10 (processChunk isEmoji chunks₁.flatten) := by
      show (if q2TimeCollect (chunks₁.map (fun ch => .ok (processChunk isEmoji ch))) = []
          then [] else mostCommon 10 (q2TimeCollect
            (chunks₁.map (fun ch => .ok (processChunk isEmoji ch))))) = _
      rw [q2TimeCollect_chunks]
    have e2 : q2TimeRun isEmoji chunks₂ =
        if processChunk isEmoji chunks₂.flatten = [] then []
        else mostCommon 10 (processChunk isEmoji chunks₂.flatten) := by
      show (if q2TimeCollect (chunks₂.map (fun ch => .ok (processChunk isEmoji ch))) = []
          then [] else mostCommon 10 (q2TimeCollect
            (chunks₂.map (fun ch => .ok (processChunk isEmoji ch))))) = _
      rw [q2TimeCollect_chunks]
    rw [e1, e2]
    have hpermc := pc_flatten_perm isEmoji hperm
    have hsort : sortDesc (processChunk isEmoji chunks₁.flatten) =
        sortDesc (processChunk isEmoji chunks₂.flatten) :=
      sortDesc_eq_of_perm_of_distinct hpermc hdist
    by_cases h1 : processChunk isEmoji chunks₁.flatten = []
    · have h2 : processChunk isEmoji chunks₂.flatten = [] := by
        rw [h1] at hpermc
        exact hpermc.symm.eq_nil
      rw [if_pos h1, if_pos h2]
    · have h2 : ¬ processChunk isEmoji chunks₂.flatten = [] := by
        intro h2
        rw [h2] at hpermc
        exact h1 hpermc.eq_nil
      rw [if_neg h1, if_neg h2, mostCommon, mostCommon, hsort]
  · intro cs₁ cs₂ h
    show mostCommon 10 (groupSumByKey cs₁.flatten) =
      mostCommon 10 (groupSumByKey cs₂.flatten)
    rw [groupSumByKey_eq_of_perm h.flatten]

/-- Witness for `c8_amended` at concrete inputs. -/
theorem c8_amended_witness :
    (List.Perm [[some [5]], [some [7, 7]]]
        [[some ([7, 7] : List Nat)], [some [5]]] ∧
      ((processChunk (fun _ : Nat => true)
          ([[some [5]], [some [7, 7]]] : List (List (Option (List Nat)))).flatten).map
        Prod.snd).Nodup) ∧
      q2TimeRun (fun _ : Nat => true) [[some [5]], [some [7, 7]]] =
        q2TimeRun (fun _ : Nat => true) [[some [7, 7]], [some [5]]] :=
  ⟨⟨by decide, by decide⟩,
    (c8_amended (K := Nat) (fun _ : Nat => true)).2.2.1
      [[some [5]], [some [7, 7]]] [[some [7, 7]], [some [5]]]
      (by decide) (by decide)⟩

end ClaimC8

/-! ## Dominance and prune survival (claim C5) -/

section Dominance

variable {K : Type} [DecidableEq K]

/-- The summed counts of every tracked key other than `k`. -/
def othersSum (c : CounterL K) (k : K) : Nat :=
  ((c.filter (fun p => p.1 ≠ k)).map Prod.snd).sum

/-- `k`'s count strictly exceeds the sum of all other tracked keys' counts. -/
def StrictlyDominant (k : K) (c : CounterL K) : Prop :=
  othersSum c k < cnt c k

instance (k : K) (c : CounterL K) : Decidable (StrictlyDominant k c) :=
  inferInstanceAs (Decidable (_ < _))

theorem othersSum_le {c : CounterL K} {k : K} {p : K × Nat}
    (hp : p ∈ c) (hne : p.1 ≠ k) : p.2 ≤ othersSum c k := by
  have hmem : p.2 ∈ (c.filter (fun p => p.1 ≠ k)).map Prod.snd :=
    List.mem_map.mpr ⟨p, List.mem_filter.mpr ⟨hp, by simp [hne]⟩, rfl⟩
  exact List.single_le_sum (fun x _ => Nat.zero_le x) _ hmem

theorem dominant_mem {c : CounterL K} {k : K} (hdom : StrictlyDominant k c) :
    k ∈ keysOf c := by
  by_contra h
  rw [StrictlyDominant, cnt_eq_zero_of_not_mem h] at hdom
  exact Nat.not_lt_zero _ hdom

theorem dominant_entry_lt {c : CounterL K} {k : K}
    (hnd : (keysOf c).Nodup) (hdom : StrictlyDominant k c) :
    ∀ p ∈ c, p ≠ (k, cnt c k) → p.2 < cnt c k := by
  intro p hp hne
  by_cases hk : p.1 = k
  · exfalso
    have hm : (k, p.2) ∈ c := by
      have hpe : p = (k, p.2) := Prod.ext hk rfl
      rwa [hpe] at hp
    exact hne (Prod.ext hk (cnt_of_mem_nodup hnd hm).symm)
  · exact Nat.lt_of_le_of_lt (othersSum_le hp hk) hdom

theorem dominant_entry_le {c : CounterL K} {k : K}
    (hnd : (keysOf c).Nodup) (hdom : StrictlyDominant k c) :
    ∀ p ∈ c, p.2 ≤ cnt c k := by
  intro p hp
  by_cases hne : p = (k, cnt c k)
  · rw [hne]
  · exact Nat.le_of_lt (dominant_entry_lt hnd hdom p hp hne)

/-- A strictly dominant key heads the descending sort. -/
theorem sortDesc_head_of_dominant {c : CounterL K} {k : K}
    (hnd : (keysOf c).Nodup) (hdom : StrictlyDominant k c) :
    (sortDesc c).head? = some (k, cnt c k) :=
  sortDesc_head_of_strict_max (mem_of_cnt (dominant_mem hdom))
    (dominant_entry_lt hnd hdom)

/-- A strictly dominant key is the sole entry of `topN(1)`. -/
theorem mostCommon_one_of_dominant {c : CounterL K} {k : K}
    (hnd : (keysOf c).Nodup) (hdom : StrictlyDominant k c) :
    mostCommon 1 c = [(k, cnt c k)] := by
  obtain ⟨rest, hrest⟩ := head?_eq_some_iff_exists.mp (sortDesc_head_of_dominant hnd hdom)
  rw [mostCommon, hrest]
  rfl

theorem nodup_keysOf_mostCommon {c : CounterL K} (n : Nat)
    (hnd : (keysOf c).Nodup) : (keysOf (mostCommon n c)).Nodup :=
  (nodup_keysOf_of_perm (sortDesc_perm c).symm hnd).sublist
    ((mostCommon_sublist n c).map Prod.fst)

/-- A strictly dominant key survives `mostCommon n` (for `n ≥ 1`) with its
count intact. -/
theorem cnt_mostCommon_of_dominant {c : CounterL K} {k : K} {n : Nat}
    (hpos : 0 < n) (hnd : (keysOf c).Nodup) (hdom : StrictlyDominant k c) :
    cnt (mostCommon n c) k = cnt c k := by
  obtain ⟨rest, hrest⟩ := head?_eq_some_iff_exists.mp (sortDesc_head_of_dominant hnd hdom)
  have hmem : (k, cnt c k) ∈ mostCommon n c := by
    rw [mostCommon, hrest]
    cases n with
    | zero => exact absurd hpos (Nat.lt_irrefl 0)
    | succ n' => exact List.mem_cons_self _ _
  exact cnt_of_mem_nodup (nodup_keysOf_mostCommon n hnd) hmem

end Dominance

/-! ## Claim C5 -/

section ClaimC5

variable {K D U : Type} [DecidableEq K] [DecidableEq D] [DecidableEq U]

/-- The `MentionTracker` loop of `q3_memory`, one extracted mention list per
tweet. -/
def mtRun (ts : List (List K)) : MentionTracker K :=
  ts.foldl (fun tr m => tr.processTweet m) (MentionTracker.init K)

/-- `k`'s total number of occurrences in the stream. -/
def totalMentions (k : K) (ts : List (List K)) : Nat :=
  (ts.map (fun m => m.count k)).sum

/-- At every prune point of the run — the pre-cleanup state of a
`process_tweet` call whose cleanup condition fires — `k` is strictly
dominant among the tracked mentions. -/
def mtPrunePointDominant (k : K) (ts : List (List K)) : Prop :=
  ∀ i, (h : i < ts.length) →
    ((mtRun (ts.take i)).countPhase (ts.get ⟨i, h⟩)).shouldCleanup = true →
    StrictlyDominant k
      ((mtRun (ts.take i)).countPhase (ts.get ⟨i, h⟩)).mention_counts

theorem mtFold_dominant_aux (k : K) :
    ∀ (suf : List (List K)) (s : MentionTracker K),
      (keysOf s.mention_counts).Nodup → 0 < s.max_mentions →
      (∀ i, (h : i < suf.length) →
        (((suf.take i).foldl (fun tr m => tr.processTweet m) s).countPhase
            (suf.get ⟨i, h⟩)).shouldCleanup = true →
        StrictlyDominant k
          (((suf.take i).foldl (fun tr m => tr.processTweet m) s).countPhase
            (suf.get ⟨i, h⟩)).mention_counts) →
      (keysOf (suf.foldl (fun tr m => tr.processTweet m) s).mention_counts).Nodup ∧
        (suf.foldl (fun tr m => tr.processTweet m) s).max_mentions = s.max_mentions ∧
        cnt (suf.foldl (fun tr m => tr.processTweet m) s).mention_counts k =
          cnt s.mention_counts k + totalMentions k suf
  | [], s => by
    intro hnd hpos _
    exact ⟨hnd, rfl, by simp [totalMentions]⟩
  | m :: rest, s => by
    intro hnd hpos hyp
    have hnd' : (keysOf (s.countPhase m).mention_counts).Nodup :=
      nodup_keysOf_updList hnd
    have hcnt' : cnt (s.countPhase m).mention_counts k =
        cnt s.mention_counts k + m.count k := cnt_updList _ _ _
    have h0 : (s.countPhase m).shouldCleanup = true →
        StrictlyDominant k (s.countPhase m).mention_counts :=
      hyp 0 (Nat.succ_pos _)
    have hstep : (keysOf (s.processTweet m).mention_counts).Nodup ∧
        (s.processTweet m).max_mentions = s.max_mentions ∧
        cnt (s.processTweet m).mention_counts k =
          cnt s.mention_counts k + m.count k := by
      unfold MentionTracker.processTweet
      by_cases hcl : (s.countPhase m).shouldCleanup = true
      · rw [if_pos hcl]
        have hdom := h0 hcl
        have hpos' : 0 < (s.countPhase m).max_mentions := hpos
        refine ⟨nodup_keysOf_mostCommon _ hnd', rfl, ?_⟩
        show cnt (mostCommon (s.countPhase m).max_mentions
          (s.countPhase m).mention_counts) k = _
        rw [cnt_mostCommon_of_dominant hpos' hnd' hdom, hcnt']
      · rw [if_neg hcl]
        exact ⟨hnd', rfl, hcnt'⟩
    have ih := mtFold_dominant_aux k rest (s.processTweet m)
      hstep.1 (hstep.2.1 ▸ hpos)
      (fun i h hcl => hyp (i + 1) (Nat.succ_lt_succ h) hcl)
    refine ⟨?_, ?_, ?_⟩
    · show (keysOf (rest.foldl (fun tr m => tr.processTweet m)
        (s.processTweet m)).mention_counts).Nodup
      exact ih.1
    · show (rest.foldl (fun tr m => tr.processTweet m)
        (s.processTweet m)).max_mentions = s.max_mentions
      exact ih.2.1.trans hstep.2.1
    · show cnt (rest.foldl (fun tr m => tr.processTweet m)
        (s.processTweet m)).mention_counts k =
        cnt s.mention_counts k + totalMentions k (m :: rest)
      rw [ih.2.2, hstep.2.2]
      unfold totalMentions
      rw [List.map_cons, List.sum_cons]
      omega

/-- `_prune_data` never evicts a strictly dominant date, and leaves its
count unchanged. -/
theorem pruneData_preserves_dominant {t : DateTracker D U} {d : D}
    (hnd : (keysOf t.date_counts).Nodup)
    (hdom : StrictlyDominant d t.date_counts) :
    cnt t.pruneData.date_counts d = cnt t.date_counts d ∧
      (keysOf t.pruneData.date_counts).Nodup := by
  have hkeep : t.getMinCount ≤ cnt t.date_counts d := by
    unfold DateTracker.getMinCount
    split
    · exact Nat.zero_le _
    · by_cases hmc : (mostCommon t.max_dates t.date_counts).map Prod.snd = []
      · rw [hmc]
        exact Nat.zero_le _
      · have hm := listMin_mem hmc
        obtain ⟨p, hp, hps⟩ := List.mem_map.mp hm
        rw [← hps]
        exact dominant_entry_le hnd hdom p (mostCommon_subset_self hp)
  have hdm : (d, cnt t.date_counts d) ∈ t.date_counts :=
    mem_of_cnt (dominant_mem hdom)
  have hdf : (d, cnt t.date_counts d) ∈
      t.date_counts.filter (fun p => t.getMinCount ≤ p.2) :=
    List.mem_filter.mpr ⟨hdm, by simpa using hkeep⟩
  have hndf : (keysOf (t.date_counts.filter
      (fun p => t.getMinCount ≤ p.2))).Nodup := nodup_keysOf_filter _ hnd
  exact ⟨cnt_of_mem_nodup hndf hdf, hndf⟩

/-- One `add_tweet` call: the date counter of `d` grows exactly with the
record's date, provided `d` is strictly dominant whenever the pruning check
fires. -/
theorem addTweet_dominant_step {t : DateTracker D U} {r : D × U} {d : D}
    (hnd : (keysOf t.date_counts).Nodup)
    (hdomIf : (((t.countDate r.1).switchDate r.1).countUser r.2).pruneThreshold <
        ((((t.countDate r.1).switchDate r.1).countUser r.2).date_counts).length →
      StrictlyDominant d
        ((((t.countDate r.1).switchDate r.1).countUser r.2).date_counts)) :
    cnt (t.addTweet r.1 r.2).date_counts d =
        cnt t.date_counts d + (if r.1 = d then 1 else 0) ∧
      (keysOf (t.addTweet r.1 r.2).date_counts).Nodup := by
  have ht3dc : ((((t.countDate r.1).switchDate r.1).countUser r.2).date_counts) =
      bump r.1 1 t.date_counts := by
    show (((t.countDate r.1).switchDate r.1).date_counts) = _
    rw [switchDate_date_counts]
    rfl
  have hcnt3 : cnt ((((t.countDate r.1).switchDate r.1).countUser r.2).date_counts) d =
      cnt t.date_counts d + (if r.1 = d then 1 else 0) := by
    rw [ht3dc, cnt_bump]
  have hnd3 : (keysOf ((((t.countDate r.1).switchDate r.1).countUser r.2).date_counts)).Nodup := by
    rw [ht3dc]
    exact nodup_keysOf_bump hnd
  show cnt ((((t.countDate r.1).switchDate r.1).countUser r.2).maybePrune).date_counts d = _ ∧
    (keysOf ((((t.countDate r.1).switchDate r.1).countUser r.2).maybePrune).date_counts).Nodup
  unfold DateTracker.maybePrune
  by_cases htr : (((t.countDate r.1).switchDate r.1).countUser r.2).pruneThreshold <
      ((((t.countDate r.1).switchDate r.1).countUser r.2).date_counts).length
  · rw [if_pos htr]
    have hp := pruneData_preserves_dominant hnd3 (hdomIf htr)
    exact ⟨hp.1.trans hcnt3, hp.2⟩
  · rw [if_neg htr]
    exact ⟨hcnt3, hnd3⟩

theorem dtFold_dominant_aux (d : D) :
    ∀ (suf : List (D × U)) (t : DateTracker D U),
      (keysOf t.date_counts).Nodup →
      (∀ i, (h : i < suf.length) →
        (((((suf.take i).foldl (fun t r => t.addTweet r.1 r.2) t).countDate
              (suf.get ⟨i, h⟩).1).switchDate (suf.get ⟨i, h⟩).1).countUser
            (suf.get ⟨i, h⟩).2).pruneThreshold <
          ((((((suf.take i).foldl (fun t r => t.addTweet r.1 r.2) t).countDate
              (suf.get ⟨i, h⟩).1).switchDate (suf.get ⟨i, h⟩).1).countUser
            (suf.get ⟨i, h⟩).2).date_counts).length →
        StrictlyDominant d
          ((((((suf.take i).foldl (fun t r => t.addTweet r.1 r.2) t).countDate
              (suf.get ⟨i, h⟩).1).switchDate (suf.get ⟨i, h⟩).1).countUser
            (suf.get ⟨i, h⟩).2).date_counts)) →
      (keysOf (suf.foldl (fun t r => t.addTweet r.1 r.2) t).date_counts).Nodup ∧
        cnt (suf.foldl (fun t r => t.addTweet r.1 r.2) t).date_counts d =
          cnt t.date_counts d + (suf.map Prod.fst).count d
  | [], t => by
    intro hnd _
    exact ⟨hnd, by simp⟩
  | r :: rest, t => by
    intro hnd hyp
    have h0 := hyp 0 (Nat.succ_pos _)
    have hstep := addTweet_dominant_step (r := r) (d := d) hnd h0
    have ih := dtFold_dominant_aux d rest (t.addTweet r.1 r.2) hstep.2
      (fun i h htr => hyp (i + 1) (Nat.succ_lt_succ h) htr)
    refine ⟨?_, ?_⟩
    · show (keysOf (rest.foldl (fun t r => t.addTweet r.1 r.2)
        (t.addTweet r.1 r.2)).date_counts).Nodup
      exact ih.1
    · show cnt (rest.foldl (fun t r => t.addTweet r.1 r.2)
        (t.addTweet r.1 r.2)).date_counts d =
        cnt t.date_counts d + ((r :: rest).map Prod.fst).count d
      rw [ih.2, hstep.1, List.map_cons, List.count_cons]
      simp only [beq_iff_eq]
      by_cases h : r.1 = d
      · rw [if_pos h]
        omega
      · rw [if_neg h]
        omega

/-- **C5 counterexample**: the claim's hypothesis restricts `k` only at
prune points, so on a stream with no prune point (3 tweets, cleanup interval
10000) it holds vacuously for `k = 0`, yet `topN(1)` returns `(1, 2)` — key
`1`, not `0` — as its first element. -/
theorem c5_counterexample :
    mtPrunePointDominant (0 : Nat) [[0], [1], [1]] ∧
      ((mtRun [[(0 : Nat)], [1], [1]]).getTopMentions 1).1 = [(1, 2)] := by
  constructor
  · intro i h
    have h3 : i < 3 := h
    interval_cases i
    · intro hcl
      have hcl' : ((mtRun ([] : List (List Nat))).countPhase [0]).shouldCleanup = true := hcl
      exact absurd hcl' (by decide)
    · intro hcl
      have hcl' : ((mtRun [[(0 : Nat)]]).countPhase [1]).shouldCleanup = true := hcl
      exact absurd hcl' (by decide)
    · intro hcl
      have hcl' : ((mtRun [[(0 : Nat)], [1]]).countPhase [1]).shouldCleanup = true := hcl
      exact absurd hcl' (by decide)
  · decide

/-- The prune-point dominance hypothesis for the q1 date tracker: `d` is
strictly dominant in the pre-prune state of every `add_tweet` call whose
pruning check fires. -/
def dtPrunePointDominant (d : D) (records : List (D × U)) : Prop :=
  ∀ i, (h : i < records.length) →
    ((((q1MemoryTracker (records.take i)).countDate (records.get ⟨i, h⟩).1).switchDate
        (records.get ⟨i, h⟩).1).countUser (records.get ⟨i, h⟩).2).pruneThreshold <
      (((((q1MemoryTracker (records.take i)).countDate (records.get ⟨i, h⟩).1).switchDate
        (records.get ⟨i, h⟩).1).countUser (records.get ⟨i, h⟩).2).date_counts).length →
    StrictlyDominant d
      ((((q1MemoryTracker (records.take i)).countDate (records.get ⟨i, h⟩).1).switchDate
        (records.get ⟨i, h⟩).1).countUser (records.get ⟨i, h⟩).2).date_counts

/-- **C5 amended**: if `k` is strictly dominant at every *prune point*, it is
never evicted — its final tracked count equals its true total — and if it is
additionally strictly dominant in the final state (the original claim's
conclusion needs this, as the counterexample shows), it is the sole entry of
`topN(1)`, for both the mention tracker and the date tracker. -/
theorem c5_amended {K D U : Type} [DecidableEq K] [DecidableEq D] [DecidableEq U] :
    (∀ (ts : List (List K)) (k : K), mtPrunePointDominant k ts →
        cnt (mtRun ts).mention_counts k = totalMentions k ts ∧
          (StrictlyDominant k (mtRun ts).mention_counts →
            ((mtRun ts).getTopMentions 1).1 = [(k, totalMentions k ts)])) ∧
      (∀ (records : List (D × U)) (d : D), dtPrunePointDominant d records →
        cnt (q1MemoryTracker records).date_counts d =
            (records.map Prod.fst).count d ∧
          (StrictlyDominant d (q1MemoryTracker records).date_counts →
            mostCommon 1 (q1MemoryTracker records).date_counts =
              [(d, (records.map Prod.fst).count d)])) := by
  constructor
  · intro ts k hyp
    have aux := mtFold_dominant_aux k ts (MentionTracker.init K)
      (by simp [MentionTracker.init, keysOf_nil]) (by decide : (0 : Nat) < 100) hyp
    have hcnt : cnt (mtRun ts).mention_counts k = totalMentions k ts := by
      have h1 := aux.2.2
      rw [show cnt (MentionTracker.init K).mention_counts k = 0 from rfl,
        Nat.zero_add] at h1
      exact h1
    refine ⟨hcnt, ?_⟩
    intro hdom
    have hnd : (keysOf (mtRun ts).mention_counts).Nodup := aux.1
    show mostCommon 1 (mtRun ts).mention_counts = _
    rw [mostCommon_one_of_dominant hnd hdom, hcnt]
  · intro records d hyp
    have aux := dtFold_dominant_aux d records (DateTracker.init D U)
      (by simp [DateTracker.init, keysOf_nil]) hyp
    have hcnt : cnt (q1MemoryTracker records).date_counts d =
        (records.map Prod.fst).count d := by
      have h1 := aux.2
      rw [show cnt (DateTracker.init D U).date_counts d = 0 from rfl,
        Nat.zero_add] at h1
      exact h1
    refine ⟨hcnt, ?_⟩
    intro hdom
    have hnd : (keysOf (q1MemoryTracker records).date_counts).Nodup := aux.1
    rw [mostCommon_one_of_dominant hnd hdom, hcnt]

/-- Witness for `c5_amended` at a concrete input. -/
theorem c5_amended_witness :
    (mtPrunePointDominant (0 : Nat) [[0], [0], [1]] ∧
        StrictlyDominant (0 : Nat) (mtRun [[(0 : Nat)], [0], [1]]).mention_counts) ∧
      ((mtRun [[(0 : Nat)], [0], [1]]).getTopMentions 1).1 =
        [(0, totalMentions 0 [[(0 : Nat)], [0], [1]])] := by
  have hyp : mtPrunePointDominant (0 : Nat) [[0], [0], [1]] := by
    intro i h
    have h3 : i < 3 := h
    interval_cases i
    · intro hcl
      have hcl' : ((mtRun ([] : List (List Nat))).countPhase [0]).shouldCleanup = true := hcl
      exact absurd hcl' (by decide)
    · intro hcl
      have hcl' : ((mtRun [[(0 : Nat)]]).countPhase [0]).shouldCleanup = true := hcl
      exact absurd hcl' (by decide)
    · intro hcl
      have hcl' : ((mtRun [[(0 : Nat)], [0]]).countPhase [1]).shouldCleanup = true := hcl
      exact absurd hcl' (by decide)
  exact ⟨⟨hyp, by decide⟩,
    ((c5_amended (D := Nat) (U := Nat)).1 [[0], [0], [1]] 0 hyp).2 (by decide)⟩

end ClaimC5

/-! ## Claim C2

Streaming (memory) vs batch (time) equivalence when pruning never triggers.
The q3 side is exact list equality under tie-freedom; the q1 side is treated
afterwards. -/

section ClaimC2

/-- Under `bump` the key list either stays put or grows by appending. -/
theorem keysOf_sublist_bump {K : Type} [DecidableEq K] (k : K) (m : Nat) (c : CounterL K) :
    (keysOf c).Sublist (keysOf (bump k m c)) := by
  rw [keysOf_bump]
  split
  · exact List.Sublist.refl _
  · exact List.sublist_append_left _ _

theorem keysOf_sublist_updList {K : Type} [DecidableEq K] (c : CounterL K) (ks : List K) :
    (keysOf c).Sublist (keysOf (updList c ks)) := by
  induction ks generalizing c with
  | nil => exact List.Sublist.refl _
  | cons x xs ih =>
    have step : updList c (x :: xs) = updList (bump x 1 c) xs := rfl
    rw [step]
    exact (keysOf_sublist_bump x 1 c).trans (ih (bump x 1 c))

/-- While the final key set stays within `max_mentions`, `process_tweet`
never triggers `_cleanup_memory`: the whole run is a plain `Counter.update`
fold plus the two statistics counters. -/
theorem mtRun_no_cleanup {K : Type} [DecidableEq K] :
    ∀ (ms : List (List K)) (s : MentionTracker K),
      (keysOf (updList s.mention_counts ms.flatten)).length ≤ s.max_mentions →
      ms.foldl (fun tr m => tr.processTweet m) s =
        ⟨updList s.mention_counts ms.flatten, s.max_mentions, s.cleanup_frequency,
          s.tweets_processed + ms.length, s.mentions_found + ms.flatten.length⟩
  | [], s => by
    intro _
    rfl
  | m :: rest, s => by
    intro hb
    have hlenk : (keysOf (updList s.mention_counts m)).length ≤ s.max_mentions := by
      have hsub : (keysOf (updList s.mention_counts m)).Sublist
          (keysOf (updList s.mention_counts (m :: rest).flatten)) := by
        rw [List.flatten_cons, updList_append]
        exact keysOf_sublist_updList _ _
      exact le_trans hsub.length_le hb
    have hclean : (s.countPhase m).shouldCleanup = false := by
      have hlt : ¬ s.max_mentions < (updList s.mention_counts m).length := by
        have hk : (keysOf (updList s.mention_counts m)).length
            = (updList s.mention_counts m).length := List.length_map _ _
        omega
      simp [MentionTracker.shouldCleanup, MentionTracker.countPhase, hlt]
    have hstep : s.processTweet m = s.countPhase m := by
      simp [MentionTracker.processTweet, hclean]
    have hb' : (keysOf (updList (s.countPhase m).mention_counts rest.flatten)).length
        ≤ (s.countPhase m).max_mentions := by
      show (keysOf (updList (updList s.mention_counts m) rest.flatten)).length
          ≤ s.max_mentions
      rw [← updList_append, ← List.flatten_cons]
      exact hb
    rw [List.foldl_cons, hstep, mtRun_no_cleanup rest (s.countPhase m) hb']
    simp [MentionTracker.countPhase, MentionTracker.mk.injEq, List.flatten_cons,
      updList_append, List.length_append, List.length_cons]
    omega

/-- `q3_memory`'s aggregation under no cleanup: the empty-result guard tests
the total number of extracted mentions and the counter is the plain
reduction of all mentions. -/
theorem q3MemoryRun_no_cleanup {K T : Type} [DecidableEq K] (extract : T → List K)
    (texts : List T)
    (hb : (keysOf (counterOf (texts.map extract).flatten)).length
        ≤ (MentionTracker.init K).max_mentions) :
    q3MemoryRun extract texts =
      if (texts.map extract).flatten.length = 0 then []
      else mostCommon 10 (counterOf (texts.map extract).flatten) := by
  have hfold : texts.foldl (fun tr tx => tr.processTweet (extract tx))
      (MentionTracker.init K)
      = (texts.map extract).foldl (fun tr m => tr.processTweet m) (MentionTracker.init K) :=
    (List.foldl_map _ _ _ _).symm
  have hrun := mtRun_no_cleanup (texts.map extract) (MentionTracker.init K) hb
  rw [q3MemoryRun, hfold, hrun]
  simp [MentionTracker.getTopMentions, MentionTracker.init, counterOf, Nat.zero_add]

/-- The mentions of one q3 chunk, in order (missing contents contribute
nothing). -/
def chunkMentions {K T : Type} (extract : T → List K) : List (Option T) → List K
  | [] => []
  | none :: rest => chunkMentions extract rest
  | some t :: rest => extract t ++ chunkMentions extract rest

theorem chunkMentions_fold {K T : Type} (extract : T → List K) :
    ∀ (chunk : List (Option T)) (acc : List K),
      chunk.foldl
          (fun acc t? => acc ++ (match t? with | none => [] | some t => extract t)) acc
        = acc ++ chunkMentions extract chunk
  | [], acc => by simp [chunkMentions]
  | none :: rest, acc => by
    rw [List.foldl_cons, chunkMentions_fold extract rest _]
    simp [chunkMentions]
  | some t :: rest, acc => by
    rw [List.foldl_cons, chunkMentions_fold extract rest _]
    simp [chunkMentions]

theorem q3ProcessChunkParallel_eq {K T : Type} [DecidableEq K] (extract : T → List K)
    (chunk : List (Option T)) :
    q3ProcessChunkParallel extract chunk
      = sortDesc (counterOf (chunkMentions extract chunk)) := by
  rw [q3ProcessChunkParallel, valueCounts, chunkMentions_fold]
  rw [List.nil_append]

theorem chunkMentions_append {K T : Type} (extract : T → List K)
    (a b : List (Option T)) :
    chunkMentions extract (a ++ b)
      = chunkMentions extract a ++ chunkMentions extract b := by
  induction a with
  | nil => simp [chunkMentions]
  | cons x rest ih =>
    cases x with
    | none => simpa [chunkMentions] using ih
    | some t => simp [chunkMentions, ih]

theorem chunkMentions_map_some {K T : Type} (extract : T → List K) (texts : List T) :
    chunkMentions extract (texts.map some) = (texts.map extract).flatten := by
  induction texts with
  | nil => rfl
  | cons t rest ih => simp [chunkMentions, ih]

theorem chunkMentions_flatten {K T : Type} (extract : T → List K) :
    ∀ (chunks : List (List (Option T))),
      chunkMentions extract chunks.flatten
        = (chunks.map (chunkMentions extract)).flatten
  | [] => rfl
  | c :: rest => by
    rw [List.flatten_cons, chunkMentions_append, chunkMentions_flatten extract rest,
      List.map_cons, List.flatten_cons]

theorem entrySum_append_c2 {K : Type} [DecidableEq K] (a b : List (K × Nat)) (k : K) :
    entrySum (a ++ b) k = entrySum a k + entrySum b k := by
  rw [entrySum, entrySum, entrySum, List.map_append, List.sum_append]

theorem entrySum_eq_zero_of_not_mem {K : Type} [DecidableEq K]
    {c : List (K × Nat)} {k : K} (h : k ∉ keysOf c) : entrySum c k = 0 := by
  induction c with
  | nil => rfl
  | cons p rest ih =>
    rw [keysOf_cons, List.mem_cons, not_or] at h
    have h1 : ¬ p.1 = k := fun he => h.1 he.symm
    have h2 := ih h.2
    rw [entrySum] at h2 ⊢
    rw [List.map_cons, List.sum_cons, if_neg h1, h2]

theorem entrySum_eq_cnt_of_nodup {K : Type} [DecidableEq K] {c : List (K × Nat)}
    (hnd : (keysOf c).Nodup) (k : K) : entrySum c k = cnt c k := by
  induction c with
  | nil => rfl
  | cons p rest ih =>
    obtain ⟨k₀, n₀⟩ := p
    rw [keysOf_cons, List.nodup_cons] at hnd
    have hrest := ih hnd.2
    rw [cnt_cons]
    by_cases h : k₀ = k
    · subst h
      rw [if_pos rfl]
      have hz : entrySum rest k₀ = 0 := entrySum_eq_zero_of_not_mem hnd.1
      rw [entrySum, List.map_cons, List.sum_cons, if_pos rfl]
      rw [entrySum] at hz
      rw [hz]
      rfl
    · rw [if_neg h]
      rw [entrySum, List.map_cons, List.sum_cons, if_neg h]
      rw [entrySum] at hrest
      rw [hrest, Nat.zero_add]

theorem entrySum_flatten {K : Type} [DecidableEq K] (k : K) :
    ∀ (cs : List (List (K × Nat))),
      entrySum cs.flatten k = (cs.map (fun c => entrySum c k)).sum
  | [] => rfl
  | c :: rest => by
    rw [List.flatten_cons, entrySum_append_c2, entrySum_flatten k rest,
      List.map_cons, List.sum_cons]

theorem cnt_groupSumByKey {K : Type} [LinearOrder K] (entries : List (K × Nat)) (k : K) :
    cnt (groupSumByKey entries) k = entrySum entries k := by
  have hnd : (keysOf (mergeCounter ([] : CounterL K) entries)).Nodup :=
    nodup_keysOf_mergeCounter (by simp [keysOf_nil])
  have hperm : List.Perm (sortKeyAsc (mergeCounter ([] : CounterL K) entries))
      (mergeCounter ([] : CounterL K) entries) := List.perm_insertionSort _ _
  rw [groupSumByKey, ← cnt_congr_perm hperm.symm hnd k]
  rw [cnt_mergeCounter_entries, cnt_nil, Nat.zero_add]

theorem mem_keysOf_groupSumByKey {K : Type} [LinearOrder K]
    {entries : List (K × Nat)} {k : K} :
    k ∈ keysOf (groupSumByKey entries) ↔ k ∈ entries.map Prod.fst := by
  have hperm : List.Perm (sortKeyAsc (mergeCounter ([] : CounterL K) entries))
      (mergeCounter ([] : CounterL K) entries) := List.perm_insertionSort _ _
  have h1 : k ∈ keysOf (sortKeyAsc (mergeCounter ([] : CounterL K) entries))
      ↔ k ∈ keysOf (mergeCounter ([] : CounterL K) entries) :=
    (hperm.map Prod.fst).mem_iff
  rw [groupSumByKey, h1, mem_keysOf_mergeCounter_entries]
  simp [keysOf_nil]

theorem nodup_keysOf_groupSumByKey {K : Type} [LinearOrder K]
    (entries : List (K × Nat)) : (keysOf (groupSumByKey entries)).Nodup := by
  have hnd : (keysOf (mergeCounter ([] : CounterL K) entries)).Nodup :=
    nodup_keysOf_mergeCounter (by simp [keysOf_nil])
  have hperm : List.Perm (sortKeyAsc (mergeCounter ([] : CounterL K) entries))
      (mergeCounter ([] : CounterL K) entries) := List.perm_insertionSort _ _
  exact nodup_keysOf_of_perm hperm.symm hnd

theorem entrySum_q3chunk {K T : Type} [DecidableEq K] (extract : T → List K)
    (chunk : List (Option T)) (k : K) :
    entrySum (q3ProcessChunkParallel extract chunk) k
      = (chunkMentions extract chunk).count k := by
  rw [q3ProcessChunkParallel_eq]
  have hperm : List.Perm (sortDesc (counterOf (chunkMentions extract chunk)))
      (counterOf (chunkMentions extract chunk)) := sortDesc_perm _
  rw [entrySum_perm hperm]
  rw [entrySum_eq_cnt_of_nodup (nodup_keysOf_counterOf _), cnt_counterOf]

theorem count_flatten_c2 {K : Type} [DecidableEq K] (k : K) :
    ∀ (ls : List (List K)),
      ls.flatten.count k = (ls.map (fun l => l.count k)).sum
  | [] => rfl
  | l :: rest => by
    rw [List.flatten_cons, List.count_append, count_flatten_c2 k rest,
      List.map_cons, List.sum_cons]

theorem mem_keysOf_flatten {K : Type} [DecidableEq K]
    {cs : List (List (K × Nat))} {k : K} :
    k ∈ keysOf cs.flatten ↔ ∃ c ∈ cs, k ∈ keysOf c := by
  induction cs with
  | nil => simp [keysOf_nil]
  | cons c rest ih =>
    rw [List.flatten_cons, keysOf_append, List.mem_append, ih]
    constructor
    · rintro (h | ⟨c', hc', hk⟩)
      · exact ⟨c, List.mem_cons_self _ _, h⟩
      · exact ⟨c', List.mem_cons_of_mem _ hc', hk⟩
    · rintro ⟨c', hc', hk⟩
      rcases List.mem_cons.mp hc' with rfl | h
      · exact Or.inl hk
      · exact Or.inr ⟨c', h, hk⟩

theorem mem_keysOf_q3chunk {K T : Type} [DecidableEq K] {extract : T → List K}
    {ch : List (Option T)} {k : K} :
    k ∈ keysOf (q3ProcessChunkParallel extract ch) ↔ k ∈ chunkMentions extract ch := by
  rw [q3ProcessChunkParallel_eq]
  have hperm : List.Perm (sortDesc (counterOf (chunkMentions extract ch)))
      (counterOf (chunkMentions extract ch)) := sortDesc_perm _
  rw [show (k ∈ keysOf (sortDesc (counterOf (chunkMentions extract ch))))
      ↔ k ∈ keysOf (counterOf (chunkMentions extract ch)) from
    (hperm.map Prod.fst).mem_iff]
  exact mem_keysOf_counterOf

/-- q3, no cleanup, same contents in both strategies, tie-free totals:
streaming and batch return the same list. -/
theorem q3_no_cleanup_equiv {K T : Type} [LinearOrder K] (extract : T → List K)
    (texts : List T) (chunks : List (List (Option T)))
    (hflat : chunks.flatten = texts.map some)
    (hb : (keysOf (counterOf (texts.map extract).flatten)).length
        ≤ (MentionTracker.init K).max_mentions)
    (hdist : ((counterOf (texts.map extract).flatten).map Prod.snd).Nodup) :
    q3MemoryRun extract texts = q3TimeRun extract chunks := by
  have hmentions : chunkMentions extract chunks.flatten = (texts.map extract).flatten := by
    rw [hflat, chunkMentions_map_some]
  have hcnt : ∀ k,
      cnt (groupSumByKey (chunks.map (q3ProcessChunkParallel extract)).flatten) k
        = cnt (counterOf (texts.map extract).flatten) k := by
    intro k
    rw [cnt_groupSumByKey, entrySum_flatten, cnt_counterOf, List.map_map]
    have hfn : ((fun c => entrySum c k) ∘ q3ProcessChunkParallel extract)
        = fun ch => (chunkMentions extract ch).count k := by
      funext ch
      exact entrySum_q3chunk extract ch k
    rw [hfn, ← hmentions, chunkMentions_flatten, count_flatten_c2, List.map_map]
    rfl
  have hmem : ∀ k,
      k ∈ keysOf (groupSumByKey (chunks.map (q3ProcessChunkParallel extract)).flatten)
        ↔ k ∈ keysOf (counterOf (texts.map extract).flatten) := by
    intro k
    rw [mem_keysOf_groupSumByKey, mem_keysOf_counterOf]
    have h1 : (k ∈ ((chunks.map (q3ProcessChunkParallel extract)).flatten).map Prod.fst)
        ↔ ∃ c ∈ chunks.map (q3ProcessChunkParallel extract), k ∈ keysOf c :=
      mem_keysOf_flatten
    rw [h1]
    constructor
    · rintro ⟨c, hc, hk⟩
      rcases List.mem_map.mp hc with ⟨ch, hch, rfl⟩
      have hk' := mem_keysOf_q3chunk.mp hk
      have hflatmem : k ∈ chunkMentions extract chunks.flatten := by
        rw [chunkMentions_flatten]
        exact List.mem_flatten.mpr
          ⟨chunkMentions extract ch, List.mem_map_of_mem _ hch, hk'⟩
      rwa [hmentions] at hflatmem
    · intro hk
      rw [← hmentions, chunkMentions_flatten] at hk
      rcases List.mem_flatten.mp hk with ⟨l, hl, hkl⟩
      rcases List.mem_map.mp hl with ⟨ch, hch, rfl⟩
      exact ⟨q3ProcessChunkParallel extract ch, List.mem_map_of_mem _ hch,
        mem_keysOf_q3chunk.mpr hkl⟩
  have hndg : (keysOf
      (groupSumByKey (chunks.map (q3ProcessChunkParallel extract)).flatten)).Nodup :=
    nodup_keysOf_groupSumByKey _
  have hndc : (keysOf (counterOf (texts.map extract).flatten)).Nodup :=
    nodup_keysOf_counterOf _
  have hperm : List.Perm (counterOf (texts.map extract).flatten)
      (groupSumByKey (chunks.map (q3ProcessChunkParallel extract)).flatten) :=
    counter_perm_of_cnt_eq hndc hndg (fun k => (hmem k).symm) (fun k => (hcnt k).symm)
  rw [q3MemoryRun_no_cleanup extract texts hb, q3TimeRun, q3TimeFromChunkCounters]
  by_cases hnil : (texts.map extract).flatten = []
  · rw [hnil]
    rw [List.length_nil, if_pos rfl]
    have hgs : groupSumByKey (chunks.map (q3ProcessChunkParallel extract)).flatten = [] := by
      have h0 := hperm
      rw [hnil] at h0
      exact List.Perm.eq_nil h0.symm
    rw [hgs]
    rfl
  · have hlen : ¬ (texts.map extract).flatten.length = 0 :=
      fun h => hnil (List.length_eq_zero.mp h)
    rw [if_neg hlen, mostCommon, mostCommon,
      sortDesc_eq_of_perm_of_distinct hperm hdist]

/-! ### q1: grouped inputs

`q1_memory` assumes the archive is grouped by date (spec §7): the record
stream is a concatenation of per-date runs.  `flattenGroups` produces such a
stream from an explicit group list. -/

def flattenGroups {D U : Type} : List (D × List U) → List (D × U)
  | [] => []
  | g :: rest => g.2.map (fun u => (g.1, u)) ++ flattenGroups rest

/-- The `top_users` entries recorded for a list of closed groups, in order:
each group's most-common user (when its user counter is non-empty). -/
def topUsersOf {D U : Type} [DecidableEq U] (gs : List (D × List U)) : List (D × U) :=
  gs.filterMap
    (fun g => ((mostCommon 1 (counterOf g.2)).head?).map (fun p => (g.1, p.1)))

theorem bump_not_mem {K : Type} [DecidableEq K] {c : CounterL K} {k : K}
    (h : k ∉ keysOf c) (m : Nat) : bump k m c = c ++ [(k, m)] := by
  induction c with
  | nil => rfl
  | cons p rest ih =>
    obtain ⟨k', n'⟩ := p
    rw [keysOf_cons, List.mem_cons, not_or] at h
    have h1 : ¬ k' = k := fun he => h.1 he.symm
    simp only [bump]
    rw [if_neg h1, ih h.2, List.cons_append]

theorem bump_last {K : Type} [DecidableEq K] {A : CounterL K} {k : K}
    (h : k ∉ keysOf A) (m c : Nat) :
    bump k m (A ++ [(k, c)]) = A ++ [(k, c + m)] := by
  induction A with
  | nil =>
    rw [List.nil_append, List.nil_append]
    simp [bump]
  | cons p rest ih =>
    obtain ⟨k', n'⟩ := p
    rw [keysOf_cons, List.mem_cons, not_or] at h
    have h1 : ¬ k' = k := fun he => h.1 he.symm
    simp only [List.cons_append, bump]
    rw [if_neg h1]
    show (k', n') :: bump k m (rest ++ [(k, c)]) = (k', n') :: (rest ++ [(k, c + m)])
    rw [ih h.2]

theorem dictInsert_not_mem {K V : Type} [DecidableEq K] {l : List (K × V)} {k : K}
    (h : k ∉ l.map Prod.fst) (v : V) : dictInsert k v l = l ++ [(k, v)] := by
  induction l with
  | nil => rfl
  | cons p rest ih =>
    obtain ⟨k', v'⟩ := p
    rw [List.map_cons, List.mem_cons, not_or] at h
    have h1 : ¬ k' = k := fun he => h.1 he.symm
    simp only [dictInsert]
    rw [if_neg h1, ih h.2, List.cons_append]

theorem dictGet_of_mem {K V : Type} [DecidableEq K] {l : List (K × V)} {k : K} {v : V}
    (hnd : (l.map Prod.fst).Nodup) (hm : (k, v) ∈ l) : dictGet l k = some v := by
  induction l with
  | nil => cases hm
  | cons p rest ih =>
    obtain ⟨k', v'⟩ := p
    rw [List.map_cons, List.nodup_cons] at hnd
    rcases List.mem_cons.mp hm with he | hr
    · rw [Prod.mk.injEq] at he
      obtain ⟨rfl, rfl⟩ := he
      rw [dictGet, if_pos rfl]
    · have hk : ¬ k' = k := by
        rintro rfl
        have hmm : k' ∈ rest.map Prod.fst := by
          have hh := List.mem_map_of_mem Prod.fst hr
          simpa using hh
        exact hnd.1 hmm
      rw [dictGet, if_neg hk]
      exact ih hnd.2 hr

theorem counterOf_ne_nil {K : Type} [DecidableEq K] {ks : List K} (h : ks ≠ []) :
    counterOf ks ≠ [] := by
  obtain ⟨k, hk⟩ := List.exists_mem_of_ne_nil ks h
  intro hnil
  have hmem : k ∈ keysOf (counterOf ks) := mem_keysOf_counterOf.mpr hk
  rw [hnil] at hmem
  simp [keysOf_nil] at hmem

theorem mostCommon_one_singleton {K : Type} {c : CounterL K} (h : c ≠ []) :
    ∃ p : K × Nat, mostCommon 1 c = [p] := by
  have hl : (mostCommon 1 c).length = 1 := by
    rw [mostCommon_length]
    have hpos : 0 < c.length := List.length_pos.mpr h
    omega
  exact List.length_eq_one.mp hl

theorem getLastD_cons_c2 {α : Type} :
    ∀ (l : List α) (g g' : α), ((g' :: l).getLast?).getD g = (l.getLast?).getD g'
  | [], _, _ => rfl
  | x :: xs, g, g' => by
    rw [List.getLast?_cons_cons, getLastD_cons_c2 xs g x, getLastD_cons_c2 xs g' x]

/-- Within an open group (its date last in `date_counts`), each further
record of the same date just bumps the two counters; no close and no prune
happens. -/
theorem dtRunUsers {D U : Type} [DecidableEq D] [DecidableEq U] :
    ∀ (us : List U) (A : CounterL D) (d : D) (c : Nat) (cuc : CounterL U)
      (tu : List (D × U)),
      d ∉ keysOf A →
      A.length + 1 ≤ 40 →
      (us.map (fun u => (d, u))).foldl
          (fun (t : DateTracker D U) r => t.addTweet r.1 r.2)
          (⟨A ++ [(d, c)], cuc, tu, some d, 20⟩ : DateTracker D U) =
        (⟨A ++ [(d, c + us.length)], updList cuc us, tu, some d, 20⟩ : DateTracker D U)
  | [], A, d, c, cuc, tu => by
    intro _ _
    rfl
  | u :: us', A, d, c, cuc, tu => by
    intro hmem hlen
    have hstep : ((⟨A ++ [(d, c)], cuc, tu, some d, 20⟩ : DateTracker D U).addTweet d u)
        = ⟨A ++ [(d, c + 1)], bump u 1 cuc, tu, some d, 20⟩ := by
      have hnp : ¬ (20 * 2 < (A ++ [(d, c + 1)]).length) := by
        rw [List.length_append]
        simp only [List.length_cons, List.length_nil]
        omega
      simp only [DateTracker.addTweet, DateTracker.countDate, DateTracker.switchDate,
        DateTracker.countUser, DateTracker.maybePrune, DateTracker.pruneThreshold,
        bump_last hmem]
      simp [hnp]
      intro hcontra
      exact absurd hcontra (by omega)
    rw [List.map_cons, List.foldl_cons, hstep,
      dtRunUsers us' A d (c + 1) (bump u 1 cuc) tu hmem hlen]
    have harith : c + (u :: us').length = c + 1 + us'.length := by
      simp only [List.length_cons]
      omega
    rw [harith]
    rfl

/-- The first record of a new date closes the open group (recording its top
user, since fewer than 20 dates are tracked the `_get_min_count` guard is 0)
and opens the new date. -/
theorem dtOpenStep {D U : Type} [DecidableEq D] [DecidableEq U]
    (A : CounterL D) (d : D) (n : Nat) (us : List U) (tu : List (D × U))
    (d' : D) (u' : U) (w : U × Nat)
    (hw : mostCommon 1 (counterOf us) = [w])
    (hne : ¬ d = d')
    (hd' : d' ∉ keysOf (A ++ [(d, n)]))
    (htu : d ∉ tu.map Prod.fst)
    (hlen : A.length + 2 ≤ 19) :
    ((⟨A ++ [(d, n)], counterOf us, tu, some d, 20⟩ : DateTracker D U).addTweet d' u')
      = ⟨(A ++ [(d, n)]) ++ [(d', 1)], [(u', 1)], tu ++ [(d, w.1)], some d', 20⟩ := by
  obtain ⟨w1, w2⟩ := w
  have t1close : (⟨(A ++ [(d, n)]) ++ [(d', 1)], counterOf us, tu, some d, 20⟩ :
      DateTracker D U).closeGroup
      = ⟨(A ++ [(d, n)]) ++ [(d', 1)], counterOf us, tu ++ [(d, w1)], some d, 20⟩ := by
    have hd : (⟨(A ++ [(d, n)]) ++ [(d', 1)], counterOf us, tu, some d, 20⟩ :
        DateTracker D U).current_date = some d := rfl
    have hmc : mostCommon 1 (⟨(A ++ [(d, n)]) ++ [(d', 1)], counterOf us, tu, some d, 20⟩ :
        DateTracker D U).current_user_counts = (w1, w2) :: [] := hw
    rw [closeGroup_of_cons hd hmc]
    have hguard : (⟨(A ++ [(d, n)]) ++ [(d', 1)], counterOf us, tu, some d, 20⟩ :
        DateTracker D U).getMinCount = 0 := by
      have hl : (⟨(A ++ [(d, n)]) ++ [(d', 1)], counterOf us, tu, some d, 20⟩ :
          DateTracker D U).date_counts.length
          < (⟨(A ++ [(d, n)]) ++ [(d', 1)], counterOf us, tu, some d, 20⟩ :
          DateTracker D U).max_dates := by
        show ((A ++ [(d, n)]) ++ [(d', 1)]).length < 20
        rw [List.length_append, List.length_append]
        simp only [List.length_cons, List.length_nil]
        omega
      rw [DateTracker.getMinCount, if_pos hl]
    rw [hguard, if_pos (Nat.zero_le _)]
    show (⟨(A ++ [(d, n)]) ++ [(d', 1)], counterOf us, dictInsert d w1 tu, some d, 20⟩ :
        DateTracker D U) = _
    rw [dictInsert_not_mem htu]
  have h1 : (⟨A ++ [(d, n)], counterOf us, tu, some d, 20⟩ :
      DateTracker D U).countDate d'
      = ⟨(A ++ [(d, n)]) ++ [(d', 1)], counterOf us, tu, some d, 20⟩ := by
    show (⟨bump d' 1 (A ++ [(d, n)]), counterOf us, tu, some d, 20⟩ :
        DateTracker D U) = _
    rw [bump_not_mem hd' 1]
  have h2 : (⟨(A ++ [(d, n)]) ++ [(d', 1)], counterOf us, tu, some d, 20⟩ :
      DateTracker D U).switchDate d'
      = ⟨(A ++ [(d, n)]) ++ [(d', 1)], [], tu ++ [(d, w1)], some d', 20⟩ := by
    have hcd : ¬ ((⟨(A ++ [(d, n)]) ++ [(d', 1)], counterOf us, tu, some d, 20⟩ :
        DateTracker D U).current_date = some d') := by
      show ¬ (some d = some d')
      exact fun hh => hne (Option.some.inj hh)
    rw [DateTracker.switchDate, if_neg hcd, t1close]
  have h4 : (⟨(A ++ [(d, n)]) ++ [(d', 1)], [(u', 1)], tu ++ [(d, w1)], some d', 20⟩ :
      DateTracker D U).maybePrune
      = ⟨(A ++ [(d, n)]) ++ [(d', 1)], [(u', 1)], tu ++ [(d, w1)], some d', 20⟩ := by
    have hnp : ¬ ((⟨(A ++ [(d, n)]) ++ [(d', 1)], [(u', 1)], tu ++ [(d, w1)],
        some d', 20⟩ : DateTracker D U).pruneThreshold
          < (⟨(A ++ [(d, n)]) ++ [(d', 1)], [(u', 1)], tu ++ [(d, w1)],
        some d', 20⟩ : DateTracker D U).date_counts.length) := by
      show ¬ (20 * 2 < ((A ++ [(d, n)]) ++ [(d', 1)]).length)
      rw [List.length_append, List.length_append]
      simp only [List.length_cons, List.length_nil]
      omega
    rw [DateTracker.maybePrune, if_neg hnp]
  rw [DateTracker.addTweet, h1, h2]
  rw [show ((⟨(A ++ [(d, n)]) ++ [(d', 1)], [], tu ++ [(d, w1)], some d', 20⟩ :
      DateTracker D U).countUser u')
      = ⟨(A ++ [(d, n)]) ++ [(d', 1)], [(u', 1)], tu ++ [(d, w1)], some d', 20⟩ from rfl]
  rw [h4]

/-- `(l.getLast?).getD g` is a member of `g :: l`. -/
theorem getLastD_mem {α : Type} : ∀ (l : List α) (g : α), ((l.getLast?).getD g) ∈ g :: l
  | [], g => List.mem_cons_self _ _
  | x :: xs, g => by
    rw [getLastD_cons_c2 xs g x]
    exact List.mem_cons_of_mem _ (getLastD_mem xs x)

theorem dropLast_append_getLastD {α : Type} :
    ∀ (l : List α) (g : α), (g :: l).dropLast ++ [(l.getLast?).getD g] = g :: l
  | [], _ => rfl
  | x :: xs, g => by
    rw [List.dropLast_cons₂, getLastD_cons_c2 xs g x, List.cons_append,
      dropLast_append_getLastD xs x]

theorem topUsersOf_keys_sub {D U : Type} [DecidableEq U] {gs : List (D × List U)}
    {x : D} (hx : x ∈ (topUsersOf gs).map Prod.fst) : x ∈ gs.map Prod.fst := by
  rcases List.mem_map.mp hx with ⟨p, hp, rfl⟩
  rcases List.mem_filterMap.mp hp with ⟨gq, hgq, hfq⟩
  rcases Option.map_eq_some'.mp hfq with ⟨q, _, hq2⟩
  rw [← hq2]
  exact List.mem_map_of_mem _ hgq

/-- Processing a list of complete groups from a group-boundary state: one
`date_counts` entry and one `top_users` entry per closed group, the last
group left open. -/
theorem dtRunGroups {D U : Type} [DecidableEq D] [DecidableEq U] :
    ∀ (todo : List (D × List U)) (A : CounterL D) (g : D × List U) (tu : List (D × U)),
      ((g :: todo).map Prod.fst).Nodup →
      (∀ p ∈ g :: todo, p.2 ≠ []) →
      (∀ p ∈ g :: todo, p.1 ∉ keysOf A) →
      (∀ p ∈ g :: todo, p.1 ∉ tu.map Prod.fst) →
      A.length + 1 + todo.length ≤ 19 →
      (flattenGroups todo).foldl (fun (t : DateTracker D U) r => t.addTweet r.1 r.2)
          (⟨A ++ [(g.1, g.2.length)], counterOf g.2, tu, some g.1, 20⟩ : DateTracker D U)
        = (⟨A ++ [(g.1, g.2.length)] ++ todo.map (fun p => (p.1, p.2.length)),
            counterOf (((todo.getLast?).getD g).2),
            tu ++ topUsersOf ((g :: todo).dropLast),
            some (((todo.getLast?).getD g).1), 20⟩ : DateTracker D U)
  | [], A, g, tu => by
    intro _ _ _ _ _
    show (⟨A ++ [(g.1, g.2.length)], counterOf g.2, tu, some g.1, 20⟩ :
        DateTracker D U) = _
    rw [List.map_nil, List.append_nil]
    rw [show ((g :: ([] : List (D × List U))).dropLast) = [] from rfl]
    rw [show topUsersOf ([] : List (D × List U)) = [] from rfl, List.append_nil]
    rfl
  | g' :: todo', A, g, tu => by
    intro h1 h2 h3 h4 hlen
    obtain ⟨d', us'⟩ := g'
    have hne' : us' ≠ [] :=
      h2 (d', us') (List.mem_cons_of_mem _ (List.mem_cons_self _ _))
    obtain ⟨u₁, urest, rfl⟩ : ∃ a l, us' = a :: l := by
      cases us' with
      | nil => exact absurd rfl hne'
      | cons a l => exact ⟨a, l, rfl⟩
    have hgne : g.2 ≠ [] := h2 g (List.mem_cons_self _ _)
    obtain ⟨w, hw⟩ := mostCommon_one_singleton (counterOf_ne_nil hgne)
    have hnd1 := h1
    rw [List.map_cons, List.nodup_cons] at hnd1
    have hdne : ¬ g.1 = d' := by
      intro he
      apply hnd1.1
      rw [List.map_cons, he]
      exact List.mem_cons_self _ _
    have hd'notin : d' ∉ keysOf (A ++ [(g.1, g.2.length)]) := by
      rw [keysOf_append, List.mem_append]
      rintro (hA | hg)
      · exact h3 (d', u₁ :: urest)
          (List.mem_cons_of_mem _ (List.mem_cons_self _ _)) hA
      · have hdg : d' = g.1 := by simpa [keysOf] using hg
        exact hdne hdg.symm
    have htud : g.1 ∉ tu.map Prod.fst := h4 g (List.mem_cons_self _ _)
    have hlenA : A.length + 2 ≤ 19 := by
      simp only [List.length_cons] at hlen
      omega
    have hopen := dtOpenStep A g.1 g.2.length g.2 tu d' u₁ w hw hdne hd'notin htud hlenA
    show (((u₁ :: urest).map (fun u => (d', u)) ++ flattenGroups todo').foldl
        (fun (t : DateTracker D U) r => t.addTweet r.1 r.2)
        (⟨A ++ [(g.1, g.2.length)], counterOf g.2, tu, some g.1, 20⟩ : DateTracker D U)) = _
    rw [List.foldl_append]
    simp only [List.map_cons, List.foldl_cons]
    rw [hopen]
    have hlenAppend : (A ++ [(g.1, g.2.length)]).length + 1 ≤ 40 := by
      rw [List.length_append]
      simp only [List.length_cons, List.length_nil]
      omega
    rw [dtRunUsers urest (A ++ [(g.1, g.2.length)]) d' 1 [(u₁, 1)] (tu ++ [(g.1, w.1)])
      hd'notin hlenAppend]
    rw [show (1 : Nat) + urest.length = (u₁ :: urest).length from by
      rw [List.length_cons]; omega]
    rw [show (updList [(u₁, 1)] urest : CounterL U) = counterOf (u₁ :: urest) from rfl]
    have ih2 : ∀ p ∈ (d', u₁ :: urest) :: todo', p.2 ≠ [] :=
      fun p hp => h2 p (List.mem_cons_of_mem _ hp)
    have ih3 : ∀ p ∈ (d', u₁ :: urest) :: todo',
        p.1 ∉ keysOf (A ++ [(g.1, g.2.length)]) := by
      intro p hp
      rw [keysOf_append, List.mem_append]
      rintro (hA | hg)
      · exact h3 p (List.mem_cons_of_mem _ hp) hA
      · have hpg : p.1 = g.1 := by simpa [keysOf] using hg
        apply hnd1.1
        rw [← hpg]
        exact List.mem_map_of_mem _ hp
    have ih4 : ∀ p ∈ (d', u₁ :: urest) :: todo',
        p.1 ∉ (tu ++ [(g.1, w.1)]).map Prod.fst := by
      intro p hp
      rw [List.map_append, List.mem_append]
      rintro (ht | hg)
      · exact h4 p (List.mem_cons_of_mem _ hp) ht
      · have hpg : p.1 = g.1 := by simpa using hg
        apply hnd1.1
        rw [← hpg]
        exact List.mem_map_of_mem _ hp
    have ihlen : (A ++ [(g.1, g.2.length)]).length + 1 + todo'.length ≤ 19 := by
      rw [List.length_append]
      simp only [List.length_cons, List.length_nil] at hlen ⊢
      omega
    rw [dtRunGroups todo' (A ++ [(g.1, g.2.length)]) (d', u₁ :: urest)
      (tu ++ [(g.1, w.1)]) hnd1.2 ih2 ih3 ih4 ihlen]
    have htop : topUsersOf (g :: (((d', u₁ :: urest) :: todo').dropLast))
        = (g.1, w.1) :: topUsersOf (((d', u₁ :: urest) :: todo').dropLast) := by
      simp [topUsersOf, List.filterMap_cons, hw]
    rw [getLastD_cons_c2 todo' g (d', u₁ :: urest), List.dropLast_cons₂, htop]
    congr 1
    · exact (List.append_cons (A ++ [(g.1, g.2.length)]) _ _).symm
    · exact (List.append_cons tu _ _).symm

/-- The full `add_tweet` fold over a grouped record stream (fewer than 20
distinct dates, non-empty groups): one `date_counts` entry per group, one
`top_users` entry per closed group, the last group still open. -/
theorem q1MemoryTracker_grouped {D U : Type} [DecidableEq D] [DecidableEq U]
    (g : D × List U) (rest : List (D × List U))
    (h1 : ((g :: rest).map Prod.fst).Nodup)
    (h2 : ∀ p ∈ g :: rest, p.2 ≠ [])
    (hlen : (g :: rest).length ≤ 19) :
    q1MemoryTracker (flattenGroups (g :: rest)) =
      (⟨(g :: rest).map (fun p => (p.1, p.2.length)),
        counterOf (((rest.getLast?).getD g).2),
        topUsersOf ((g :: rest).dropLast),
        some (((rest.getLast?).getD g).1), 20⟩ : DateTracker D U) := by
  obtain ⟨d, us⟩ := g
  have hne : us ≠ [] := h2 (d, us) (List.mem_cons_self _ _)
  obtain ⟨u₁, urest, rfl⟩ : ∃ a l, us = a :: l := by
    cases us with
    | nil => exact absurd rfl hne
    | cons a l => exact ⟨a, l, rfl⟩
  have hinit : ((DateTracker.init D U).addTweet d u₁)
      = (⟨([] : CounterL D) ++ [(d, 1)], [(u₁, 1)], [], some d, 20⟩ :
        DateTracker D U) := by
    simp [DateTracker.addTweet, DateTracker.countDate, DateTracker.switchDate,
      DateTracker.countUser, DateTracker.maybePrune, DateTracker.init,
      DateTracker.closeGroup, DateTracker.pruneThreshold, bump]
  rw [show flattenGroups ((d, u₁ :: urest) :: rest)
      = ((u₁ :: urest).map (fun u => (d, u))) ++ flattenGroups rest from rfl]
  rw [q1MemoryTracker, List.foldl_append]
  simp only [List.map_cons, List.foldl_cons]
  rw [hinit]
  rw [dtRunUsers urest [] d 1 [(u₁, 1)] [] (by simp [keysOf_nil]) (by simp)]
  rw [show (1 : Nat) + urest.length = (u₁ :: urest).length from by
    rw [List.length_cons]; omega]
  rw [show (updList [(u₁, 1)] urest : CounterL U) = counterOf (u₁ :: urest) from rfl]
  have h3' : ∀ p ∈ (d, u₁ :: urest) :: rest, p.1 ∉ keysOf ([] : CounterL D) := by
    intro p _
    simp [keysOf_nil]
  have h4' : ∀ p ∈ (d, u₁ :: urest) :: rest,
      p.1 ∉ ([] : List (D × U)).map Prod.fst := by
    intro p _
    simp
  have hlen' : ([] : CounterL D).length + 1 + rest.length ≤ 19 := by
    simp only [List.length_cons] at hlen
    simp only [List.length_nil]
    omega
  rw [dtRunGroups rest [] (d, u₁ :: urest) [] h1 h2 h3' h4' hlen']
  rfl

/-- After `get_top_results` closes the final group, `top_users` holds one
entry per group. -/
theorem q1MemoryFinal_grouped {D U : Type} [DecidableEq D] [DecidableEq U]
    (g : D × List U) (rest : List (D × List U))
    (h1 : ((g :: rest).map Prod.fst).Nodup)
    (h2 : ∀ p ∈ g :: rest, p.2 ≠ [])
    (hlen : (g :: rest).length ≤ 19) :
    q1MemoryFinal (flattenGroups (g :: rest)) =
      (⟨(g :: rest).map (fun p => (p.1, p.2.length)),
        counterOf (((rest.getLast?).getD g).2),
        topUsersOf (g :: rest),
        some (((rest.getLast?).getD g).1), 20⟩ : DateTracker D U) := by
  rw [q1MemoryFinal, q1MemoryTracker_grouped g rest h1 h2 hlen]
  have hglmem : ((rest.getLast?).getD g) ∈ g :: rest := getLastD_mem rest g
  have hglne : ((rest.getLast?).getD g).2 ≠ [] := h2 _ hglmem
  obtain ⟨wl, hwl⟩ := mostCommon_one_singleton (counterOf_ne_nil hglne)
  obtain ⟨w1, w2⟩ := wl
  have hd : (⟨(g :: rest).map (fun p => (p.1, p.2.length)),
      counterOf (((rest.getLast?).getD g).2), topUsersOf ((g :: rest).dropLast),
      some (((rest.getLast?).getD g).1), 20⟩ : DateTracker D U).current_date
      = some (((rest.getLast?).getD g).1) := rfl
  have hmc : mostCommon 1 (⟨(g :: rest).map (fun p => (p.1, p.2.length)),
      counterOf (((rest.getLast?).getD g).2), topUsersOf ((g :: rest).dropLast),
      some (((rest.getLast?).getD g).1), 20⟩ :
      DateTracker D U).current_user_counts = (w1, w2) :: [] := hwl
  rw [closeGroup_of_cons hd hmc]
  have hguard : (⟨(g :: rest).map (fun p => (p.1, p.2.length)),
      counterOf (((rest.getLast?).getD g).2), topUsersOf ((g :: rest).dropLast),
      some (((rest.getLast?).getD g).1), 20⟩ : DateTracker D U).getMinCount = 0 := by
    have hl : (⟨(g :: rest).map (fun p => (p.1, p.2.length)),
        counterOf (((rest.getLast?).getD g).2), topUsersOf ((g :: rest).dropLast),
        some (((rest.getLast?).getD g).1), 20⟩ :
        DateTracker D U).date_counts.length
        < (⟨(g :: rest).map (fun p => (p.1, p.2.length)),
        counterOf (((rest.getLast?).getD g).2), topUsersOf ((g :: rest).dropLast),
        some (((rest.getLast?).getD g).1), 20⟩ : DateTracker D U).max_dates := by
      show ((g :: rest).map (fun p => (p.1, p.2.length))).length < 20
      rw [List.length_map]
      omega
    rw [DateTracker.getMinCount, if_pos hl]
  rw [hguard, if_pos (Nat.zero_le _)]
  have hnotin : ((rest.getLast?).getD g).1
      ∉ (topUsersOf ((g :: rest).dropLast)).map Prod.fst := by
    intro hx
    have hdl : ((rest.getLast?).getD g).1 ∈ ((g :: rest).dropLast).map Prod.fst :=
      topUsersOf_keys_sub hx
    have hsplit : (g :: rest).dropLast ++ [(rest.getLast?).getD g] = g :: rest :=
      dropLast_append_getLastD rest g
    have hnd : (((g :: rest).dropLast).map Prod.fst
        ++ [((rest.getLast?).getD g).1]).Nodup := by
      have hmap : (((g :: rest).dropLast).map Prod.fst
          ++ [((rest.getLast?).getD g).1])
          = ((g :: rest).dropLast ++ [(rest.getLast?).getD g]).map Prod.fst := by
        rw [List.map_append]
        rfl
      rw [hmap, hsplit]
      exact h1
    rcases List.nodup_append.mp hnd with ⟨_, _, hdisj⟩
    exact hdisj hdl (List.mem_singleton.mpr rfl)
  show (⟨(g :: rest).map (fun p => (p.1, p.2.length)),
      counterOf (((rest.getLast?).getD g).2),
      dictInsert (((rest.getLast?).getD g).1) w1 (topUsersOf ((g :: rest).dropLast)),
      some (((rest.getLast?).getD g).1), 20⟩ : DateTracker D U) = _
  rw [dictInsert_not_mem hnotin]
  have htu : topUsersOf ((g :: rest).dropLast) ++ [(((rest.getLast?).getD g).1, w1)]
      = topUsersOf (g :: rest) := by
    conv_rhs => rw [← dropLast_append_getLastD rest g]
    conv_lhs => rw [topUsersOf]
    conv_rhs => rw [topUsersOf, List.filterMap_append]
    congr 1
    simp [hwl]
  rw [htu]

theorem entrySum_cons {K : Type} [DecidableEq K] (x : K) (n : Nat)
    (l : List (K × Nat)) (b : K) :
    entrySum ((x, n) :: l) b = (if x = b then n else 0) + entrySum l b := rfl

/-- `entrySum` of a counter projected along a key map, through one `bump`. -/
theorem entrySum_proj_bump {A B : Type} [DecidableEq A] [DecidableEq B]
    (π : A → B) (k : A) (m : Nat) (b : B) :
    ∀ (c : CounterL A),
      entrySum ((bump k m c).map (fun p => (π p.1, p.2))) b
        = entrySum (c.map (fun p => (π p.1, p.2))) b + (if π k = b then m else 0)
  | [] => by
    show entrySum [(π k, m)] b = entrySum ([] : List (B × Nat)) b + _
    rw [entrySum_cons]
    show (if π k = b then m else 0) + 0 = 0 + (if π k = b then m else 0)
    omega
  | (k₀, n₀) :: rest => by
    by_cases h : k₀ = k
    · subst h
      have hb : bump k₀ m ((k₀, n₀) :: rest) = (k₀, n₀ + m) :: rest := by
        simp [bump]
      rw [hb]
      simp only [List.map_cons]
      rw [entrySum_cons, entrySum_cons]
      by_cases hbb : π k₀ = b
      · rw [if_pos hbb, if_pos hbb, if_pos hbb]
        omega
      · rw [if_neg hbb, if_neg hbb, if_neg hbb]
        omega
    · simp only [bump, if_neg h, List.map_cons]
      rw [entrySum_cons, entrySum_cons, entrySum_proj_bump π k m b rest]
      omega

theorem entrySum_proj_updList {A B : Type} [DecidableEq A] [DecidableEq B]
    (π : A → B) (b : B) :
    ∀ (rs : List A) (c : CounterL A),
      entrySum ((updList c rs).map (fun p => (π p.1, p.2))) b
        = entrySum (c.map (fun p => (π p.1, p.2))) b + (rs.map π).count b
  | [], c => by simp [updList]
  | r :: rs', c => by
    have hstep : updList c (r :: rs') = updList (bump r 1 c) rs' := rfl
    rw [hstep, entrySum_proj_updList π b rs' (bump r 1 c), entrySum_proj_bump,
      List.map_cons, List.count_cons]
    by_cases h : π r = b
    · have hbeq : (π r == b) = true := beq_iff_eq.mpr h
      rw [if_pos h, hbeq, if_pos rfl]
      omega
    · have hbeq : (π r == b) = false := by simp [h]
      rw [if_neg h, hbeq, if_neg (by decide : ¬ false = true)]
      omega

/-- `q1_time`'s per-date totals count the date column. -/
theorem cnt_q1TimeDateCounts {D U : Type} [LinearOrder D] [LinearOrder U]
    (records : List (D × U)) (d : D) :
    cnt (q1TimeDateCounts records) d = (records.map Prod.fst).count d := by
  rw [q1TimeDateCounts, cnt_groupSumByKey]
  have hperm : List.Perm (q1TimeGrouped records) (counterOf records) :=
    List.perm_insertionSort _ _
  rw [entrySum_perm (hperm.map (fun p => (p.1.1, p.2)))]
  have h0 := entrySum_proj_updList (Prod.fst : D × U → D) d records []
  rw [show (counterOf records : CounterL (D × U)) = updList [] records from rfl, h0]
  rw [show entrySum ((([] : CounterL (D × U))).map
      (fun p => (Prod.fst p.1, p.2))) d = 0 from rfl]
  rw [Nat.zero_add]

theorem mem_keys_q1TimeDateCounts {D U : Type} [LinearOrder D] [LinearOrder U]
    {records : List (D × U)} {d : D} :
    d ∈ keysOf (q1TimeDateCounts records) ↔ d ∈ records.map Prod.fst := by
  rw [q1TimeDateCounts, mem_keysOf_groupSumByKey, List.map_map]
  constructor
  · intro hx
    rcases List.mem_map.mp hx with ⟨p, hp, rfl⟩
    have hp' : p ∈ counterOf records := (List.perm_insertionSort _ _).subset hp
    have hk : p.1 ∈ keysOf (counterOf records) := List.mem_map_of_mem Prod.fst hp'
    have hrec : p.1 ∈ records := mem_keysOf_counterOf.mp hk
    exact List.mem_map_of_mem Prod.fst hrec
  · intro hx
    rcases List.mem_map.mp hx with ⟨r, hr, rfl⟩
    have hkey : r ∈ keysOf (counterOf records) := mem_keysOf_counterOf.mpr hr
    rcases mem_keysOf.mp hkey with ⟨n, hn⟩
    have hng : (r, n) ∈ q1TimeGrouped records :=
      (List.perm_insertionSort _ _).symm.subset hn
    exact List.mem_map.mpr ⟨(r, n), hng, rfl⟩

theorem count_map_const {α β : Type} [DecidableEq β] (l : List α) (x b : β) :
    ((l.map (fun _ => x)).count b) = if x = b then l.length else 0 := by
  induction l with
  | nil => simp
  | cons a l ih =>
    rw [List.map_cons, List.count_cons, ih, List.length_cons]
    by_cases h : x = b
    · simp [h]
    · simp [h]

theorem count_fst_flattenGroups_zero {D U : Type} [DecidableEq D] :
    ∀ (gs : List (D × List U)) (d : D), d ∉ gs.map Prod.fst →
      ((flattenGroups gs).map Prod.fst).count d = 0
  | [], _, _ => rfl
  | g :: rest, d, h => by
    rw [List.map_cons, List.mem_cons, not_or] at h
    rw [show flattenGroups (g :: rest)
        = g.2.map (fun u => (g.1, u)) ++ flattenGroups rest from rfl]
    rw [List.map_append, List.count_append,
      count_fst_flattenGroups_zero rest d h.2]
    have hconst : (g.2.map (fun u => (g.1, u))).map Prod.fst
        = g.2.map (fun _ => g.1) := by
      rw [List.map_map]
      rfl
    rw [hconst, count_map_const]
    have hne : ¬ g.1 = d := fun he => h.1 he.symm
    rw [if_neg hne]

theorem count_fst_flattenGroups {D U : Type} [DecidableEq D] :
    ∀ (gs : List (D × List U)) (d : D), (gs.map Prod.fst).Nodup →
      ((flattenGroups gs).map Prod.fst).count d
        = cnt (gs.map (fun p => (p.1, p.2.length))) d
  | [], _, _ => rfl
  | g :: rest, d, hnd => by
    rw [List.map_cons, List.nodup_cons] at hnd
    rw [show flattenGroups (g :: rest)
        = g.2.map (fun u => (g.1, u)) ++ flattenGroups rest from rfl]
    rw [List.map_append, List.count_append]
    have hconst : (g.2.map (fun u => (g.1, u))).map Prod.fst
        = g.2.map (fun _ => g.1) := by
      rw [List.map_map]
      rfl
    rw [hconst, count_map_const]
    simp only [List.map_cons]
    rw [cnt_cons]
    by_cases h : g.1 = d
    · rw [if_pos h, if_pos h]
      have hz : ((flattenGroups rest).map Prod.fst).count d = 0 := by
        apply count_fst_flattenGroups_zero
        rw [← h]
        exact hnd.1
      rw [hz]
      omega
    · rw [if_neg h, if_neg h, count_fst_flattenGroups rest d hnd.2]
      omega

theorem mem_fst_flattenGroups {D U : Type} :
    ∀ (gs : List (D × List U)) (d : D), (∀ p ∈ gs, p.2 ≠ []) →
      (d ∈ (flattenGroups gs).map Prod.fst ↔ d ∈ gs.map Prod.fst)
  | [], _, _ => Iff.rfl
  | g :: rest, d, hne => by
    rw [show flattenGroups (g :: rest)
        = g.2.map (fun u => (g.1, u)) ++ flattenGroups rest from rfl]
    rw [List.map_append, List.mem_append, List.map_cons, List.mem_cons]
    have hg : d ∈ (g.2.map (fun u => (g.1, u))).map Prod.fst ↔ d = g.1 := by
      rw [List.map_map]
      constructor
      · intro hx
        rcases List.mem_map.mp hx with ⟨u, _, he⟩
        have he' : g.1 = d := he
        exact he'.symm
      · rintro rfl
        obtain ⟨u, hu⟩ :=
          List.exists_mem_of_ne_nil g.2 (hne g (List.mem_cons_self _ _))
        exact List.mem_map.mpr ⟨u, hu, rfl⟩
    rw [hg, mem_fst_flattenGroups rest d (fun p hp => hne p (List.mem_cons_of_mem _ hp))]

theorem cnt_counterOf_map_pair {D U : Type} [DecidableEq D] [DecidableEq U]
    (d : D) (us : List U) (k : U) :
    cnt (counterOf (us.map (fun u => (d, u)))) (d, k) = us.count k := by
  rw [cnt_counterOf]
  have hinj : Function.Injective (fun u : U => (d, u)) := by
    intro a b hab
    rw [Prod.mk.injEq] at hab
    exact hab.2
  have h2 := List.count_map_of_injective us (fun u : U => (d, u)) hinj k
  rw [show ((d, k) : D × U) = (fun u : U => (d, u)) k from rfl]
  exact h2

theorem cnt_pair_flattenGroups_zero {D U : Type} [DecidableEq D] [DecidableEq U] :
    ∀ (gs : List (D × List U)) (d : D) (k : U), d ∉ gs.map Prod.fst →
      cnt (counterOf (flattenGroups gs)) (d, k) = 0
  | [], _, _, _ => rfl
  | g :: rest, d, k, h => by
    rw [List.map_cons, List.mem_cons, not_or] at h
    rw [show flattenGroups (g :: rest)
        = g.2.map (fun u => (g.1, u)) ++ flattenGroups rest from rfl]
    rw [show counterOf (g.2.map (fun u => (g.1, u)) ++ flattenGroups rest)
        = updList (counterOf (g.2.map (fun u => (g.1, u)))) (flattenGroups rest) from
      updList_append [] _ _]
    rw [cnt_updList, ← cnt_counterOf (flattenGroups rest) ((d, k) : D × U),
      cnt_pair_flattenGroups_zero rest d k h.2]
    have hnm : ((d, k) : D × U) ∉ keysOf (counterOf (g.2.map (fun u => (g.1, u)))) := by
      intro hmem
      rcases List.mem_map.mp (mem_keysOf_counterOf.mp hmem) with ⟨u, _, he⟩
      rw [Prod.mk.injEq] at he
      exact h.1 he.1.symm
    rw [cnt_eq_zero_of_not_mem hnm]

theorem cnt_pair_flattenGroups {D U : Type} [DecidableEq D] [DecidableEq U] :
    ∀ (gs : List (D × List U)) (d : D) (us : List U) (k : U),
      (gs.map Prod.fst).Nodup → (d, us) ∈ gs →
      cnt (counterOf (flattenGroups gs)) (d, k) = us.count k
  | [], _, _, _, _, hmem => absurd hmem (List.not_mem_nil _)
  | g :: rest, d, us, k, hnd, hmem => by
    rw [List.map_cons, List.nodup_cons] at hnd
    rw [show flattenGroups (g :: rest)
        = g.2.map (fun u => (g.1, u)) ++ flattenGroups rest from rfl]
    rw [show counterOf (g.2.map (fun u => (g.1, u)) ++ flattenGroups rest)
        = updList (counterOf (g.2.map (fun u => (g.1, u)))) (flattenGroups rest) from
      updList_append [] _ _]
    rw [cnt_updList, ← cnt_counterOf (flattenGroups rest) ((d, k) : D × U)]
    rcases List.mem_cons.mp hmem with he | hr
    · have hg : g = (d, us) := he.symm
      subst hg
      have hz : cnt (counterOf (flattenGroups rest)) ((d, k) : D × U) = 0 := by
        apply cnt_pair_flattenGroups_zero
        exact hnd.1
      rw [hz]
      rw [show ((d, us) : D × List U).2 = us from rfl,
        show ((d, us) : D × List U).1 = d from rfl]
      rw [cnt_counterOf_map_pair]
      omega
    · have hgd : ¬ g.1 = d := by
        intro he
        apply hnd.1
        rw [he]
        exact List.mem_map_of_mem Prod.fst hr
      have hnm : ((d, k) : D × U) ∉ keysOf (counterOf (g.2.map (fun u => (g.1, u)))) := by
        intro hmem'
        rcases List.mem_map.mp (mem_keysOf_counterOf.mp hmem') with ⟨u, _, he⟩
        rw [Prod.mk.injEq] at he
        exact hgd he.1
      rw [cnt_eq_zero_of_not_mem hnm, cnt_pair_flattenGroups rest d us k hnd.2 hr]
      omega

theorem mem_iff_cnt_counterOf_pos {K : Type} [DecidableEq K] (ks : List K) (k : K) :
    k ∈ ks ↔ 0 < cnt (counterOf ks) k := by
  rw [cnt_counterOf]
  exact List.count_pos_iff.symm

/-- Summing the per-user entries of one date's rows of the lexicographically
grouped frame equals the pair-level entry sum. -/
theorem entrySum_usersFilter {D U : Type} [LinearOrder D] [LinearOrder U] (d : D) (u : U) :
    ∀ (l : List ((D × U) × Nat)),
      entrySum ((l.filter (fun p => p.1.1 = d)).map (fun p => (p.1.2, p.2))) u
        = entrySum l ((d, u) : D × U)
  | [] => rfl
  | p :: rest => by
    obtain ⟨⟨pd, pu⟩, n⟩ := p
    simp only [List.filter_cons]
    by_cases h : pd = d
    · rw [if_pos (show (decide (pd = d)) = true from decide_eq_true h)]
      simp only [List.map_cons]
      rw [entrySum_cons, entrySum_cons, entrySum_usersFilter d u rest]
      by_cases hu : pu = u
      · rw [if_pos hu, if_pos (show ((pd, pu) : D × U) = (d, u) from by rw [h, hu])]
      · rw [if_neg hu, if_neg (show ¬ (((pd, pu) : D × U) = (d, u)) from fun hh => by
          rw [Prod.mk.injEq] at hh
          exact hu hh.2)]
    · rw [if_neg (show ¬ ((decide (pd = d)) = true) from
        fun hh => h (of_decide_eq_true hh))]
      rw [entrySum_usersFilter d u rest, entrySum_cons]
      rw [if_neg (show ¬ (((pd, pu) : D × U) = (d, u)) from fun hh => by
        rw [Prod.mk.injEq] at hh
        exact h hh.1)]
      omega

theorem nodup_keysOf_q1TimeUsersFor {D U : Type} [LinearOrder D] [LinearOrder U]
    (records : List (D × U)) (d : D) :
    (keysOf (q1TimeUsersFor records d)).Nodup := by
  have hgnd : (keysOf (q1TimeGrouped records)).Nodup :=
    nodup_keysOf_of_perm (List.perm_insertionSort _ _).symm (nodup_keysOf_counterOf _)
  have hfs : List.Sublist ((q1TimeGrouped records).filter (fun p => p.1.1 = d))
      (q1TimeGrouped records) := List.filter_sublist _
  have hfnd : (((q1TimeGrouped records).filter (fun p => p.1.1 = d)).map
      Prod.fst).Nodup := List.Nodup.sublist (hfs.map Prod.fst) hgnd
  have hall : ∀ p ∈ (q1TimeGrouped records).filter (fun p => p.1.1 = d),
      p.1.1 = d := by
    intro p hp
    have hdec := List.of_mem_filter hp
    exact of_decide_eq_true hdec
  have hpw : ((q1TimeGrouped records).filter (fun p => p.1.1 = d)).Pairwise
      (fun a b => a.1.2 ≠ b.1.2) := by
    have hone : ((q1TimeGrouped records).filter (fun p => p.1.1 = d)).Pairwise
        (fun a b => a.1 ≠ b.1) := List.pairwise_map.mp hfnd
    refine hone.imp_of_mem ?_
    intro a b ha hb hne he
    apply hne
    exact Prod.ext ((hall a ha).trans (hall b hb).symm) he
  show ((q1TimeUsersFor records d).map Prod.fst).Nodup
  rw [q1TimeUsersFor, List.map_map]
  exact List.pairwise_map.mpr hpw

theorem mem_keys_q1TimeUsersFor {D U : Type} [LinearOrder D] [LinearOrder U]
    {records : List (D × U)} {d : D} {k : U} :
    k ∈ keysOf (q1TimeUsersFor records d) ↔ ((d, k) : D × U) ∈ records := by
  rw [q1TimeUsersFor]
  constructor
  · intro hx
    rcases List.mem_map.mp hx with ⟨q, hq, rfl⟩
    rcases List.mem_map.mp hq with ⟨p, hp, rfl⟩
    have hpg : p ∈ q1TimeGrouped records := List.mem_of_mem_filter hp
    have hpd : p.1.1 = d := by
      have hdec := List.of_mem_filter hp
      exact of_decide_eq_true hdec
    have hk : p.1 ∈ keysOf (counterOf records) :=
      List.mem_map_of_mem Prod.fst ((List.perm_insertionSort _ _).subset hpg)
    have hrec : p.1 ∈ records := mem_keysOf_counterOf.mp hk
    show ((d, p.1.2) : D × U) ∈ records
    have hdp : ((d, p.1.2) : D × U) = p.1 := by
      rw [← hpd]
    rw [hdp]
    exact hrec
  · intro hrec
    have hkey : ((d, k) : D × U) ∈ keysOf (counterOf records) :=
      mem_keysOf_counterOf.mpr hrec
    rcases mem_keysOf.mp hkey with ⟨n, hn⟩
    have hg : ((d, k), n) ∈ q1TimeGrouped records :=
      (List.perm_insertionSort _ _).symm.subset hn
    have hf : ((d, k), n) ∈ (q1TimeGrouped records).filter (fun p => p.1.1 = d) :=
      List.mem_filter.mpr ⟨hg, by simp⟩
    exact List.mem_map.mpr ⟨(k, n), List.mem_map.mpr ⟨((d, k), n), hf, rfl⟩, rfl⟩

theorem cnt_q1TimeUsersFor {D U : Type} [LinearOrder D] [LinearOrder U]
    (records : List (D × U)) (d : D) (u : U) :
    cnt (q1TimeUsersFor records d) u = cnt (counterOf records) ((d, u) : D × U) := by
  have hnd : (keysOf (q1TimeUsersFor records d)).Nodup :=
    nodup_keysOf_q1TimeUsersFor records d
  rw [← entrySum_eq_cnt_of_nodup hnd u]
  have hperm : List.Perm (q1TimeGrouped records) (counterOf records) :=
    List.perm_insertionSort _ _
  rw [q1TimeUsersFor, entrySum_usersFilter d u (q1TimeGrouped records),
    entrySum_perm hperm ((d, u) : D × U)]
  exact entrySum_eq_cnt_of_nodup (nodup_keysOf_counterOf _) _

theorem topUsersOf_keys_sublist2 {D U : Type} [DecidableEq U] :
    ∀ (gs : List (D × List U)),
      List.Sublist ((topUsersOf gs).map Prod.fst) (gs.map Prod.fst)
  | [] => List.Sublist.refl _
  | g :: rest => by
    cases hfg : ((mostCommon 1 (counterOf g.2)).head?).map (fun p => (g.1, p.1)) with
    | none =>
      rw [show topUsersOf (g :: rest) = topUsersOf rest from by
        rw [topUsersOf, List.filterMap_cons, hfg]
        rfl]
      rw [List.map_cons]
      exact (topUsersOf_keys_sublist2 rest).cons _
    | some b =>
      rw [show topUsersOf (g :: rest) = b :: topUsersOf rest from by
        rw [topUsersOf, List.filterMap_cons, hfg]
        rfl]
      rcases Option.map_eq_some'.mp hfg with ⟨q, _, hq2⟩
      rw [List.map_cons, List.map_cons, show b.1 = g.1 from by rw [← hq2]]
      exact (topUsersOf_keys_sublist2 rest).cons₂ _

theorem topUsersOf_keys_nodup {D U : Type} [DecidableEq U] {gs : List (D × List U)}
    (hnd : (gs.map Prod.fst).Nodup) : ((topUsersOf gs).map Prod.fst).Nodup :=
  List.Nodup.sublist (topUsersOf_keys_sublist2 gs) hnd

/-- Under no pruning (fewer than 20 distinct dates) and tie-free counts, the
two q1 strategies return the same rows; `q1_time` emits them date-ascending,
`q1_memory` count-descending, so the lists agree up to order. -/
theorem q1_grouped_equiv {D U : Type} [LinearOrder D] [LinearOrder U]
    (g : D × List U) (rest : List (D × List U))
    (h1 : ((g :: rest).map Prod.fst).Nodup)
    (h2 : ∀ p ∈ g :: rest, p.2 ≠ [])
    (h3 : (g :: rest).length ≤ 19)
    (h4 : ((g :: rest).map (fun p => p.2.length)).Nodup)
    (h5 : ∀ p ∈ g :: rest, ((counterOf p.2).map Prod.snd).Nodup) :
    List.Perm (q1MemoryRun (flattenGroups (g :: rest)))
      (q1TimeRun (flattenGroups (g :: rest))) := by
  have hfin := q1MemoryFinal_grouped g rest h1 h2 h3
  have hsizesnd : (keysOf ((g :: rest).map (fun p => (p.1, p.2.length)))).Nodup := by
    show (((g :: rest).map (fun p => (p.1, p.2.length))).map Prod.fst).Nodup
    rw [List.map_map]
    exact h1
  have hM : q1MemoryRun (flattenGroups (g :: rest))
      = (mostCommon 10 ((g :: rest).map (fun p => (p.1, p.2.length)))).filterMap
          (fun p => (dictGet (topUsersOf (g :: rest)) p.1).map (fun u => (p.1, u))) := by
    have h0 : q1MemoryRun (flattenGroups (g :: rest))
        = (mostCommon 10 ((q1MemoryFinal (flattenGroups (g :: rest))).date_counts)).filterMap
            (fun p => (dictGet ((q1MemoryFinal (flattenGroups (g :: rest))).top_users)
              p.1).map (fun u => (p.1, u))) := rfl
    rw [h0, hfin]
  have hpermDC : List.Perm ((g :: rest).map (fun p => (p.1, p.2.length)))
      (q1TimeDateCounts (flattenGroups (g :: rest))) := by
    have hnd2 : (keysOf (q1TimeDateCounts (flattenGroups (g :: rest)))).Nodup :=
      nodup_keysOf_groupSumByKey _
    apply counter_perm_of_cnt_eq hsizesnd hnd2
    · intro k
      rw [mem_keys_q1TimeDateCounts, mem_fst_flattenGroups (g :: rest) k h2]
      constructor
      · intro hk
        rcases List.mem_map.mp hk with ⟨p, hp, rfl⟩
        rcases List.mem_map.mp hp with ⟨q, hqq, rfl⟩
        exact List.mem_map_of_mem Prod.fst hqq
      · intro hk
        rcases List.mem_map.mp hk with ⟨q, hqq, rfl⟩
        exact List.mem_map.mpr ⟨(q.1, q.2.length), List.mem_map.mpr ⟨q, hqq, rfl⟩, rfl⟩
    · intro k
      rw [cnt_q1TimeDateCounts, count_fst_flattenGroups (g :: rest) k h1]
  have hdistS : (((g :: rest).map (fun p => (p.1, p.2.length))).map Prod.snd).Nodup := by
    rw [List.map_map]
    exact h4
  have hTD : q1TimeTopDates (flattenGroups (g :: rest))
      = mostCommon 10 ((g :: rest).map (fun p => (p.1, p.2.length))) := by
    rw [q1TimeTopDates, mostCommon, mostCommon,
      ← sortDesc_eq_of_perm_of_distinct hpermDC hdistS]
  have hrows : ∀ x ∈ (mostCommon 10 ((g :: rest).map
      (fun p => (p.1, p.2.length)))).map Prod.fst,
      q1TimeRow (flattenGroups (g :: rest)) x
        = (dictGet (topUsersOf (g :: rest)) x).map (fun u => (x, u)) := by
    intro x hx
    rcases List.mem_map.mp hx with ⟨p, hp, rfl⟩
    have hps : p ∈ (g :: rest).map (fun q => (q.1, q.2.length)) :=
      mostCommon_subset_self hp
    rcases List.mem_map.mp hps with ⟨gq, hgq, rfl⟩
    obtain ⟨gd, gus⟩ := gq
    show q1TimeRow (flattenGroups (g :: rest)) gd
        = (dictGet (topUsersOf (g :: rest)) gd).map (fun u => (gd, u))
    obtain ⟨wp, hwp⟩ := mostCommon_one_singleton
      (counterOf_ne_nil (h2 (gd, gus) hgq) : counterOf gus ≠ [])
    have hmemtu : ((gd, wp.1) : D × U) ∈ topUsersOf (g :: rest) := by
      apply List.mem_filterMap.mpr
      refine ⟨(gd, gus), hgq, ?_⟩
      show ((mostCommon 1 (counterOf gus)).head?).map (fun p => ((gd : D), p.1))
          = some (gd, wp.1)
      rw [hwp]
      rfl
    have hget : dictGet (topUsersOf (g :: rest)) gd = some wp.1 :=
      dictGet_of_mem (topUsersOf_keys_nodup h1) hmemtu
    have hd5 : ((counterOf gus).map Prod.snd).Nodup := h5 (gd, gus) hgq
    have hpermU : List.Perm (counterOf gus)
        (q1TimeUsersFor (flattenGroups (g :: rest)) gd) := by
      apply counter_perm_of_cnt_eq (nodup_keysOf_counterOf _)
        (nodup_keysOf_q1TimeUsersFor _ _)
      · intro k
        rw [mem_keysOf_counterOf, mem_keys_q1TimeUsersFor]
        rw [mem_iff_cnt_counterOf_pos gus k,
          mem_iff_cnt_counterOf_pos (flattenGroups (g :: rest)) ((gd, k) : D × U)]
        rw [cnt_counterOf gus k,
          cnt_pair_flattenGroups (g :: rest) gd gus k h1 hgq]
      · intro k
        rw [cnt_q1TimeUsersFor, cnt_counterOf gus k,
          cnt_pair_flattenGroups (g :: rest) gd gus k h1 hgq]
    have hMC : mostCommon 1 (q1TimeUsersFor (flattenGroups (g :: rest)) gd)
        = mostCommon 1 (counterOf gus) := by
      rw [mostCommon, mostCommon, ← sortDesc_eq_of_perm_of_distinct hpermU hd5]
    rw [q1TimeRow, hMC, hwp, hget]
    rfl
  have hndTop : ((mostCommon 10 ((g :: rest).map (fun p => (p.1, p.2.length)))).map
      Prod.fst).Nodup := nodup_keysOf_mostCommon 10 hsizesnd
  have hndAsc : (((q1TimeDateCounts (flattenGroups (g :: rest))).map Prod.fst).filter
      (fun d => d ∈ (q1TimeTopDates (flattenGroups (g :: rest))).map Prod.fst)).Nodup :=
    List.Nodup.filter _ (nodup_keysOf_groupSumByKey _)
  have hmemTop : ∀ x, x ∈ (mostCommon 10 ((g :: rest).map
      (fun p => (p.1, p.2.length)))).map Prod.fst →
      x ∈ (q1TimeDateCounts (flattenGroups (g :: rest))).map Prod.fst := by
    intro x hx
    rcases List.mem_map.mp hx with ⟨p, hp, rfl⟩
    have hps : p ∈ (g :: rest).map (fun q => (q.1, q.2.length)) :=
      mostCommon_subset_self hp
    have hks : p.1 ∈ keysOf ((g :: rest).map (fun q => (q.1, q.2.length))) :=
      List.mem_map_of_mem Prod.fst hps
    exact (hpermDC.map Prod.fst).mem_iff.mp hks
  have hpermD : List.Perm
      ((mostCommon 10 ((g :: rest).map (fun p => (p.1, p.2.length)))).map Prod.fst)
      (((q1TimeDateCounts (flattenGroups (g :: rest))).map Prod.fst).filter
        (fun d => d ∈ (q1TimeTopDates (flattenGroups (g :: rest))).map Prod.fst)) := by
    rw [List.perm_ext_iff_of_nodup hndTop hndAsc]
    intro a
    rw [List.mem_filter]
    constructor
    · intro ha
      refine ⟨hmemTop a ha, ?_⟩
      rw [hTD]
      exact decide_eq_true ha
    · rintro ⟨_, ha⟩
      rw [hTD] at ha
      exact of_decide_eq_true ha
  have hMfac : (mostCommon 10 ((g :: rest).map (fun p => (p.1, p.2.length)))).filterMap
      (fun p => (dictGet (topUsersOf (g :: rest)) p.1).map (fun u => (p.1, u)))
      = ((mostCommon 10 ((g :: rest).map (fun p => (p.1, p.2.length)))).map
          Prod.fst).filterMap
        (fun x => (dictGet (topUsersOf (g :: rest)) x).map (fun u => (x, u))) := by
    rw [List.filterMap_map]
    rfl
  rw [hM, hMfac,
    show q1TimeRun (flattenGroups (g :: rest))
      = (((q1TimeDateCounts (flattenGroups (g :: rest))).map Prod.fst).filter
          (fun d => d ∈ (q1TimeTopDates (flattenGroups (g :: rest))).map Prod.fst)).filterMap
        (q1TimeRow (flattenGroups (g :: rest))) from rfl]
  rw [List.filterMap_congr (show ∀ x ∈ (((q1TimeDateCounts
      (flattenGroups (g :: rest))).map Prod.fst).filter
      (fun d => d ∈ (q1TimeTopDates (flattenGroups (g :: rest))).map Prod.fst)),
      q1TimeRow (flattenGroups (g :: rest)) x
        = (dictGet (topUsersOf (g :: rest)) x).map (fun u => (x, u)) from by
    intro x hxf
    exact hrows x (hpermD.mem_iff.mpr hxf))]
  exact hpermD.filterMap _

/-- C2, counterexample: on the grouped stream date 1 × 1 record, date 2 × 2
records — two distinct keys, far below every prune threshold, so pruning
never triggers — `q1_memory` returns its rows count-descending while
`q1_time` returns them date-ascending: the result lists differ. -/
theorem c2_counterexample :
    q1MemoryRun [((1 : Nat), (0 : Nat)), (2, 0), (2, 0)] = [(2, 0), (1, 0)] ∧
      q1TimeRun [((1 : Nat), (0 : Nat)), (2, 0), (2, 0)] = [(1, 0), (2, 0)] := by
  constructor
  · decide
  · decide

/-- C2, amended: when pruning never triggers, the two strategies agree up to
the documented differences.  (1) q3: if both passes see the same contents,
the total distinct-mention count stays within `max_mentions` (so
`_cleanup_memory` never fires) and the combined counts are pairwise
distinct, the streaming and batch passes return *identical* lists.  (2) q1:
on a date-grouped stream with fewer than 20 distinct dates (so neither
`_prune_data` nor the `_get_min_count` guard ever bites), non-empty groups
and tie-free date and per-date user counts, both strategies return the same
*set* of rows — equality holds only up to order, because `q1_time` emits its
rows date-ascending while `q1_memory` emits them count-descending. -/
theorem c2_amended {K D U T : Type} [LinearOrder K] [LinearOrder D] [LinearOrder U] :
    (∀ (extract : T → List K) (texts : List T) (chunks : List (List (Option T))),
        chunks.flatten = texts.map some →
        (keysOf (counterOf (texts.map extract).flatten)).length
            ≤ (MentionTracker.init K).max_mentions →
        ((counterOf (texts.map extract).flatten).map Prod.snd).Nodup →
        q3MemoryRun extract texts = q3TimeRun extract chunks) ∧
    (∀ (g : D × List U) (rest : List (D × List U)),
        ((g :: rest).map Prod.fst).Nodup →
        (∀ p ∈ g :: rest, p.2 ≠ []) →
        (g :: rest).length ≤ 19 →
        ((g :: rest).map (fun p => p.2.length)).Nodup →
        (∀ p ∈ g :: rest, ((counterOf p.2).map Prod.snd).Nodup) →
        List.Perm (q1MemoryRun (flattenGroups (g :: rest)))
          (q1TimeRun (flattenGroups (g :: rest)))) :=
  ⟨fun extract texts chunks hflat hb hdist =>
      q3_no_cleanup_equiv extract texts chunks hflat hb hdist,
    fun g rest h1 h2 h3 h4 h5 => q1_grouped_equiv g rest h1 h2 h3 h4 h5⟩

/-- Witness for `c2_amended` at concrete inputs. -/
theorem c2_amended_witness :
    (q3MemoryRun (fun t => t) [[(0 : Nat)], [1], [1]]
        = q3TimeRun (fun t => t) [[some [0], some [1]], [some [1]]]) ∧
      List.Perm (q1MemoryRun (flattenGroups [((1 : Nat), [(5 : Nat)]), (2, [6, 6])]))
        (q1TimeRun (flattenGroups [((1 : Nat), [(5 : Nat)]), (2, [6, 6])])) :=
  ⟨(c2_amended (K := Nat) (D := Nat) (U := Nat) (T := List Nat)).1 (fun t => t)
      [[0], [1], [1]] [[some [0], some [1]], [some [1]]]
      (by decide) (by decide) (by decide),
    (c2_amended (K := Nat) (D := Nat) (U := Nat) (T := Unit)).2
      ((1 : Nat), [(5 : Nat)]) [(2, [6, 6])]
      (by decide) (by decide) (by decide) (by decide) (by decide)⟩

end ClaimC2

/-! ## Claim C6

Surfacing of top-N dates in `get_top_results`: the returned list silently
skips any top date that lacks a `top_users` entry (the `if date in
self.top_users` filter).  For grouped inputs this situation is unreachable:
a date may only miss its entry when its group closed below the
`_get_min_count` threshold, and then at least `max_dates = 20` dates with
strictly larger (and never shrinking) counts outlive it, keeping it out of
every later top 10. -/

section ClaimC6

theorem foldlMin_le : ∀ (xs : List Nat) (x y : Nat), y ∈ x :: xs →
    xs.foldl Nat.min x ≤ y
  | [], _, y, hy => by
    rcases List.mem_cons.mp hy with rfl | h
    · exact le_refl _
    · cases h
  | z :: zs, x, y, hy => by
    rw [List.foldl_cons]
    rcases List.mem_cons.mp hy with rfl | h
    · exact le_trans (foldlMin_le zs (Nat.min y z) (Nat.min y z)
        (List.mem_cons_self _ _)) (Nat.min_le_left _ _)
    · rcases List.mem_cons.mp h with rfl | h2
      · exact le_trans (foldlMin_le zs (Nat.min x y) (Nat.min x y)
          (List.mem_cons_self _ _)) (Nat.min_le_right _ _)
      · exact foldlMin_le zs (Nat.min x z) y (List.mem_cons_of_mem _ h2)

theorem listMin_le_mem {l : List Nat} {y : Nat} (hy : y ∈ l) : listMin l ≤ y := by
  cases l with
  | nil => cases hy
  | cons x xs => exact foldlMin_le xs x y hy

/-- In a descending-sorted counter, an entry of the first `n` places is
outranked by fewer than `n` entries. -/
theorem sorted_top_countP {K : Type} :
    ∀ {l : List (K × Nat)}, l.Pairwise (countGE (K := K)) →
      ∀ {p : K × Nat} (n : Nat), p ∈ l.take n →
        l.countP (fun q => decide (p.2 < q.2)) < n := by
  intro l
  induction l with
  | nil =>
    intro _ p n hp
    rw [List.take_nil] at hp
    cases hp
  | cons q rest ih =>
    intro hs p n hp
    have hhead : ∀ y ∈ rest, countGE q y := (List.pairwise_cons.mp hs).1
    have hrest : rest.Pairwise (countGE (K := K)) := (List.pairwise_cons.mp hs).2
    cases n with
    | zero =>
      rw [List.take_zero] at hp
      cases hp
    | succ n' =>
      rw [List.take_succ_cons] at hp
      rw [List.countP_cons]
      rcases List.mem_cons.mp hp with rfl | hp'
      · have hz : rest.countP (fun q => decide (p.2 < q.2)) = 0 := by
          rw [List.countP_eq_zero]
          intro a ha
          have : a.2 ≤ p.2 := hhead a ha
          simp only [decide_eq_true_eq]
          omega
        rw [hz]
        simp
      · have := ih hrest n' hp'
        by_cases hqq : p.2 < q.2
        · rw [if_pos (decide_eq_true hqq)]
          omega
        · rw [if_neg (fun hh => hqq (of_decide_eq_true hh))]
          omega

theorem dictGet_dictInsert_none {K V : Type} [DecidableEq K] {k x : K} {v : V} :
    ∀ {l : List (K × V)}, dictGet (dictInsert k v l) x = none →
      dictGet l x = none ∧ ¬ k = x
  | [], h => by
    by_cases hx : k = x
    · rw [show dictInsert k v ([] : List (K × V)) = [(k, v)] from rfl,
        dictGet, if_pos hx] at h
      cases h
    · exact ⟨rfl, hx⟩
  | (k₀, v₀) :: rest, h => by
    by_cases h0 : k₀ = k
    · subst h0
      rw [show dictInsert k₀ v ((k₀, v₀) :: rest) = (k₀, v) :: rest from by
        simp [dictInsert]] at h
      rw [dictGet] at h
      by_cases hx : k₀ = x
      · rw [if_pos hx] at h
        cases h
      · rw [if_neg hx] at h
        constructor
        · rw [dictGet, if_neg hx]
          exact h
        · exact hx
    · rw [show dictInsert k v ((k₀, v₀) :: rest)
          = (k₀, v₀) :: dictInsert k v rest from by
        simp [dictInsert, h0]] at h
      rw [dictGet] at h
      by_cases hx : k₀ = x
      · rw [if_pos hx] at h
        cases h
      · rw [if_neg hx] at h
        have hr := dictGet_dictInsert_none h
        constructor
        · rw [dictGet, if_neg hx]
          exact hr.1
        · exact hr.2

/-- If a key's first entry survives a dictionary filter, its lookup result
is unchanged. -/
theorem dictGet_filter_some {K V : Type} [DecidableEq K] (q : K × V → Bool) :
    ∀ (l : List (K × V)) (x : K) (v : V), dictGet l x = some v →
      q (x, v) = true → dictGet (l.filter q) x = some v
  | [], x, v, h, _ => by cases h
  | (k₀, v₀) :: rest, x, v, h, hq => by
    rw [dictGet] at h
    by_cases hx : k₀ = x
    · rw [if_pos hx] at h
      have hv : v₀ = v := Option.some.inj h
      subst hv
      subst hx
      rw [List.filter_cons, if_pos hq]
      rw [dictGet, if_pos rfl]
    · rw [if_neg hx] at h
      rw [List.filter_cons]
      by_cases hkeep : q (k₀, v₀) = true
      · rw [if_pos hkeep, dictGet, if_neg hx]
        exact dictGet_filter_some q rest x v h hq
      · rw [if_neg hkeep]
        exact dictGet_filter_some q rest x v h hq

theorem countP_bump_ge {K : Type} [DecidableEq K] (k : K) (a : Nat) :
    ∀ (c : CounterL K),
      c.countP (fun p => decide (a < p.2))
        ≤ (bump k 1 c).countP (fun p => decide (a < p.2))
  | [] => Nat.zero_le _
  | (k₀, n₀) :: rest => by
    by_cases h : k₀ = k
    · subst h
      have hb : bump k₀ 1 ((k₀, n₀) :: rest) = (k₀, n₀ + 1) :: rest := by
        simp [bump]
      rw [hb]
      simp only [List.countP_cons]
      by_cases ha : a < n₀
      · rw [if_pos (decide_eq_true ha), if_pos (decide_eq_true (by omega : a < n₀ + 1))]
      · rw [if_neg (fun hh => ha (of_decide_eq_true hh))]
        have : (0 : Nat) ≤ if decide (a < n₀ + 1) = true then 1 else 0 := Nat.zero_le _
        omega
    · have hb : bump k 1 ((k₀, n₀) :: rest) = (k₀, n₀) :: bump k 1 rest := by
        simp [bump, h]
      rw [hb]
      simp only [List.countP_cons]
      have := countP_bump_ge k a rest
      omega

theorem cnt_filter_of_mem {K : Type} [DecidableEq K] {c : CounterL K}
    (hnd : (keysOf c).Nodup) (q : K × Nat → Bool) {x : K}
    (hx : x ∈ keysOf (c.filter q)) : cnt (c.filter q) x = cnt c x := by
  induction c with
  | nil => cases hx
  | cons p rest ih =>
    obtain ⟨k₀, n₀⟩ := p
    rw [keysOf_cons, List.nodup_cons] at hnd
    rw [List.filter_cons] at hx ⊢
    by_cases hkeep : q (k₀, n₀) = true
    · rw [if_pos hkeep] at hx ⊢
      rw [cnt_cons, cnt_cons]
      by_cases h0 : k₀ = x
      · rw [if_pos h0, if_pos h0]
      · rw [if_neg h0, if_neg h0]
        rw [keysOf_cons, List.mem_cons] at hx
        rcases hx with he | hx'
        · exact absurd he.symm h0
        · exact ih hnd.2 hx'
    · rw [if_neg hkeep] at hx ⊢
      rw [cnt_cons]
      by_cases h0 : k₀ = x
      · subst h0
        have : k₀ ∈ keysOf rest := by
          have hsub : List.Sublist (rest.filter q) rest := List.filter_sublist _
          exact (hsub.map Prod.fst).subset hx
        exact absurd this hnd.1
      · rw [if_neg h0]
        exact ih hnd.2 hx

theorem bump_ne_nil {K : Type} [DecidableEq K] (k : K) (m : Nat)
    (c : CounterL K) : bump k m c ≠ [] := by
  cases c with
  | nil => simp [bump]
  | cons p rest =>
    obtain ⟨k₀, n₀⟩ := p
    by_cases h : k₀ = k <;> simp [bump, h]

theorem countP_lift_bump {D : Type} [DecidableEq D] {dc : CounterL D}
    {x d : D} (hxd : ¬ d = x)
    (h : 20 ≤ dc.countP (fun p => decide (cnt dc x < p.2))) :
    20 ≤ (bump d 1 dc).countP (fun p => decide (cnt (bump d 1 dc) x < p.2)) := by
  have hc : cnt (bump d 1 dc) x = cnt dc x := by
    rw [cnt_bump, if_neg hxd]
    omega
  rw [hc]
  exact le_trans h (countP_bump_ge d (cnt dc x) dc)

/-- When the `_get_min_count()` guard at group close fails for `x`, the top
`max_dates = 20` tracked dates all count strictly above `x`. -/
theorem guard_fail_witnesses {D U : Type} [DecidableEq D] (t : DateTracker D U)
    (x : D) (hmd : t.max_dates = 20)
    (hfail : ¬ t.getMinCount ≤ cnt t.date_counts x) :
    20 ≤ t.date_counts.countP (fun p => decide (cnt t.date_counts x < p.2)) := by
  rw [DateTracker.getMinCount, hmd] at hfail
  push_neg at hfail
  by_cases hlen : t.date_counts.length < 20
  · rw [if_pos hlen] at hfail
    omega
  · rw [if_neg hlen] at hfail
    have hall : ∀ p ∈ mostCommon 20 t.date_counts,
        (fun p : D × Nat => decide (cnt t.date_counts x < p.2)) p := by
      intro p hp
      have hmem : p.2 ∈ (mostCommon 20 t.date_counts).map Prod.snd :=
        List.mem_map_of_mem Prod.snd hp
      have := listMin_le_mem hmem
      simp only [decide_eq_true_eq]
      omega
    have hcnt : (mostCommon 20 t.date_counts).countP
        (fun p => decide (cnt t.date_counts x < p.2))
        = (mostCommon 20 t.date_counts).length :=
      List.countP_eq_length.mpr hall
    have hlen2 : (mostCommon 20 t.date_counts).length = 20 := by
      rw [mostCommon_length]
      omega
    have hsub := (mostCommon_sublist 20 t.date_counts).countP_le
      (fun p => decide (cnt t.date_counts x < p.2))
    have hperm := (sortDesc_perm t.date_counts).countP_eq
      (fun p => decide (cnt t.date_counts x < p.2))
    omega

/-- `_prune_data` with its two `let`s zeta-reduced. -/
theorem pruneData_eq {D U : Type} [DecidableEq D] (t : DateTracker D U) :
    t.pruneData = { t with
      date_counts := t.date_counts.filter (fun p => t.getMinCount ≤ p.2),
      top_users := t.top_users.filter (fun p => t.getMinCount ≤
        cnt (t.date_counts.filter (fun q => t.getMinCount ≤ q.2)) p.1) } := rfl

/-- Accountability of the `top_users` dict: every tracked date that has no
`top_users` entry is either the still-open date or is outranked by at least
`max_dates = 20` tracked dates with strictly larger counts. -/
def EntryInv {D U : Type} [DecidableEq D] (t : DateTracker D U) : Prop :=
  ∀ x ∈ keysOf t.date_counts, dictGet t.top_users x = none →
    t.current_date = some x ∨
      20 ≤ t.date_counts.countP (fun p => decide (cnt t.date_counts x < p.2))

/-- The run invariant of `q1_memory`'s tracker: distinct tracked dates, the
default `max_dates = 20`, a non-empty user counter whenever a date is open,
and `EntryInv`. -/
def INVC {D U : Type} [DecidableEq D] (t : DateTracker D U) : Prop :=
  (keysOf t.date_counts).Nodup ∧ t.max_dates = 20 ∧
    (t.current_date ≠ none → t.current_user_counts ≠ []) ∧ EntryInv t

theorem EntryInv_filter {D U : Type} [DecidableEq D]
    {dc : CounterL D} {tu : List (D × U)} {cd : Option D}
    (hnd : (keysOf dc).Nodup)
    (hE : ∀ x ∈ keysOf dc, dictGet tu x = none →
      cd = some x ∨ 20 ≤ dc.countP (fun p => decide (cnt dc x < p.2)))
    (m : Nat) :
    ∀ x ∈ keysOf (dc.filter (fun p => decide (m ≤ p.2))),
      dictGet (tu.filter (fun p => decide (m ≤
          cnt (dc.filter (fun q => decide (m ≤ q.2))) p.1))) x = none →
        cd = some x ∨ 20 ≤ (dc.filter (fun p => decide (m ≤ p.2))).countP
          (fun p => decide (cnt (dc.filter (fun q => decide (m ≤ q.2))) x < p.2)) := by
  intro x hx hnone
  obtain ⟨n, hn⟩ := mem_keysOf.mp hx
  have hnf := List.mem_filter.mp hn
  have hml : m ≤ n := of_decide_eq_true hnf.2
  have hcnt : cnt dc x = n := cnt_of_mem_nodup hnd hnf.1
  have hcx : cnt (dc.filter (fun q => decide (m ≤ q.2))) x = cnt dc x :=
    cnt_filter_of_mem hnd _ hx
  have hnone0 : dictGet tu x = none := by
    cases hdg : dictGet tu x with
    | none => rfl
    | some v =>
      have hq : (fun p : D × U => decide (m ≤
          cnt (dc.filter (fun q => decide (m ≤ q.2))) p.1)) (x, v) = true := by
        simp only [decide_eq_true_eq]
        show m ≤ cnt (dc.filter (fun q => decide (m ≤ q.2))) x
        rw [hcx, hcnt]
        exact hml
      have hkeep := dictGet_filter_some (fun p : D × U => decide (m ≤
        cnt (dc.filter (fun q => decide (m ≤ q.2))) p.1)) tu x v hdg hq
      rw [hkeep] at hnone
      cases hnone
  have hxdc : x ∈ keysOf dc := ((List.filter_sublist dc).map Prod.fst).subset hx
  rcases hE x hxdc hnone0 with hcur | h20
  · exact Or.inl hcur
  · refine Or.inr ?_
    rw [hcx, hcnt]
    rw [hcnt] at h20
    rw [List.countP_filter]
    have heq : dc.countP
        (fun a => decide (n < a.2) && decide (m ≤ a.2))
        = dc.countP (fun p => decide (n < p.2)) := by
      apply List.countP_congr
      intro a _
      simp only [Bool.and_eq_true, decide_eq_true_eq]
      constructor
      · exact fun hh => hh.1
      · intro hh
        exact ⟨hh, by omega⟩
    rw [heq]
    exact h20

theorem pruneData_preserves_EntryInv {D U : Type} [DecidableEq D]
    {t : DateTracker D U} (hnd : (keysOf t.date_counts).Nodup)
    (hE : EntryInv t) : EntryInv t.pruneData := by
  have key := EntryInv_filter hnd hE t.getMinCount
  intro x hx hnone
  exact key x hx hnone

theorem maybePrune_INVC {D U : Type} [DecidableEq D]
    {t : DateTracker D U} (h : INVC t) : INVC t.maybePrune := by
  obtain ⟨hnd, hmd, hI3, hE⟩ := h
  rw [DateTracker.maybePrune]
  split
  · exact ⟨nodup_keysOf_filter _ hnd, hmd, hI3,
      pruneData_preserves_EntryInv hnd hE⟩
  · exact ⟨hnd, hmd, hI3, hE⟩

/-- `add_tweet` preserves the run invariant, whether or not it switches the
open date, closes a group, or prunes. -/
theorem addTweet_preserves_INVC {D U : Type} [DecidableEq D] [DecidableEq U]
    {t : DateTracker D U} (d : D) (u : U) (h : INVC t) :
    INVC (t.addTweet d u) := by
  obtain ⟨hnd, hmd, hI3, hE⟩ := h
  show INVC (((t.countDate d).switchDate d).countUser u).maybePrune
  by_cases hc : t.current_date = some d
  · have hsw : (t.countDate d).switchDate d = t.countDate d := by
      rw [DateTracker.switchDate,
        if_pos (show (t.countDate d).current_date = some d from hc)]
    have ht3 : ((t.countDate d).switchDate d).countUser u
        = (⟨bump d 1 t.date_counts, bump u 1 t.current_user_counts,
            t.top_users, t.current_date, t.max_dates⟩ : DateTracker D U) := by
      rw [hsw]
      rfl
    rw [ht3]
    apply maybePrune_INVC
    refine ⟨nodup_keysOf_bump hnd, hmd, fun _ => bump_ne_nil u 1 _, ?_⟩
    intro x hx hnone
    by_cases hxd : x = d
    · subst hxd
      exact Or.inl hc
    · have hxdc : x ∈ keysOf t.date_counts := by
        rcases mem_keysOf_bump.mp hx with h1 | h1
        · exact absurd h1 hxd
        · exact h1
      rcases hE x hxdc hnone with hcur | h20
      · exact absurd (Option.some.inj (hc.symm.trans hcur))
          (fun hh => hxd hh.symm)
      · exact Or.inr (countP_lift_bump (fun hh => hxd hh.symm) h20)
  · have hsw : (t.countDate d).switchDate d
        = { (t.countDate d).closeGroup with
            current_user_counts := [], current_date := some d } := by
      rw [DateTracker.switchDate,
        if_neg (show ¬ (t.countDate d).current_date = some d from hc)]
    cases hcd : t.current_date with
    | none =>
      have hcg : (t.countDate d).closeGroup = t.countDate d :=
        closeGroup_of_none (show (t.countDate d).current_date = none from hcd)
      have ht3 : ((t.countDate d).switchDate d).countUser u
          = (⟨bump d 1 t.date_counts, bump u 1 [],
              t.top_users, some d, t.max_dates⟩ : DateTracker D U) := by
        rw [hsw, hcg]
        rfl
      rw [ht3]
      apply maybePrune_INVC
      refine ⟨nodup_keysOf_bump hnd, hmd, fun _ => bump_ne_nil u 1 _, ?_⟩
      intro x hx hnone
      by_cases hxd : x = d
      · subst hxd
        exact Or.inl rfl
      · have hxdc : x ∈ keysOf t.date_counts := by
          rcases mem_keysOf_bump.mp hx with h1 | h1
          · exact absurd h1 hxd
          · exact h1
        rcases hE x hxdc hnone with hcur | h20
        · rw [hcd] at hcur
          cases hcur
        · exact Or.inr (countP_lift_bump (fun hh => hxd hh.symm) h20)
    | some dold =>
      have hne : t.current_user_counts ≠ [] :=
        hI3 (by rw [hcd]; exact fun hh => Option.noConfusion hh)
      cases hmc : mostCommon 1 t.current_user_counts with
      | nil =>
        exfalso
        have hl := mostCommon_length 1 t.current_user_counts
        rw [hmc] at hl
        simp only [List.length_nil] at hl
        have hlen0 : t.current_user_counts.length = 0 := by omega
        exact hne (List.length_eq_zero.mp hlen0)
      | cons p rest' =>
        obtain ⟨u₀, c₀⟩ := p
        have hcg := closeGroup_of_cons
          (show (t.countDate d).current_date = some dold from hcd)
          (show mostCommon 1 (t.countDate d).current_user_counts
            = (u₀, c₀) :: rest' from hmc)
        by_cases hg : (t.countDate d).getMinCount
            ≤ cnt (t.countDate d).date_counts dold
        · rw [if_pos hg] at hcg
          have ht3 : ((t.countDate d).switchDate d).countUser u
              = (⟨bump d 1 t.date_counts, bump u 1 [],
                  dictInsert dold u₀ t.top_users, some d, t.max_dates⟩ :
                  DateTracker D U) := by
            rw [hsw, hcg]
            rfl
          rw [ht3]
          apply maybePrune_INVC
          refine ⟨nodup_keysOf_bump hnd, hmd, fun _ => bump_ne_nil u 1 _, ?_⟩
          intro x hx hnone
          obtain ⟨hnone0, hdx⟩ := dictGet_dictInsert_none hnone
          by_cases hxd : x = d
          · subst hxd
            exact Or.inl rfl
          · have hxdc : x ∈ keysOf t.date_counts := by
              rcases mem_keysOf_bump.mp hx with h1 | h1
              · exact absurd h1 hxd
              · exact h1
            rcases hE x hxdc hnone0 with hcur | h20
            · exact absurd (Option.some.inj (hcd.symm.trans hcur)) hdx
            · exact Or.inr (countP_lift_bump (fun hh => hxd hh.symm) h20)
        · rw [if_neg hg] at hcg
          have ht3 : ((t.countDate d).switchDate d).countUser u
              = (⟨bump d 1 t.date_counts, bump u 1 [],
                  t.top_users, some d, t.max_dates⟩ : DateTracker D U) := by
            rw [hsw, hcg]
            rfl
          rw [ht3]
          apply maybePrune_INVC
          refine ⟨nodup_keysOf_bump hnd, hmd, fun _ => bump_ne_nil u 1 _, ?_⟩
          intro x hx hnone
          by_cases hxd : x = d
          · subst hxd
            exact Or.inl rfl
          · by_cases hxo : x = dold
            · subst hxo
              exact Or.inr (guard_fail_witnesses (t.countDate d) x
                (show (t.countDate d).max_dates = 20 from hmd) hg)
            · have hxdc : x ∈ keysOf t.date_counts := by
                rcases mem_keysOf_bump.mp hx with h1 | h1
                · exact absurd h1 hxd
                · exact h1
              rcases hE x hxdc hnone with hcur | h20
              · exact absurd (Option.some.inj (hcd.symm.trans hcur))
                  (fun hh => hxo hh.symm)
              · exact Or.inr (countP_lift_bump (fun hh => hxd hh.symm) h20)

/-- After the final `close group` of `get_top_results`, a tracked date with
no `top_users` entry is outranked by at least 20 strictly larger counts. -/
theorem closeGroup_final {D U : Type} [DecidableEq D] [DecidableEq U]
    {t : DateTracker D U} (h : INVC t) :
    ∀ x ∈ keysOf t.closeGroup.date_counts,
      dictGet t.closeGroup.top_users x = none →
        20 ≤ t.closeGroup.date_counts.countP
          (fun p => decide (cnt t.closeGroup.date_counts x < p.2)) := by
  obtain ⟨hnd, hmd, hI3, hE⟩ := h
  have hdc := (closeGroup_fields t).1
  rw [hdc]
  intro x hx hnone
  cases hcd : t.current_date with
  | none =>
    rw [closeGroup_of_none hcd] at hnone
    rcases hE x hx hnone with hcur | h20
    · rw [hcd] at hcur
      cases hcur
    · exact h20
  | some dold =>
    have hne : t.current_user_counts ≠ [] :=
      hI3 (by rw [hcd]; exact fun hh => Option.noConfusion hh)
    cases hmc : mostCommon 1 t.current_user_counts with
    | nil =>
      exfalso
      have hl := mostCommon_length 1 t.current_user_counts
      rw [hmc] at hl
      simp only [List.length_nil] at hl
      exact hne (List.length_eq_zero.mp (by omega))
    | cons p rest' =>
      obtain ⟨u₀, c₀⟩ := p
      have hcg := closeGroup_of_cons hcd hmc
      by_cases hg : t.getMinCount ≤ cnt t.date_counts dold
      · rw [if_pos hg] at hcg
        rw [hcg] at hnone
        obtain ⟨hnone0, hdx⟩ := dictGet_dictInsert_none hnone
        rcases hE x hx hnone0 with hcur | h20
        · exact absurd (Option.some.inj (hcd.symm.trans hcur)) hdx
        · exact h20
      · rw [if_neg hg] at hcg
        rw [hcg] at hnone
        by_cases hxo : x = dold
        · subst hxo
          exact guard_fail_witnesses t x hmd hg
        · rcases hE x hx hnone with hcur | h20
          · exact absurd (Option.some.inj (hcd.symm.trans hcur))
              (fun hh => hxo hh.symm)
          · exact h20

theorem q1MemoryTracker_INVC {D U : Type} [DecidableEq D] [DecidableEq U]
    (records : List (D × U)) : INVC (q1MemoryTracker records) := by
  have hgen : ∀ (rs : List (D × U)) (t : DateTracker D U), INVC t →
      INVC (rs.foldl (fun t r => t.addTweet r.1 r.2) t) := by
    intro rs
    induction rs with
    | nil => exact fun t h => h
    | cons r rest ih =>
      intro t h
      exact ih _ (addTweet_preserves_INVC r.1 r.2 h)
  refine hgen records _ ⟨?_, rfl, ?_, ?_⟩
  · show (keysOf ([] : CounterL D)).Nodup
    exact List.nodup_nil
  · intro hne
    exact absurd rfl hne
  · intro x hx
    exact absurd hx (List.not_mem_nil x)

theorem filterMap_dictGet_map_fst {D U : Type} [DecidableEq D]
    (tu : List (D × U)) :
    ∀ (l : List (D × Nat)),
      (∀ p ∈ l, dictGet tu p.1 ≠ none) →
        (l.filterMap (fun p => (dictGet tu p.1).map (fun u => (p.1, u)))).map
          Prod.fst = l.map Prod.fst
  | [], _ => rfl
  | p :: rest, h => by
    obtain ⟨v, hv⟩ :=
      Option.ne_none_iff_exists'.mp (h p (List.mem_cons_self p rest))
    have ih := filterMap_dictGet_map_fst tu rest
      (fun q hq => h q (List.mem_cons_of_mem p hq))
    simp only [List.filterMap_cons, hv, Option.map_some', List.map_cons]
    rw [ih]

/-- For any record stream, `get_top_results(10)` returns one row per top-10
tracked date: the `if date in self.top_users` filter never drops one. -/
theorem q1MemoryRun_map_fst {D U : Type} [DecidableEq D] [DecidableEq U]
    (records : List (D × U)) :
    (q1MemoryRun records).map Prod.fst
      = (mostCommon 10 (q1MemoryFinal records).date_counts).map Prod.fst := by
  have hrun : q1MemoryRun records
      = (mostCommon 10 (q1MemoryFinal records).date_counts).filterMap
          (fun p => (dictGet (q1MemoryFinal records).top_users p.1).map
            (fun u => (p.1, u))) := rfl
  rw [hrun]
  apply filterMap_dictGet_map_fst
  intro p hp hnone
  have hfin : ∀ x ∈ keysOf (q1MemoryFinal records).date_counts,
      dictGet (q1MemoryFinal records).top_users x = none →
        20 ≤ (q1MemoryFinal records).date_counts.countP
          (fun q => decide (cnt (q1MemoryFinal records).date_counts x < q.2)) :=
    closeGroup_final (q1MemoryTracker_INVC records)
  have hmemdc : p ∈ (q1MemoryFinal records).date_counts :=
    mostCommon_subset_self hp
  have hkey : p.1 ∈ keysOf (q1MemoryFinal records).date_counts :=
    mem_keysOf.mpr ⟨p.2, hmemdc⟩
  have h20 := hfin p.1 hkey hnone
  have hcnt : cnt (q1MemoryFinal records).date_counts p.1 = p.2 :=
    cnt_of_mem_nodup (q1MemoryFinal_nodup_dates records) hmemdc
  have hsorted : (sortDesc (q1MemoryFinal records).date_counts).Pairwise
      countGE := sortDesc_sorted _
  have hp' : p ∈ (sortDesc (q1MemoryFinal records).date_counts).take 10 := hp
  have h10 := sorted_top_countP hsorted 10 hp'
  have hperm := (sortDesc_perm (q1MemoryFinal records).date_counts).countP_eq
    (fun q => decide (p.2 < q.2))
  rw [hcnt] at h20
  omega

/-- **C6** (confirmed, non-vacuously): for every grouped input to the nested
date → top-user query, the list returned by `q1_memory` contains one row for
each of the top-10 dates by tracked count — the `if date in self.top_users`
filter of `get_top_results` never silently omits a top-ranked date, because a
date whose finalized best-user entry is missing (its group closed below the
`_get_min_count` threshold, or the entry was evicted by `_prune_data`) is
always outranked by at least `max_dates = 20` surviving dates with strictly
larger counts, and hence never ranks in the top 10. -/
theorem c6_top_dates_surfaced {D U : Type} [DecidableEq D] [DecidableEq U]
    (gs : List (D × List U)) :
    (q1MemoryRun (flattenGroups gs)).map Prod.fst
      = (mostCommon 10 (q1MemoryFinal (flattenGroups gs)).date_counts).map
          Prod.fst :=
  q1MemoryRun_map_fst (flattenGroups gs)

end ClaimC6

end TweetQueries
